import Mathlib

/-!
# Line propagation in livegrep (`server/fastforward.go`)

A shallow embedding of the line-alignment engine `analyzeEditAndMapLine`, the slice
provider `getFileSlice` and the propagator `FastForward`, followed by the properties
established about them.

Conventions of the embedding.

* A Go `string` is the list of its bytes (`GoString = List Nat`); `len` is the byte count
  and `s[i]` a byte, as in Go.
* A Go `int` is an `Int`. Where the arguments of a function can carry a sum past the
  64-bit range (the bounds test of `getFileSlice`), the sum is wrapped around with
  `wrapInt`, as Go does.
* A Go call has three outcomes: a value, a returned `error`, or a run-time panic
  (index or slice bounds out of range).
-/

namespace Livegrep

/-! ## Go values -/

/-- A Go string, as the list of its bytes. -/
abbrev GoString := List Nat

/-- The bytes (UTF-8) of a string literal. -/
def bytes (s : String) : GoString :=
  (s.toList.flatMap String.utf8EncodeChar).map UInt8.toNat

/-- The errors the functions of `fastforward.go` return. -/
inductive GoError where
  /-- "Line number is out of range" -/
  | lineOutOfRange
  /-- "Cannot propagate line number in a deletion" -/
  | deletionNotPropagatable
  /-- "gitObjectType failed" -/
  | notABlob
  /-- "Unable to slice file content" -/
  | sliceOutOfRange
  /-- "Repo not configured for blame" -/
  | repoNotConfigured
  /-- "unable to obtain blame information for commits" -/
  | blameUnavailable
  /-- "Invalid line number %d in %s" -/
  | invalidLine (lineno : Int) (commit : String)
  /-- "Invalid number of results from FindCommitBatch" -/
  | invalidFindCommitBatch
  /-- "Should not reach here" -/
  | shouldNotReachHere
  /-- An error handed up unchanged from a collaborator (git, the history index). -/
  | external (msg : String)
  deriving DecidableEq, Repr

/-- Outcome of a Go call. -/
inductive Outcome (α : Type) where
  /-- Normal return with a nil error. -/
  | ok (v : α)
  /-- Return with a non-nil error. -/
  | error (e : GoError)
  /-- Run-time panic: an index or a slice bound out of range. -/
  | panic
  deriving DecidableEq, Repr

deriving instance DecidableEq for Except

/-- The result of an operation on Go's `int` (64 bits on the platforms the server runs
on): the integer `x` wrapped around in two's complement, into `[-2^63, 2^63)`. -/
def wrapInt (x : Int) : Int :=
  (x + 9223372036854775808) % 18446744073709551616 - 9223372036854775808

/-- Go indexing `xs[i]`: `none` stands for the out-of-range panic. -/
def index? {α : Type} (xs : List α) (i : Int) : Option α :=
  if i < 0 then none else xs.get? i.toNat

/-- Go slicing `xs[lo:hi]` of a slice whose capacity is its length: `none` stands for the
slice-bounds panic. -/
def slice? {α : Type} (xs : List α) (lo hi : Int) : Option (List α) :=
  if 0 ≤ lo ∧ lo ≤ hi ∧ hi ≤ xs.length then
    some ((xs.drop lo.toNat).take (hi.toNat - lo.toNat))
  else none

/-- Go `strings.Join(elems, sep)`. -/
def stringsJoin (elems : List GoString) (sep : GoString) : GoString :=
  match elems with
  | [] => []
  | [e] => e
  | e :: rest => e ++ sep ++ stringsJoin rest sep

/-- The separator `"\n"`. -/
def newline : GoString := [10]

/-- Go `strings.Split(s, "\n")`, given the piece being read and the rest of the text. -/
def splitLinesAux (cur : GoString) : GoString → List GoString
  | [] => [cur.reverse]
  | c :: rest => if c = 10 then cur.reverse :: splitLinesAux [] rest else splitLinesAux (c :: cur) rest

/-- Go `strings.Split(content, "\n")`. -/
def stringsSplit (content : GoString) : List GoString :=
  splitLinesAux [] content

/-- Width in bytes of the rune that a `for i := range s` loop decodes at the head of `s`
(the Go runtime's `decoderune`): a valid multi-byte UTF-8 sequence is stepped over as a
whole, anything else is one byte wide. -/
def runeWidth : GoString → Nat
  | [] => 1
  | b0 :: rest =>
    let cont := fun (b : Nat) => 128 ≤ b ∧ b ≤ 191
    if b0 < 128 then 1
    else if 192 ≤ b0 ∧ b0 < 224 then
      match rest with
      | b1 :: _ =>
        if cont b1 ∧ 127 < (b0 % 32) * 64 + b1 % 64 then 2 else 1
      | _ => 1
    else if 224 ≤ b0 ∧ b0 < 240 then
      match rest with
      | b1 :: b2 :: _ =>
        let r := (b0 % 16) * 4096 + (b1 % 64) * 64 + b2 % 64
        if cont b1 ∧ cont b2 ∧ 2047 < r ∧ ¬ (55296 ≤ r ∧ r ≤ 57343) then 3 else 1
      | _ => 1
    else if 240 ≤ b0 ∧ b0 < 248 then
      match rest with
      | b1 :: b2 :: b3 :: _ =>
        let r := (b0 % 8) * 262144 + (b1 % 64) * 4096 + (b2 % 64) * 64 + b3 % 64
        if cont b1 ∧ cont b2 ∧ cont b3 ∧ 65535 < r ∧ r ≤ 1114111 then 4 else 1
      | _ => 1
    else 1

/-! ## The line-alignment engine -/

/-- `penaltyForDistance` (fastforward.go:32). -/
def penaltyForDistance (distance : Int) : Int :=
  if distance < 1 then 0
  else if distance = 1 then 1
  else 2

/-- `min` (fastforward.go:42). -/
def min (a b : Int) : Int := if a < b then a else b

/-- `max` (fastforward.go:45). -/
def max (a b : Int) : Int := if a > b then a else b

/-- `SOURCE_CHUNK_MAX_CONTEXT` (fastforward.go:50). -/
def SOURCE_CHUNK_MAX_CONTEXT : Int := 10

/-- `penaltyForSkipping` (fastforward.go:76). -/
def penaltyForSkipping : Int := 2

/-- `penaltyForSkippingImportantLine` (fastforward.go:77). -/
def penaltyForSkippingImportantLine : Int := 10

/-- One cell of the tables: `(score[i][j], track[i][j])`. -/
abbrev Cell := Int × Int

/-- A row `i` of the two tables, one cell per byte of `target_chars`. -/
abbrev Row := List Cell

/-- The value `score[i][j]` of a row; every read the loops make is in range, the rows
being as long as `target_chars`. -/
def Row.scoreAt (row : Row) (j : Nat) : Int := (row.getD j (-1, -1)).1

/-- `penaltyForSkippingThisChar` for row `i` (fastforward.go:82-85). -/
def penaltyForSkippingThisChar (i1 i2 : Int) (i : Nat) : Int :=
  if i1 ≤ i ∧ (i : Int) < i2 then penaltyForSkippingImportantLine else penaltyForSkipping

/-- Row `i == 0` (fastforward.go:91-98), from column `j` on; `ts` are the bytes
`target_chars[j:]`. -/
def firstRowFrom (source_char : Nat) (p : Int) : Nat → GoString → Row
  | _, [] => []
  | j, t :: ts =>
    (if source_char = t then penaltyForDistance j
     else if j = 0 then p
     else -1, -1) :: firstRowFrom source_char p (j + 1) ts

/-- The loop `for k := k_restart; k < j; k++` (fastforward.go:105-112) with `n` iterations
left, on the state `(best_score, best_predecessor)`. -/
def scanPredecessors (prev : Row) (j : Nat) : Nat → Nat → Int × Int → Int × Int
  | 0, _, best => best
  | n + 1, k, best =>
    if prev.scoreAt k < 0 then scanPredecessors prev j n (k + 1) best
    else
      let candidate_score := prev.scoreAt k + penaltyForDistance ((j : Int) - k)
      if best.1 = -1 ∨ candidate_score < best.1 then
        scanPredecessors prev j n (k + 1) (candidate_score, k)
      else scanPredecessors prev j n (k + 1) best

/-- Row `i >= 1` (fastforward.go:100-120), from column `j` on, given row `i-1` and the loop
state `(best_score, best_predecessor)` and `k_restart`. -/
def nextRowFrom (source_char : Nat) (p : Int) (prev : Row) :
    Nat → GoString → Int × Int → Nat → Row
  | _, [], _, _ => []
  | j, t :: ts, best, k_restart =>
    if source_char = t then
      let best' := scanPredecessors prev j (j - k_restart) k_restart best
      best' :: nextRowFrom source_char p prev (j + 1) ts best' j
    else if prev.scoreAt j > -1 then
      (prev.scoreAt j + p, (j : Int)) :: nextRowFrom source_char p prev (j + 1) ts best k_restart
    else
      (-1, -1) :: nextRowFrom source_char p prev (j + 1) ts best k_restart

/-- A row the loop `for i := range source_chars` never visits (`i` is inside a multi-byte
rune): it keeps the zeroes `make` put there. -/
def untouchedRow (target_chars : GoString) : Row :=
  target_chars.map (fun _ => (0, 0))

/-- The rows `i, i+1, ...` of the tables (fastforward.go:81-122); `rest` is
`source_chars[i:]`, `skip` the number of bytes left of the rune being stepped over and
`prev` the row `i-1`. -/
def tableFrom (target_chars : GoString) (i1 i2 : Int) :
    Nat → Nat → Row → GoString → List Row
  | _, _, _, [] => []
  | i, 0, prev, source_char :: rest =>
    let p := penaltyForSkippingThisChar i1 i2 i
    let row :=
      if i = 0 then firstRowFrom source_char p 0 target_chars
      else nextRowFrom source_char p prev 0 target_chars (-1, -1) 0
    row :: tableFrom target_chars i1 i2 (i + 1) (runeWidth (source_char :: rest) - 1) row rest
  | i, skip + 1, _, _ :: rest =>
    untouchedRow target_chars ::
      tableFrom target_chars i1 i2 (i + 1) skip (untouchedRow target_chars) rest

/-- The tables `score` and `track` after the loop of fastforward.go:81-122. -/
def table (source_chars target_chars : GoString) (i1 i2 : Int) : List Row :=
  tableFrom target_chars i1 i2 0 0 [] source_chars

/-- The choice of the last row's cell (fastforward.go:128-135), from column `j` on, on the
state `(best_score, cursor)`. -/
def lastCursorFrom (lenT : Nat) : Nat → Row → Int × Int → Int × Int
  | _, [], st => st
  | j, cell :: cells, st =>
    let candidate_score := cell.1 + penaltyForDistance ((lenT : Int) - 1 - j)
    if cell.1 ≥ 0 ∧ (st.1 = -1 ∨ st.1 > candidate_score) then
      lastCursorFrom lenT (j + 1) cells (candidate_score, j)
    else lastCursorFrom lenT (j + 1) cells st

/-- The steps `cursor = track[i+1][cursor]; mapping[i] = cursor` (fastforward.go:137-139)
for `i = n-2, ..., 0`, given the rows `n-1, ..., 1`; the result lists
`mapping[n-2], ..., mapping[0]`, and is `none` when an index is out of range. -/
def walkBack : List Row → Int → Option (List Int)
  | [], _ => some []
  | row :: rows, cursor =>
    match index? row cursor with
    | none => none
    | some cell =>
      match walkBack rows cell.2 with
      | none => none
      | some ms => some (cell.2 :: ms)

/-- The array `mapping` after the loop of fastforward.go:124-140. -/
def backtrack (rows : List Row) (lenT : Nat) : Option (List Int) :=
  match rows.reverse with
  | [] => some []
  | last :: above =>
    let cursor := (lastCursorFrom lenT 0 last (-1, 0)).2
    match walkBack (last :: above).dropLast cursor with
    | none => none
    | some ms => some (cursor :: ms).reverse

/-- `target_line_beginnings` (fastforward.go:144-148), from the entry `b` on. -/
def lineBeginningsFrom (b : Int) : List GoString → List Int
  | [] => [b]
  | l :: ls => b :: lineBeginningsFrom (b + l.length + 1) ls

/-- The inner loop `for ; j < len(target_line_histogram) - 1; j++` (fastforward.go:151-155)
with `n` iterations left; `last` is `len(target_line_histogram) - 1`. -/
def advance (beginnings : List Int) (m : Int) (last : Nat) : Nat → Nat → Nat
  | 0, j => j
  | n + 1, j =>
    if j < last then
      if beginnings.getD j 0 ≤ m ∧ m < beginnings.getD (j + 1) 0 then j
      else advance beginnings m last n (j + 1)
    else j

/-- The loop `for _, m := range mapping[i1:i2]` (fastforward.go:150-157). -/
def projectOnLines (beginnings : List Int) (last : Nat) : List Int → Nat → List Int → List Int
  | [], _, histogram => histogram
  | m :: ms, j, histogram =>
    let j' := advance beginnings m last (last - j) j
    projectOnLines beginnings last ms j' (histogram.modify (· + 1) j')

/-- The loop choosing `best_target_line` (fastforward.go:158-165), from index `i` on, on the
state `(best_score, best_target_line)`. -/
def bestLineFrom : Nat → List Int → Int × Int → Int × Int
  | _, [], st => st
  | i, h :: hs, st =>
    if st.1 < h then bestLineFrom (i + 1) hs (h, i) else bestLineFrom (i + 1) hs st

/-- The body of `analyzeEditAndMapLine` below the truncation (fastforward.go:66-166), for
`1 <= source_lineno <= len(source_lines)` and `len(target_lines) >= 1`. -/
def alignLines (source_lines target_lines : List GoString) (source_lineno : Int) :
    Outcome Int :=
  let source_chars := stringsJoin source_lines newline
  let target_chars := stringsJoin target_lines newline
  match slice? source_lines 0 (source_lineno - 1), index? source_lines (source_lineno - 1) with
  | some before, some line =>
    let i1 : Int := (stringsJoin before newline).length
    let i2 : Int := i1 + line.length
    match backtrack (table source_chars target_chars i1 i2) target_chars.length with
    | none => .panic
    | some mapping =>
      match slice? mapping i1 i2 with
      | none => .panic
      | some important =>
        let target_line_beginnings := lineBeginningsFrom 0 target_lines
        let target_line_histogram :=
          projectOnLines target_line_beginnings (target_lines.length - 1) important 0
            (target_lines.map (fun _ => 0))
        .ok ((bestLineFrom 0 target_line_histogram (0, 0)).2 + 1)
  | _, _ => .panic

/-- `analyzeEditAndMapLine` (fastforward.go:53). -/
def analyzeEditAndMapLine (source_lines target_lines : List GoString) (source_lineno : Int) :
    Outcome Int :=
  if h1 : source_lineno < 1 ∨ source_lineno > source_lines.length then
    .error .lineOutOfRange
  else if target_lines.length < 1 then
    .error .deletionNotPropagatable
  else if h8 : source_lines.length > 8 then
    let new_start := max (source_lineno - SOURCE_CHUNK_MAX_CONTEXT / 2) 1
    let new_end := min (source_lineno + SOURCE_CHUNK_MAX_CONTEXT / 2) source_lines.length
    match hw : slice? source_lines (new_start - 1) (new_end - 1) with
    | none => .panic
    | some window =>
      have : window.length < source_lines.length := by
        unfold slice? at hw
        split at hw
        · rename_i hb
          have hlen : window.length ≤ (new_end - 1).toNat - (new_start - 1).toNat := by
            have := Option.some.inj hw
            rw [← this]
            exact List.length_take_le _ _
          have hend : new_end ≤ source_lines.length := by
            show min _ _ ≤ _
            unfold min
            split <;> omega
          omega
        · exact absurd hw (by simp)
      analyzeEditAndMapLine window target_lines (source_lineno - new_start + 1)
  else
    alignLines source_lines target_lines source_lineno
termination_by source_lines.length

/-! ## The collaborators of the propagator -/

/-- Modelled from the spec: the declaration of a blame record is not among the sources; it
is "a pair `(origin_commit, origin_line_number)`", read by `FastForward` as `b.Commit.Hash`
and `b.LineNumber`. -/
structure BlameLine where
  /-- `b.Commit.Hash` -/
  CommitHash : String
  /-- `b.LineNumber` -/
  LineNumber : Int
  deriving DecidableEq, Repr

/-- Modelled from the spec: the declaration of a hunk is not among the sources; it is
`Hunk = { old_start, old_length, new_start, new_length }`, read by `FastForward` as
`hunk.OldStart`, `hunk.OldLength`, `hunk.NewStart` and `hunk.NewLength`. -/
structure Hunk where
  /-- `hunk.OldStart` -/
  OldStart : Int
  /-- `hunk.OldLength` -/
  OldLength : Int
  /-- `hunk.NewStart` -/
  NewStart : Int
  /-- `hunk.NewLength` -/
  NewLength : Int
  deriving DecidableEq, Repr

/-- Modelled from the spec: the declaration of a file-history record is not among the
sources; "each record carries the commit hash and a set of hunks", read by `FastForward`
as `fileHistory[i].Commit.Hash` and `fileHistory[i].Hunks`. -/
structure FileCommit where
  /-- `.Commit.Hash` -/
  CommitHash : String
  /-- `.Hunks` -/
  Hunks : List Hunk
  deriving DecidableEq, Repr

/-- The history index of a repository, `histories[repo.Name]`: its two methods that
`FastForward` calls, taken as parameters. A `nil` blame vector is `none`. -/
structure GitHistory where
  /-- `gitHistory.FileBlameVectorBatch(commits, file)` -/
  FileBlameVectorBatch : List String → String → Except GoError (List (Option (List BlameLine)))
  /-- `gitHistory.FindCommitBatch(commits, file)`: the file history and the indices -/
  FindCommitBatch : List String → String → Except GoError (List FileCommit × List Int)

/-- What `FastForward` and `getFileSlice` see of the repository `repo`: the entry of
`histories`, and the answers of git. -/
structure Repo where
  /-- The lookup `histories[repo.Name]`; `none` when there is no entry. -/
  history : Option GitHistory
  /-- Go `path.Clean` -/
  pathClean : String → String
  /-- `gitObjectType(obj, repo.Path)` (fileview.go:119) -/
  gitObjectType : String → Except GoError String
  /-- `gitCatBlob(obj, repo.Path)` (fileview.go:127) -/
  gitCatBlob : String → Except GoError GoString
  /-- The answers of `gitCatBlob` are Go strings, held in memory: they have fewer than
  `2^62` bytes, so that `len(lines) + 1` does not wrap around. -/
  gitCatBlob_fits : ∀ (obj : String) (content : GoString),
    gitCatBlob obj = .ok content → content.length < 4611686018427387904

/-! ## The slice provider -/

/-- `getFileSlice` (fastforward.go:12); `start` and `length` are Go `int`s, and the sums
and differences of fastforward.go:26-27 are taken in `int`. -/
def getFileSlice (repo : Repo) (commit file : String) (start length : Int) :
    Outcome (List GoString) :=
  let obj := commit ++ ":" ++ repo.pathClean file
  match repo.gitObjectType obj with
  | .error err => .error err
  | .ok objectType =>
    if objectType ≠ "blob" then .error .notABlob
    else
      match repo.gitCatBlob obj with
      | .error err => .error err
      | .ok content =>
        let lines := stringsSplit content
        if start ≥ 1 ∧ length ≥ 0 ∧ wrapInt (start + length) ≤ wrapInt (lines.length + 1) then
          match slice? lines (wrapInt (start - 1)) (wrapInt (wrapInt (start - 1) + length)) with
          | some ls => .ok ls
          | none => .panic
        else .error .sliceOutOfRange

/-! ## The propagator -/

/-- The test of fastforward.go:190: the blame record `b` has the origin `origin`. -/
def sameOrigin (origin b : BlameLine) : Prop :=
  b.CommitHash = origin.CommitHash ∧ b.LineNumber = origin.LineNumber

instance (origin b : BlameLine) : Decidable (sameOrigin origin b) := by
  unfold sameOrigin; exact inferInstance

/-- The loop `for i, b := range blamevectors[1]` (fastforward.go:189-193), from index `i`
on: the index of the first record with the origin `origin`. -/
def findOrigin (origin : BlameLine) : Nat → List BlameLine → Option Nat
  | _, [] => none
  | i, b :: bs => if sameOrigin origin b then some i else findOrigin origin (i + 1) bs

/-- The test of fastforward.go:223: the old range of `hunk` contains `source_lineno`. -/
def inOldRange (source_lineno : Int) (hunk : Hunk) : Prop :=
  source_lineno ≥ hunk.OldStart ∧ source_lineno < hunk.OldStart + hunk.OldLength

instance (source_lineno : Int) (hunk : Hunk) : Decidable (inOldRange source_lineno hunk) := by
  unfold inOldRange; exact inferInstance

/-- The search of the loop `for _, hunk := range fileHistory[index_target].Hunks`
(fastforward.go:222-223): the first hunk whose old range contains `source_lineno`. -/
def findHunk (source_lineno : Int) : List Hunk → Option Hunk
  | [] => none
  | hunk :: rest => if inOldRange source_lineno hunk then some hunk else findHunk source_lineno rest

/-- The `else` branch of `FastForward` (fastforward.go:222-245), on the hunks of
`fileHistory[index_target]`. -/
def mapThroughHunks (repo : Repo) (file source_commit target_commit : String)
    (source_lineno : Int) (hunks : List Hunk) : Outcome (String × Int) :=
  match findHunk source_lineno hunks with
  | none => .error .shouldNotReachHere
  | some hunk =>
    if hunk.NewLength = 0 then .ok (source_commit, source_lineno)
    else
      match getFileSlice repo source_commit file hunk.OldStart hunk.OldLength with
      | .error err => .error err
      | .panic => .panic
      | .ok source_lines =>
        match getFileSlice repo target_commit file hunk.NewStart hunk.NewLength with
        | .error err => .error err
        | .panic => .panic
        | .ok target_lines =>
          match analyzeEditAndMapLine source_lines target_lines
              (source_lineno - hunk.OldStart + 1) with
          | .error err => .error err
          | .panic => .panic
          | .ok result => .ok (target_commit, result + hunk.NewStart - 1)

/-- `FastForward` (fastforward.go:174) with a bound `fuel` on the depth of its recursion;
`none` means that the bound was reached. Go's `/` on `int` truncates (`Int.tdiv`). -/
def FastForwardFuel (repo : Repo) (file : String) :
    Nat → String → String → Int → Option (Outcome (String × Int))
  | 0, _, _, _ => none
  | fuel + 1, source_commit, target_commit, source_lineno =>
    match repo.history with
    | none => some (.error .repoNotConfigured)
    | some gitHistory =>
      match gitHistory.FileBlameVectorBatch [source_commit, target_commit] file with
      | .ok [some blamevector0, some blamevector1] =>
        if source_lineno < 1 ∨ source_lineno > blamevector0.length then
          some (.error (.invalidLine source_lineno source_commit))
        else
          match index? blamevector0 (source_lineno - 1) with
          | none => some .panic
          | some origin =>
            match findOrigin origin 0 blamevector1 with
            | some i => some (.ok (target_commit, (i : Int) + 1))
            | none =>
              match gitHistory.FindCommitBatch [source_commit, target_commit] file with
              | .error err => some (.error err)
              | .ok (fileHistory, [index0, index1]) =>
                let index_source := index0 - 1
                let index_target := index1 - 1
                if index_source + 1 < index_target then
                  match index? fileHistory ((index_source + index_target).tdiv 2) with
                  | none => some .panic
                  | some middle =>
                    let middle_commit := middle.CommitHash
                    match FastForwardFuel repo file fuel source_commit middle_commit
                        source_lineno with
                    | none => none
                    | some (.error err) => some (.error err)
                    | some .panic => some .panic
                    | some (.ok (commit, middle_lineno)) =>
                      if commit ≠ middle_commit then some (.ok (commit, middle_lineno))
                      else FastForwardFuel repo file fuel middle_commit target_commit
                        middle_lineno
                else
                  match index? fileHistory index_target with
                  | none => some .panic
                  | some target =>
                    some (mapThroughHunks repo file source_commit target_commit source_lineno
                      target.Hunks)
              | .ok _ => some (.error .invalidFindCommitBatch)
      | _ => some (.error .blameUnavailable)

/-! ## The data of `TestAnalyzeEditAndMapLine` (fastforward_test.go) -/

/-- `source_lines` of the test (fastforward_test.go:9-20). -/
def testSourceLines : List GoString :=
  ["func my_function(arg1 int, arg2 int, arg3 string) \x7b",
   "\t if (arg1 == arg2) \x7b",
   "\t\t  log.Print(\"They are the same\")",
   "\t \x7d",
   "\t log.Printf(\"Checked equality\")",
   "\t while (arg1 < arg2) \x7b",
   "\t\t  arg1 += 1",
   "\t \x7d",
   "\t log.Printf(\"Values are %d and %d\", arg1, arg2)",
   "\x7d"].map bytes

/-- `target_lines` of the test (fastforward_test.go:21-31). -/
def testTargetLines : List GoString :=
  ["// Comments",
   "func my_method(arg_a int, arg_b int, arg_c string) \x7b",
   "\t if (arg_a == arg_b) \x7b",
   "\t\t  log.Print(\"They are the same\")",
   "\t \x7d",
   "\t while (arg_a < arg_b) \x7b arg_a += 1 \x7d",
   "\t log.Printf(\"Values are %d and %d\", arg_a, arg_b)",
   "\t log.Printf(\"Done!\")",
   "\x7d"].map bytes

/-! ## Invariants of the data the propagator reads -/

/-- A consistent history index for `file`: every answer of `FindCommitBatch` with two
indices carries the file history `fileHistory` and the indices `index a`, `index b` of the
two commits asked for, and the index of the commit of each file-history record is the
1-based position of that record. -/
def ConsistentIndex (gitHistory : GitHistory) (file : String)
    (fileHistory : List FileCommit) (index : String → Int) : Prop :=
  (∀ a b fh index0 index1,
      gitHistory.FindCommitBatch [a, b] file = .ok (fh, [index0, index1]) →
        fh = fileHistory ∧ index0 = index a ∧ index1 = index b) ∧
    (∀ (m : Nat) (record : FileCommit),
      fileHistory.get? m = some record → index record.CommitHash = m + 1)

/-- Each blame vector has as many entries as the file has lines at its commit;
`numLines c` is the number of lines of the file at commit `c`. -/
def BlameVectorsSized (gitHistory : GitHistory) (file : String) (numLines : String → Int) :
    Prop :=
  ∀ a b bv0 bv1, gitHistory.FileBlameVectorBatch [a, b] file = .ok [some bv0, some bv1] →
    (bv0.length : Int) = numLines a ∧ (bv1.length : Int) = numLines b

/-- Every hunk of the file-history record at the index of a commit `c` lies, on its new
side, within the file at `c`: `new_start >= 1` and `new_start + new_length <= N_new + 1`. -/
def HunksWithinFile (fileHistory : List FileCommit) (index : String → Int)
    (numLines : String → Int) : Prop :=
  ∀ (c : String) (m : Nat) (record : FileCommit) (hunk : Hunk),
    index c = m + 1 → fileHistory.get? m = some record → hunk ∈ record.Hunks →
      1 ≤ hunk.NewStart ∧ hunk.NewStart + hunk.NewLength ≤ numLines c + 1

/-! ## A small repository

The file `f` over three commits: `c1` holds the lines `a`, `b`, `c`; `c2` inserts `x` at
the top and rewrites `b` into `B`; `c3` deletes the last line `c`. -/

/-- The blame vectors of `f`. -/
def demoBlame (commit : String) : Option (List BlameLine) :=
  if commit = "c1" then some [⟨"c1", 1⟩, ⟨"c1", 2⟩, ⟨"c1", 3⟩]
  else if commit = "c2" then some [⟨"c2", 1⟩, ⟨"c1", 1⟩, ⟨"c2", 3⟩, ⟨"c1", 3⟩]
  else if commit = "c3" then some [⟨"c2", 1⟩, ⟨"c1", 1⟩, ⟨"c2", 3⟩]
  else none

/-- The file history of `f`. -/
def demoFileHistory : List FileCommit :=
  [⟨"c1", [⟨0, 0, 1, 3⟩]⟩, ⟨"c2", [⟨0, 0, 1, 1⟩, ⟨2, 1, 3, 1⟩]⟩, ⟨"c3", [⟨4, 1, 3, 0⟩]⟩]

/-- The 1-based index of a commit in the file history of `f`. -/
def demoIndex (commit : String) : Int :=
  if commit = "c1" then 1 else if commit = "c2" then 2 else if commit = "c3" then 3 else 0

/-- The number of lines of `f` at a commit. -/
def demoNumLines (commit : String) : Int :=
  if commit = "c1" then 3 else if commit = "c2" then 4 else if commit = "c3" then 3 else 0

/-- The history index of the small repository. -/
def demoHistory : GitHistory where
  FileBlameVectorBatch := fun commits _ => .ok (commits.map demoBlame)
  FindCommitBatch := fun commits _ => .ok (demoFileHistory, commits.map demoIndex)

/-- The content of `f` at the three commits. -/
def demoContent (obj : String) : Except GoError GoString :=
  if obj = "c1:f" then .ok (bytes "a\nb\nc")
  else if obj = "c2:f" then .ok (bytes "x\na\nB\nc")
  else if obj = "c3:f" then .ok (bytes "x\na\nB")
  else .error (.external "fatal: Not a valid object name")

/-- The small repository. -/
def demoRepo : Repo where
  history := some demoHistory
  pathClean := id
  gitObjectType := fun obj =>
    match demoContent obj with
    | .ok _ => .ok "blob"
    | .error err => .error err
  gitCatBlob := demoContent
  gitCatBlob_fits := by
    intro obj content h
    unfold demoContent at h
    split at h
    · rw [← Except.ok.inj h]; decide
    · split at h
      · rw [← Except.ok.inj h]; decide
      · split at h
        · rw [← Except.ok.inj h]; decide
        · exact absurd h (by simp)

/-! ## Vocabulary for the alignment of a text with itself -/

/-- A score `s` in column `j` of row `i` is absent, or above `i`, or equal to `i` on or to
the right of the diagonal. -/
def OnDiagonal (i j : Nat) (s : Int) : Prop :=
  s = -1 ∨ (i : Int) < s ∨ (s = i ∧ i ≤ j)

/-- Row `i` of the tables of a text of `n` bytes aligned with itself: every score is
`OnDiagonal`, and the cell on the diagonal is `(i, i - 1)`. -/
def DiagonalRow (n i : Nat) (row : Row) : Prop :=
  row.length = n ∧ (∀ j, j < n → OnDiagonal i j (row.scoreAt j)) ∧
    (i < n → row[i]? = some ((i : Int), (i : Int) - 1))

/-- The offset of line `d` (0-based) in the joined text: the lengths of the lines before
it, each plus one for the separator. -/
def lineStart : List GoString → Nat → Int
  | l :: ls, d + 1 => (l.length : Int) + 1 + lineStart ls d
  | _, _ => 0

/-! ## Views of the code used by the claims -/

/-- The call `FastForward(repo, file, source_commit, target_commit, source_lineno)`
(fastforward.go:183) returns `outcome`: the bounded propagator gives it for some bound. -/
def FastForward (repo : Repo) (file source_commit target_commit : String)
    (source_lineno : Int) (outcome : Outcome (String × Int)) : Prop :=
  ∃ fuel, FastForwardFuel repo file fuel source_commit target_commit source_lineno
    = some outcome

/-- `analyzeEditAndMapLine` (fastforward.go:53) returning, next to its outcome, the number
of times it has called itself (fastforward.go:64). -/
def analyzeEditAndMapLineCounting (source_lines target_lines : List GoString)
    (source_lineno : Int) : Outcome Int × Nat :=
  if h1 : source_lineno < 1 ∨ source_lineno > source_lines.length then
    (.error .lineOutOfRange, 0)
  else if target_lines.length < 1 then
    (.error .deletionNotPropagatable, 0)
  else if h8 : source_lines.length > 8 then
    let new_start := max (source_lineno - SOURCE_CHUNK_MAX_CONTEXT / 2) 1
    let new_end := min (source_lineno + SOURCE_CHUNK_MAX_CONTEXT / 2) source_lines.length
    match hw : slice? source_lines (new_start - 1) (new_end - 1) with
    | none => (.panic, 0)
    | some window =>
      have : window.length < source_lines.length := by
        unfold slice? at hw
        split at hw
        · rename_i hb
          have hlen : window.length ≤ (new_end - 1).toNat - (new_start - 1).toNat := by
            have := Option.some.inj hw
            rw [← this]
            exact List.length_take_le _ _
          have hend : new_end ≤ source_lines.length := by
            show min _ _ ≤ _
            unfold min
            split <;> omega
          omega
        · exact absurd hw (by simp)
      let r := analyzeEditAndMapLineCounting window target_lines (source_lineno - new_start + 1)
      (r.1, r.2 + 1)
  else
    (alignLines source_lines target_lines source_lineno, 0)
termination_by source_lines.length

/-- The array `target_line_histogram` of `analyzeEditAndMapLine` after the loop of
fastforward.go:150-157, on the path below the truncation. -/
def alignHistogram (source_lines target_lines : List GoString) (source_lineno : Int) :
    Outcome (List Int) :=
  let source_chars := stringsJoin source_lines newline
  let target_chars := stringsJoin target_lines newline
  match slice? source_lines 0 (source_lineno - 1), index? source_lines (source_lineno - 1) with
  | some before, some line =>
    let i1 : Int := (stringsJoin before newline).length
    let i2 : Int := i1 + line.length
    match backtrack (table source_chars target_chars i1 i2) target_chars.length with
    | none => .panic
    | some mapping =>
      match slice? mapping i1 i2 with
      | none => .panic
      | some important =>
        .ok (projectOnLines (lineBeginningsFrom 0 target_lines) (target_lines.length - 1)
          important 0 (target_lines.map (fun _ => 0)))
  | _, _ => .panic

/-- The offsets `(i1, i2)` of the distinguished line (fastforward.go:78-79); `none` stands
for the panic of a slice bound or an index out of range. -/
def distinguishedRange (source_lines : List GoString) (source_lineno : Int) :
    Option (Int × Int) :=
  match slice? source_lines 0 (source_lineno - 1), index? source_lines (source_lineno - 1) with
  | some before, some line =>
    let i1 : Int := (stringsJoin before newline).length
    let i2 : Int := i1 + line.length
    some (i1, i2)
  | _, _ => none

/-- The first column from `j` on at which the target holds the byte `c`; `ts` are the
bytes `target_chars[j:]`. Past the last such column this is `len(target_chars)`. -/
def nextMatchFrom (c : Nat) : Nat → GoString → Nat
  | j, [] => j
  | j, t :: ts => if t = c then j else nextMatchFrom c (j + 1) ts

/-- The first column after `k` at which the target holds the byte `c`: the column at which
the loop of fastforward.go:105-112 visits the predecessor `k` in a row whose byte is `c`. -/
def nextMatch (c : Nat) (target_chars : GoString) (k : Nat) : Nat :=
  nextMatchFrom c (k + 1) (target_chars.drop (k + 1))

/-- The cell `b = (score, track)` holds the least of the sums `score[i-1][k] + price k` over
the columns `k < n` at which row `i-1` (`prev`) is defined, with a column `k` that attains
it, and is absent, `(-1, -1)`, when row `i-1` has no defined cell before column `n`. -/
def MatchScore (price : Nat → Int) (prev : Row) (n : Nat) (b : Int × Int) : Prop :=
  ((∀ k, k < n → prev.scoreAt k < 0) ∧ b = (-1, -1)) ∨
  (∃ k, k < n ∧ 0 ≤ prev.scoreAt k ∧ b = (prev.scoreAt k + price k, (k : Int)) ∧
    ∀ k', k' < n → 0 ≤ prev.scoreAt k' → prev.scoreAt k + price k ≤ prev.scoreAt k' + price k')

/-- The offsets that the loop `for i := range s` visits (fastforward.go:81), as one flag
per byte of `s`: the offsets at which a rune starts are visited, the offsets inside a
multi-byte rune are not; `skip` is the number of bytes left of the rune being stepped
over and the list `s[i:]` is what remains of the string. -/
def visitedFrom : Nat → GoString → List Bool
  | _, [] => []
  | 0, b :: rest => true :: visitedFrom (runeWidth (b :: rest) - 1) rest
  | skip + 1, _ :: rest => false :: visitedFrom skip rest

/-- The loop `for i := range s` visits the offset `i`. -/
def rangeVisits (s : GoString) (i : Nat) : Bool :=
  (visitedFrom 0 s).getD i false

/-! ## Unfolding `analyzeEditAndMapLine` -/

theorem analyzeEditAndMapLine_lineOutOfRange (S T : List GoString) (k : Int)
    (h : k < 1 ∨ k > S.length) : analyzeEditAndMapLine S T k = .error .lineOutOfRange := by
  rw [analyzeEditAndMapLine]; simp [h]

theorem analyzeEditAndMapLine_deletion (S T : List GoString) (k : Int)
    (h1 : ¬ (k < 1 ∨ k > S.length)) (h2 : T.length < 1) :
    analyzeEditAndMapLine S T k = .error .deletionNotPropagatable := by
  rw [analyzeEditAndMapLine]; simp only [h1, h2, dite_false, if_true]

theorem analyzeEditAndMapLine_short (S T : List GoString) (k : Int)
    (h1 : ¬ (k < 1 ∨ k > S.length)) (h2 : ¬ T.length < 1) (h8 : ¬ S.length > 8) :
    analyzeEditAndMapLine S T k = alignLines S T k := by
  rw [analyzeEditAndMapLine]; simp only [h1, h2, h8, dite_false, if_false]

theorem analyzeEditAndMapLine_long (S T : List GoString) (k : Int)
    (h1 : ¬ (k < 1 ∨ k > S.length)) (h2 : ¬ T.length < 1) (h8 : S.length > 8) :
    analyzeEditAndMapLine S T k =
      match slice? S (max (k - SOURCE_CHUNK_MAX_CONTEXT / 2) 1 - 1)
          (min (k + SOURCE_CHUNK_MAX_CONTEXT / 2) S.length - 1) with
      | none => .panic
      | some window =>
        analyzeEditAndMapLine window T (k - max (k - SOURCE_CHUNK_MAX_CONTEXT / 2) 1 + 1) := by
  rw [analyzeEditAndMapLine]
  simp only [h1, h2, h8, dite_false, if_false, dite_true]
  split <;> split <;> simp_all

theorem slice?_length {α : Type} (xs w : List α) (lo hi : Int)
    (h : slice? xs lo hi = some w) : (w.length : Int) = hi - lo := by
  unfold slice? at h
  split at h
  · rename_i hb
    have := Option.some.inj h
    rw [← this, List.length_take, List.length_drop]
    omega
  · exact absurd h (by simp)

theorem slice?_isSome {α : Type} (xs : List α) (lo hi : Int)
    (h : 0 ≤ lo ∧ lo ≤ hi ∧ hi ≤ xs.length) :
    slice? xs lo hi = some ((xs.drop lo.toNat).take (hi.toNat - lo.toNat)) := by
  unfold slice?; rw [if_pos h]

/-- The last line of a source of more than 8 lines falls outside the truncated window
`source_lines[new_start-1:new_end-1]`, and the self-call rejects it. -/
theorem analyzeEditAndMapLine_last_of_long (S T : List GoString)
    (h8 : S.length > 8) (hT : 1 ≤ T.length) :
    analyzeEditAndMapLine S T S.length = .error .lineOutOfRange := by
  have hs : max ((S.length : Int) - SOURCE_CHUNK_MAX_CONTEXT / 2) 1 = S.length - 5 := by
    unfold max SOURCE_CHUNK_MAX_CONTEXT; split <;> omega
  have he : min ((S.length : Int) + SOURCE_CHUNK_MAX_CONTEXT / 2) S.length = S.length := by
    unfold min SOURCE_CHUNK_MAX_CONTEXT; split <;> omega
  rw [analyzeEditAndMapLine_long S T _ (by omega) (by omega) h8, hs, he]
  have hw := slice?_isSome S ((S.length : Int) - 5 - 1) ((S.length : Int) - 1)
    ⟨by omega, by omega, by omega⟩
  have hl := slice?_length _ _ _ _ hw
  rw [hw]
  exact analyzeEditAndMapLine_lineOutOfRange _ _ _ (Or.inr (by omega))

/-! ## Bounds of the result -/

theorem projectOnLines_length (beginnings : List Int) (last : Nat) (ms : List Int) :
    ∀ (j : Nat) (histogram : List Int),
      (projectOnLines beginnings last ms j histogram).length = histogram.length := by
  induction ms with
  | nil => intro j histogram; rfl
  | cons m ms ih =>
    intro j histogram
    simp only [projectOnLines]
    rw [ih, List.length_modify]

theorem bestLineFrom_range (hs : List Int) :
    ∀ (i : Nat) (st : Int × Int),
      (bestLineFrom i hs st).2 = st.2 ∨
        ((i : Int) ≤ (bestLineFrom i hs st).2 ∧ (bestLineFrom i hs st).2 < i + hs.length) := by
  induction hs with
  | nil => intro i st; exact Or.inl rfl
  | cons h hs ih =>
    intro i st
    simp only [bestLineFrom, List.length_cons]
    split
    · rcases ih (i + 1) (h, (i : Int)) with h1 | h1
      · right; rw [h1]; constructor <;> push_cast <;> omega
      · right; push_cast at h1 ⊢; omega
    · rcases ih (i + 1) st with h1 | h1
      · exact Or.inl h1
      · right; push_cast at h1 ⊢; omega

theorem alignLines_bounds (S T : List GoString) (k r : Int) (hT : 1 ≤ T.length)
    (h : alignLines S T k = .ok r) : 1 ≤ r ∧ r ≤ T.length := by
  unfold alignLines at h
  simp only at h
  split at h
  · split at h
    · exact absurd h (by simp)
    · split at h
      · exact absurd h (by simp)
      · have hr := Outcome.ok.inj h
        rw [← hr]
        rcases bestLineFrom_range
          (projectOnLines (lineBeginningsFrom 0 T) (T.length - 1) ‹List Int› 0
            (T.map (fun _ => 0))) 0 (0, 0) with h1 | h1
        · rw [h1]; constructor <;> simp; omega
        · rw [projectOnLines_length, List.length_map] at h1
          push_cast at h1
          omega
  · exact absurd h (by simp)

theorem analyzeEditAndMapLine_bounds (S T : List GoString) (k r : Int)
    (h : analyzeEditAndMapLine S T k = .ok r) : 1 ≤ r ∧ r ≤ T.length := by
  induction S, T, k using analyzeEditAndMapLine.induct with
  | case1 S T k h1 =>
    rw [analyzeEditAndMapLine_lineOutOfRange S T k h1] at h; exact absurd h (by simp)
  | case2 S T k h1 h2 =>
    rw [analyzeEditAndMapLine_deletion S T k h1 h2] at h; exact absurd h (by simp)
  | case3 S T k h1 h2 h8 new_start new_end hw =>
    rw [analyzeEditAndMapLine_long S T k h1 h2 h8, hw] at h; exact absurd h (by simp)
  | case4 S T k h1 h2 h8 new_start new_end window hw _ ih =>
    rw [analyzeEditAndMapLine_long S T k h1 h2 h8, hw] at h
    exact ih h
  | case5 S T k h1 h2 h8 =>
    rw [analyzeEditAndMapLine_short S T k h1 h2 h8] at h
    exact alignLines_bounds S T k r (by omega) h

/-! ## Claims about the alignment engine -/

/-- The range `[i1, i2)` starts one byte early from line 2 on: on the two one-byte lines
`a`, `b`, aligned with themselves, line 2 is mapped to line 1. -/
theorem second_line_of_one_byte_maps_to_first :
    analyzeEditAndMapLine [[97], [98]] [[97], [98]] 2 = .ok 1 := by
  rw [analyzeEditAndMapLine_short _ _ _ (by decide) (by decide) (by decide)]
  decide

/-- The alignment can end in a run-time panic: on the line `aaa` against the line `a` the
last row of the tables has no defined cell, and backtracking indexes `track` with `-1`. -/
theorem analyzeEditAndMapLine_can_panic :
    analyzeEditAndMapLine [[97, 97, 97]] [[97]] 1 = .panic := by
  rw [analyzeEditAndMapLine_short _ _ _ (by decide) (by decide) (by decide)]
  decide

/-- C2: on the source and target of `TestAnalyzeEditAndMapLine` the call for line 10, for
which the test expects 9, returns the error "Line number is out of range". -/
theorem test_line_10_is_rejected :
    analyzeEditAndMapLine testSourceLines testTargetLines 10 = .error .lineOutOfRange :=
  analyzeEditAndMapLine_last_of_long testSourceLines testTargetLines (by decide) (by decide)

/-- C3 does not hold of the code: for every source of more than 8 lines and every non-empty
target, the call for the last source line, which meets both preconditions, returns the
error "Line number is out of range". -/
theorem last_line_of_long_source_is_rejected (S T : List GoString)
    (h8 : S.length > 8) (hT : T ≠ []) :
    (1 : Int) ≤ S.length ∧ analyzeEditAndMapLine S T S.length = .error .lineOutOfRange := by
  have hT1 : 1 ≤ T.length := by
    cases T with
    | nil => exact absurd rfl hT
    | cons t ts => simp
  exact ⟨by omega, analyzeEditAndMapLine_last_of_long S T h8 hT1⟩

/-- Witness of C3's theorem: nine lines `x` against the one line `x`, line 9. -/
theorem last_line_of_long_source_is_rejected_witness :
    (1 : Int) ≤ (List.replicate 9 [120]).length ∧
      analyzeEditAndMapLine (List.replicate 9 [120]) [[120]]
        ((List.replicate 9 [120]).length) = .error .lineOutOfRange :=
  last_line_of_long_source_is_rejected (List.replicate 9 [120]) [[120]] (by decide) (by decide)

/-- C4 (Bounds): whenever `analyzeEditAndMapLine` returns a line number `r`,
`1 <= r <= len(target_lines)`. -/
theorem analyzeEditAndMapLine_result_in_target (source_lines target_lines : List GoString)
    (source_lineno r : Int)
    (h : analyzeEditAndMapLine source_lines target_lines source_lineno = .ok r) :
    1 ≤ r ∧ r ≤ target_lines.length :=
  analyzeEditAndMapLine_bounds source_lines target_lines source_lineno r h

/-- Witness of C4: the line `ab` aligned with the lines `b`, `ab` is mapped to line 2. -/
theorem analyzeEditAndMapLine_result_in_target_witness :
    analyzeEditAndMapLine [[97, 98]] [[98], [97, 98]] 1 = .ok 2 ∧
      (1 : Int) ≤ 2 ∧ (2 : Int) ≤ ([[98], [97, 98]] : List GoString).length :=
  have h : analyzeEditAndMapLine [[97, 98]] [[98], [97, 98]] 1 = .ok 2 := by
    rw [analyzeEditAndMapLine_short _ _ _ (by decide) (by decide) (by decide)]
    decide
  ⟨h, analyzeEditAndMapLine_result_in_target _ _ _ _ h⟩

/-- C5 (error returns): a line number outside `1..len(source_lines)` gives the error
"Line number is out of range", whatever the target and however long the source; otherwise
an empty target gives "Cannot propagate line number in a deletion", however long the
source. -/
theorem analyzeEditAndMapLine_error_returns (source_lines target_lines : List GoString)
    (source_lineno : Int) :
    ((source_lineno < 1 ∨ source_lineno > source_lines.length) →
        analyzeEditAndMapLine source_lines target_lines source_lineno
          = .error .lineOutOfRange) ∧
      (1 ≤ source_lineno → source_lineno ≤ source_lines.length → target_lines = [] →
        analyzeEditAndMapLine source_lines target_lines source_lineno
          = .error .deletionNotPropagatable) := by
  refine ⟨analyzeEditAndMapLine_lineOutOfRange _ _ _, fun h1 h2 hT => ?_⟩
  subst hT
  exact analyzeEditAndMapLine_deletion _ _ _ (by omega) (by simp)

/-- Witness of C5: line 0 of a ten-line source against the empty target is out of range,
line 3 of it cannot be propagated in a deletion. -/
theorem analyzeEditAndMapLine_error_returns_witness :
    analyzeEditAndMapLine testSourceLines [] 0 = .error .lineOutOfRange ∧
      analyzeEditAndMapLine testSourceLines [] 3 = .error .deletionNotPropagatable :=
  ⟨(analyzeEditAndMapLine_error_returns testSourceLines [] 0).1 (by decide),
   (analyzeEditAndMapLine_error_returns testSourceLines [] 3).2 (by decide) (by decide) rfl⟩

/-! ## The steps of the propagator -/

theorem findOrigin_first (origin : BlameLine) (bs : List BlameLine) :
    ∀ (i j : Nat) (b : BlameLine), bs.get? j = some b → sameOrigin origin b →
      (∀ j', j' < j → ∀ b', bs.get? j' = some b' → ¬ sameOrigin origin b') →
      findOrigin origin i bs = some (i + j) := by
  induction bs with
  | nil => intro i j b hj; simp at hj
  | cons b0 bs ih =>
    intro i j b hj hm hfirst
    cases j with
    | zero =>
      simp at hj
      subst hj
      simp [findOrigin, hm]
    | succ j =>
      have h0 : ¬ sameOrigin origin b0 := hfirst 0 (by omega) b0 (by simp)
      simp only [findOrigin, h0, if_false]
      rw [ih (i + 1) j b (by simpa using hj) hm
        (fun j' hj' b' hb' => hfirst (j' + 1) (by omega) b' (by simpa using hb'))]
      congr 1; omega

theorem findOrigin_none (origin : BlameLine) (bs : List BlameLine)
    (h : ∀ b ∈ bs, ¬ sameOrigin origin b) : ∀ i, findOrigin origin i bs = none := by
  induction bs with
  | nil => intro i; rfl
  | cons b0 bs ih =>
    intro i
    simp only [findOrigin, h b0 (by simp), if_false]
    exact ih (fun b hb => h b (by simp [hb])) (i + 1)

theorem findOrigin_lt (origin : BlameLine) (bs : List BlameLine) :
    ∀ (i r : Nat), findOrigin origin i bs = some r → i ≤ r ∧ r < i + bs.length := by
  induction bs with
  | nil => intro i r h; simp [findOrigin] at h
  | cons b0 bs ih =>
    intro i r h
    simp only [findOrigin] at h
    split at h
    · have := Option.some.inj h
      simp; omega
    · have := ih (i + 1) r h
      simp; omega

theorem findHunk_first (k : Int) (pre post : List Hunk) (hunk : Hunk)
    (hpre : ∀ h ∈ pre, ¬ inOldRange k h) (hin : inOldRange k hunk) :
    findHunk k (pre ++ hunk :: post) = some hunk := by
  induction pre with
  | nil => simp [findHunk, hin]
  | cons h0 pre ih =>
    simp only [List.cons_append, findHunk, hpre h0 (by simp), if_false]
    exact ih (fun h hh => hpre h (by simp [hh]))

theorem findHunk_mem (k : Int) (hunks : List Hunk) (hunk : Hunk)
    (h : findHunk k hunks = some hunk) : hunk ∈ hunks ∧ inOldRange k hunk := by
  induction hunks with
  | nil => simp [findHunk] at h
  | cons h0 hunks ih =>
    simp only [findHunk] at h
    split at h
    · have := Option.some.inj h
      subst this
      exact ⟨by simp, by assumption⟩
    · exact ⟨by simp [(ih h).1], (ih h).2⟩

/-- The blame shortcut (fastforward.go:181-193). -/
theorem FastForwardFuel_shortcut (repo : Repo) (file source_commit target_commit : String)
    (source_lineno : Int) (fuel : Nat) (gitHistory : GitHistory)
    (bv0 bv1 : List BlameLine) (origin : BlameLine) (i : Nat)
    (hh : repo.history = some gitHistory)
    (hb : gitHistory.FileBlameVectorBatch [source_commit, target_commit] file
      = .ok [some bv0, some bv1])
    (hk : ¬ (source_lineno < 1 ∨ source_lineno > bv0.length))
    (ho : index? bv0 (source_lineno - 1) = some origin)
    (hf : findOrigin origin 0 bv1 = some i) :
    FastForwardFuel repo file (fuel + 1) source_commit target_commit source_lineno
      = some (.ok (target_commit, (i : Int) + 1)) := by
  simp only [FastForwardFuel, hh, hb, hk, ho, hf, if_false]

/-- The propagator below the blame shortcut (fastforward.go:198-245). -/
theorem FastForwardFuel_tracked (repo : Repo) (file source_commit target_commit : String)
    (source_lineno : Int) (fuel : Nat) (gitHistory : GitHistory)
    (bv0 bv1 : List BlameLine) (origin : BlameLine)
    (fileHistory : List FileCommit) (index0 index1 : Int)
    (hh : repo.history = some gitHistory)
    (hb : gitHistory.FileBlameVectorBatch [source_commit, target_commit] file
      = .ok [some bv0, some bv1])
    (hk : ¬ (source_lineno < 1 ∨ source_lineno > bv0.length))
    (ho : index? bv0 (source_lineno - 1) = some origin)
    (hf : findOrigin origin 0 bv1 = none)
    (hc : gitHistory.FindCommitBatch [source_commit, target_commit] file
      = .ok (fileHistory, [index0, index1])) :
    FastForwardFuel repo file (fuel + 1) source_commit target_commit source_lineno =
      if index0 - 1 + 1 < index1 - 1 then
        match index? fileHistory ((index0 - 1 + (index1 - 1)).tdiv 2) with
        | none => some .panic
        | some middle =>
          match FastForwardFuel repo file fuel source_commit middle.CommitHash
              source_lineno with
          | none => none
          | some (.error err) => some (.error err)
          | some .panic => some .panic
          | some (.ok (commit, middle_lineno)) =>
            if commit ≠ middle.CommitHash then some (.ok (commit, middle_lineno))
            else FastForwardFuel repo file fuel middle.CommitHash target_commit middle_lineno
      else
        match index? fileHistory (index1 - 1) with
        | none => some .panic
        | some target =>
          some (mapThroughHunks repo file source_commit target_commit source_lineno
            target.Hunks) := by
  simp only [FastForwardFuel, hh, hb, hk, ho, hf, hc, if_false]

theorem index?_of_get? {α : Type} (xs : List α) (k : Int) (x : α) (hk : 1 ≤ k)
    (h : xs.get? (k - 1).toNat = some x) : index? xs (k - 1) = some x := by
  unfold index?
  rw [if_neg (by omega)]
  exact h

theorem getFileSlice_length (repo : Repo) (commit file : String) (start length : Int)
    (ls : List GoString) (h : getFileSlice repo commit file start length = .ok ls) :
    (ls.length : Int) ≤ length ∧ 1 ≤ start ∧ 0 ≤ length := by
  unfold getFileSlice at h
  simp only at h
  split at h
  · exact absurd h (by simp)
  · split at h
    · exact absurd h (by simp)
    · split at h
      · exact absurd h (by simp)
      · split at h
        · rename_i hb
          split at h
          · rename_i ls' hs
            have hl := slice?_length _ _ _ _ hs
            have hlo : 0 ≤ wrapInt (start - 1) := by
              unfold slice? at hs
              split at hs
              · rename_i hbounds
                exact hbounds.1
              · exact absurd hs (by simp)
            have := Outcome.ok.inj h
            subst this
            unfold wrapInt at hl hlo
            refine ⟨by omega, by omega, by omega⟩
          · exact absurd h (by simp)
        · exact absurd h (by simp)

/-! ## Claims about the propagator: the single steps -/

/-- C6 (blame shortcut): with a history for the repo, both blame vectors present and
`1 <= k <= len(blamevectors[0])`, if the target blame vector has a record with the origin of
source line `k`, the first one at the 0-based index `j`, then `FastForward` returns
`(target_commit, j + 1)` without error, at every positive bound on the recursion depth and
whatever the file history, the hunks and the file contents are. -/
theorem FastForward_blame_shortcut (repo : Repo) (file source_commit target_commit : String)
    (k : Int) (fuel : Nat) (gitHistory : GitHistory) (bv0 bv1 : List BlameLine)
    (origin b : BlameLine) (j : Nat)
    (hh : repo.history = some gitHistory)
    (hb : gitHistory.FileBlameVectorBatch [source_commit, target_commit] file
      = .ok [some bv0, some bv1])
    (hk1 : 1 ≤ k) (hk2 : k ≤ bv0.length)
    (ho : bv0.get? (k - 1).toNat = some origin)
    (hj : bv1.get? j = some b)
    (hm : b.CommitHash = origin.CommitHash ∧ b.LineNumber = origin.LineNumber)
    (hfirst : ∀ j', j' < j → ∀ b', bv1.get? j' = some b' →
      ¬ (b'.CommitHash = origin.CommitHash ∧ b'.LineNumber = origin.LineNumber)) :
    FastForwardFuel repo file (fuel + 1) source_commit target_commit k
      = some (.ok (target_commit, (j : Int) + 1)) := by
  have hf := findOrigin_first origin bv1 0 j b hj hm hfirst
  rw [Nat.zero_add] at hf
  exact FastForwardFuel_shortcut repo file source_commit target_commit k fuel gitHistory
    bv0 bv1 origin j hh hb (by omega) (index?_of_get? bv0 k origin hk1 ho) hf

/-- Witness of C6: in the small repository line 1 of `c1` is line 2 of `c3`. -/
theorem FastForward_blame_shortcut_witness :
    FastForwardFuel demoRepo "f" 1 "c1" "c3" 1 = some (.ok ("c3", 2)) :=
  FastForward_blame_shortcut demoRepo "f" "c1" "c3" 1 0 demoHistory
    [⟨"c1", 1⟩, ⟨"c1", 2⟩, ⟨"c1", 3⟩] [⟨"c2", 1⟩, ⟨"c1", 1⟩, ⟨"c2", 3⟩] ⟨"c1", 1⟩ ⟨"c1", 1⟩ 1
    rfl (by decide) (by decide) (by decide) (by decide) (by decide) (by decide)
    (by
      intro j' hj' b' hb'
      have h0 : j' = 0 := by omega
      subst h0
      have := Option.some.inj hb'
      subst this
      decide)

/-- C9 (deleted line): when the blame shortcut does not fire, no bisection applies and the
first hunk of the target record whose old range contains `k` has `new_length == 0`,
`FastForward` returns `(source_commit, k)` without error, whatever git would answer about
the file contents. -/
theorem FastForward_deleted_line (repo : Repo) (file source_commit target_commit : String)
    (k : Int) (fuel : Nat) (gitHistory : GitHistory) (bv0 bv1 : List BlameLine)
    (origin : BlameLine) (fileHistory : List FileCommit) (index0 index1 : Int)
    (target : FileCommit) (pre post : List Hunk) (hunk : Hunk)
    (hh : repo.history = some gitHistory)
    (hb : gitHistory.FileBlameVectorBatch [source_commit, target_commit] file
      = .ok [some bv0, some bv1])
    (hk1 : 1 ≤ k) (hk2 : k ≤ bv0.length)
    (ho : bv0.get? (k - 1).toNat = some origin)
    (hmiss : ∀ b ∈ bv1,
      ¬ (b.CommitHash = origin.CommitHash ∧ b.LineNumber = origin.LineNumber))
    (hc : gitHistory.FindCommitBatch [source_commit, target_commit] file
      = .ok (fileHistory, [index0, index1]))
    (hnb : ¬ ((index0 - 1) + 1 < index1 - 1))
    (ht : index? fileHistory (index1 - 1) = some target)
    (hhunks : target.Hunks = pre ++ hunk :: post)
    (hpre : ∀ h ∈ pre, ¬ (k ≥ h.OldStart ∧ k < h.OldStart + h.OldLength))
    (hin : k ≥ hunk.OldStart ∧ k < hunk.OldStart + hunk.OldLength)
    (hdel : hunk.NewLength = 0) :
    FastForwardFuel repo file (fuel + 1) source_commit target_commit k
      = some (.ok (source_commit, k)) := by
  rw [FastForwardFuel_tracked repo file source_commit target_commit k fuel gitHistory bv0 bv1
    origin fileHistory index0 index1 hh hb (by omega) (index?_of_get? bv0 k origin hk1 ho)
    (findOrigin_none origin bv1 hmiss 0) hc, if_neg hnb, ht]
  simp only [mapThroughHunks, hhunks, findHunk_first k pre post hunk hpre hin, hdel, if_true]

/-- Witness of C9: in the small repository line 4 of `c2` is deleted by `c3`. -/
theorem FastForward_deleted_line_witness :
    FastForwardFuel demoRepo "f" 1 "c2" "c3" 4 = some (.ok ("c2", 4)) :=
  FastForward_deleted_line demoRepo "f" "c2" "c3" 4 0 demoHistory
    [⟨"c2", 1⟩, ⟨"c1", 1⟩, ⟨"c2", 3⟩, ⟨"c1", 3⟩] [⟨"c2", 1⟩, ⟨"c1", 1⟩, ⟨"c2", 3⟩] ⟨"c1", 3⟩
    demoFileHistory 2 3 ⟨"c3", [⟨4, 1, 3, 0⟩]⟩ [] [] ⟨4, 1, 3, 0⟩
    rfl (by decide) (by decide) (by decide) (by decide) (by decide) (by decide) (by decide)
    (by decide) rfl (by simp) (by decide) rfl

/-- C10 (hunk mapping): when the blame shortcut does not fire, no bisection applies, the
first hunk of the target record whose old range contains `k` has `new_length >= 1` and both
slices succeed, `FastForward` returns `(target_commit, r + new_start - 1)` when the
alignment engine returns `r` on the two slices and `k - old_start + 1`, and returns the
engine's error when it returns one; the line number returned lies in
`[new_start, new_start + new_length - 1]`. -/
theorem FastForward_hunk_mapping (repo : Repo) (file source_commit target_commit : String)
    (k : Int) (fuel : Nat) (gitHistory : GitHistory) (bv0 bv1 : List BlameLine)
    (origin : BlameLine) (fileHistory : List FileCommit) (index0 index1 : Int)
    (target : FileCommit) (pre post : List Hunk) (hunk : Hunk)
    (source_lines target_lines : List GoString)
    (hh : repo.history = some gitHistory)
    (hb : gitHistory.FileBlameVectorBatch [source_commit, target_commit] file
      = .ok [some bv0, some bv1])
    (hk1 : 1 ≤ k) (hk2 : k ≤ bv0.length)
    (ho : bv0.get? (k - 1).toNat = some origin)
    (hmiss : ∀ b ∈ bv1,
      ¬ (b.CommitHash = origin.CommitHash ∧ b.LineNumber = origin.LineNumber))
    (hc : gitHistory.FindCommitBatch [source_commit, target_commit] file
      = .ok (fileHistory, [index0, index1]))
    (hnb : ¬ ((index0 - 1) + 1 < index1 - 1))
    (ht : index? fileHistory (index1 - 1) = some target)
    (hhunks : target.Hunks = pre ++ hunk :: post)
    (hpre : ∀ h ∈ pre, ¬ (k ≥ h.OldStart ∧ k < h.OldStart + h.OldLength))
    (hin : k ≥ hunk.OldStart ∧ k < hunk.OldStart + hunk.OldLength)
    (hnew : hunk.NewLength ≥ 1)
    (hs : getFileSlice repo source_commit file hunk.OldStart hunk.OldLength
      = .ok source_lines)
    (hst : getFileSlice repo target_commit file hunk.NewStart hunk.NewLength
      = .ok target_lines) :
    (∀ r, analyzeEditAndMapLine source_lines target_lines (k - hunk.OldStart + 1) = .ok r →
        FastForwardFuel repo file (fuel + 1) source_commit target_commit k
            = some (.ok (target_commit, r + hunk.NewStart - 1)) ∧
          hunk.NewStart ≤ r + hunk.NewStart - 1 ∧
          r + hunk.NewStart - 1 ≤ hunk.NewStart + hunk.NewLength - 1) ∧
      (∀ err,
        analyzeEditAndMapLine source_lines target_lines (k - hunk.OldStart + 1) = .error err →
          FastForwardFuel repo file (fuel + 1) source_commit target_commit k
            = some (.error err)) := by
  have hstep : FastForwardFuel repo file (fuel + 1) source_commit target_commit k =
      some (match analyzeEditAndMapLine source_lines target_lines (k - hunk.OldStart + 1) with
        | .error err => .error err
        | .panic => .panic
        | .ok result => .ok (target_commit, result + hunk.NewStart - 1)) := by
    rw [FastForwardFuel_tracked repo file source_commit target_commit k fuel gitHistory bv0
      bv1 origin fileHistory index0 index1 hh hb (by omega)
      (index?_of_get? bv0 k origin hk1 ho) (findOrigin_none origin bv1 hmiss 0) hc,
      if_neg hnb, ht]
    have hne : ¬ hunk.NewLength = 0 := by omega
    simp only [mapThroughHunks, hhunks, findHunk_first k pre post hunk hpre hin, hne, hs, hst,
      if_false]
  refine ⟨fun r hr => ?_, fun err herr => ?_⟩
  · have hbnd := analyzeEditAndMapLine_bounds _ _ _ _ hr
    have hlen := (getFileSlice_length repo target_commit file _ _ _ hst).1
    rw [hstep, hr]
    exact ⟨rfl, by omega, by omega⟩
  · rw [hstep, herr]

/-- Witness of C10: in the small repository line 2 of `c1`, rewritten by `c2`, is line 3
of `c2`. -/
theorem FastForward_hunk_mapping_witness :
    FastForwardFuel demoRepo "f" 1 "c1" "c2" 2 = some (.ok ("c2", 1 + 3 - 1)) ∧
      (3 : Int) ≤ 1 + 3 - 1 ∧ (1 : Int) + 3 - 1 ≤ 3 + 1 - 1 :=
  (FastForward_hunk_mapping demoRepo "f" "c1" "c2" 2 0 demoHistory
    [⟨"c1", 1⟩, ⟨"c1", 2⟩, ⟨"c1", 3⟩] [⟨"c2", 1⟩, ⟨"c1", 1⟩, ⟨"c2", 3⟩, ⟨"c1", 3⟩] ⟨"c1", 2⟩
    demoFileHistory 1 2 ⟨"c2", [⟨0, 0, 1, 1⟩, ⟨2, 1, 3, 1⟩]⟩ [⟨0, 0, 1, 1⟩] [] ⟨2, 1, 3, 1⟩
    [[98]] [[66]]
    rfl (by decide) (by decide) (by decide) (by decide) (by decide) (by decide) (by decide)
    (by decide) rfl (by decide) (by decide) (by decide) (by decide) (by decide)).1 1
    (by rw [analyzeEditAndMapLine_short _ _ _ (by decide) (by decide) (by decide)]; decide)


/-! ## The propagator as a whole -/

theorem tdiv_two_between (a b : Int) (hlt : a + 1 < b) :
    a < (a + b).tdiv 2 ∧ (a + b).tdiv 2 < b := by
  by_cases hs : 0 ≤ a + b
  · rw [Int.tdiv_eq_ediv hs (by decide)]
    omega
  · have h1 : (a + b).tdiv 2 = -((-(a + b)).tdiv 2) := by
      rw [Int.neg_tdiv, Int.neg_neg]
    rw [h1, Int.tdiv_eq_ediv (by omega) (by decide)]
    omega

theorem index?_some {α : Type} (xs : List α) (i : Int) (x : α) (h : index? xs i = some x) :
    0 ≤ i ∧ xs.get? i.toNat = some x := by
  unfold index? at h
  split at h
  · exact absurd h (by simp)
  · exact ⟨by omega, h⟩

/-- A normal return of the hunk branch: either the line was deleted and the source is
returned, or the line was mapped into the new range of a hunk of the target record. -/
theorem mapThroughHunks_ok (repo : Repo) (file source target : String) (k : Int)
    (hunks : List Hunk) (c : String) (l : Int)
    (h : mapThroughHunks repo file source target k hunks = .ok (c, l)) :
    (c = source ∧ l = k) ∨
      (c = target ∧ ∃ hunk ∈ hunks,
        hunk.NewStart ≤ l ∧ l ≤ hunk.NewStart + hunk.NewLength - 1) := by
  unfold mapThroughHunks at h
  split at h
  · exact absurd h (by simp)
  · rename_i hunk hf
    split at h
    · have := Outcome.ok.inj h
      simp only [Prod.mk.injEq] at this
      exact Or.inl ⟨this.1.symm, this.2.symm⟩
    · split at h
      · exact absurd h (by simp)
      · exact absurd h (by simp)
      · split at h
        · exact absurd h (by simp)
        · exact absurd h (by simp)
        · rename_i source_lines hs target_lines hst
          split at h
          · exact absurd h (by simp)
          · exact absurd h (by simp)
          · rename_i result hr
            have := Outcome.ok.inj h
            simp only [Prod.mk.injEq] at this
            have hbnd := analyzeEditAndMapLine_bounds _ _ _ _ hr
            have hlen := (getFileSlice_length repo target file _ _ _ hst).1
            refine Or.inr ⟨this.1.symm, hunk, (findHunk_mem k hunks hunk hf).1, ?_, ?_⟩ <;> omega

theorem FastForwardFuel_commit (repo : Repo) (file : String) (gitHistory : GitHistory)
    (fileHistory : List FileCommit) (index : String → Int)
    (hh : repo.history = some gitHistory)
    (hc : ConsistentIndex gitHistory file fileHistory index) :
    ∀ (fuel : Nat) (source target : String) (k : Int) (c : String) (l : Int),
      FastForwardFuel repo file fuel source target k = some (.ok (c, l)) →
      c = target ∨ c = source ∨
        ∃ (m : Nat) (record : FileCommit), index source - 1 < m ∧ (m : Int) < index target - 1 ∧
          fileHistory.get? m = some record ∧ record.CommitHash = c := by
  intro fuel
  induction fuel with
  | zero => intro source target k c l h; simp [FastForwardFuel] at h
  | succ fuel ih =>
    intro source target k c l h
    simp only [FastForwardFuel, hh] at h
    split at h
    · split at h
      · simp at h
      · split at h
        · simp at h
        · split at h
          · simp at h
            exact Or.inl h.1.symm
          · split at h
            · simp at h
            · rename_i fh index0 index1 hfc
              obtain ⟨hfh, h0, h1⟩ := hc.1 _ _ _ _ _ hfc
              subst hfh h0 h1
              split at h
              · rename_i hlt
                have hbt := tdiv_two_between _ _ hlt
                split at h
                · simp at h
                · rename_i middle hmid
                  obtain ⟨hm0, hget⟩ := index?_some _ _ _ hmid
                  have hidx := hc.2 _ _ hget
                  rw [Int.toNat_of_nonneg hm0] at hidx
                  split at h
                  · simp at h
                  · simp at h
                  · simp at h
                  · rename_i commit middle_lineno hrec
                    have h1 := ih _ _ _ _ _ hrec
                    split at h
                    · have := Outcome.ok.inj (Option.some.inj h)
                      simp only [Prod.mk.injEq] at this
                      obtain ⟨hcc, -⟩ := this
                      subst hcc
                      rcases h1 with h1 | h1 | ⟨m, record, hm1, hm2, hm3, hm4⟩
                      · exact absurd h1 (by assumption)
                      · exact Or.inr (Or.inl h1)
                      · exact Or.inr (Or.inr ⟨m, record, hm1, by omega, hm3, hm4⟩)
                    · have h2 := ih _ _ _ _ _ h
                      rcases h2 with h2 | h2 | ⟨m, record, hm1, hm2, hm3, hm4⟩
                      · exact Or.inl h2
                      · refine Or.inr (Or.inr ⟨_, middle, ?_, ?_, hget, h2.symm⟩)
                        · rw [Int.toNat_of_nonneg hm0]; omega
                        · rw [Int.toNat_of_nonneg hm0]; omega
                      · exact Or.inr (Or.inr ⟨m, record, by omega, hm2, hm3, hm4⟩)
              · split at h
                · simp at h
                · have := mapThroughHunks_ok _ _ _ _ _ _ _ _ (Option.some.inj h)
                  rcases this with ⟨h1, -⟩ | ⟨h1, -⟩
                  · exact Or.inr (Or.inl h1)
                  · exact Or.inl h1
            · simp at h
    · simp at h

theorem FastForwardFuel_line (repo : Repo) (file : String) (gitHistory : GitHistory)
    (fileHistory : List FileCommit) (index : String → Int) (numLines : String → Int)
    (hh : repo.history = some gitHistory)
    (hc : ConsistentIndex gitHistory file fileHistory index)
    (hbv : BlameVectorsSized gitHistory file numLines)
    (hhk : HunksWithinFile fileHistory index numLines) :
    ∀ (fuel : Nat) (source target : String) (k : Int) (c : String) (l : Int),
      FastForwardFuel repo file fuel source target k = some (.ok (c, l)) →
      1 ≤ l ∧ l ≤ numLines c := by
  intro fuel
  induction fuel with
  | zero => intro source target k c l h; simp [FastForwardFuel] at h
  | succ fuel ih =>
    intro source target k c l h
    simp only [FastForwardFuel, hh] at h
    split at h
    · rename_i bv0 bv1 hb
      obtain ⟨hn0, hn1⟩ := hbv _ _ _ _ hb
      split at h
      · simp at h
      · rename_i hk
        split at h
        · simp at h
        · split at h
          · rename_i i hfo
            have hi := findOrigin_lt _ _ _ _ hfo
            simp at h
            obtain ⟨h1, h2⟩ := h
            subst h1 h2
            omega
          · split at h
            · simp at h
            · rename_i fh index0 index1 hfc
              obtain ⟨hfh, h0, h1⟩ := hc.1 _ _ _ _ _ hfc
              subst hfh h0 h1
              split at h
              · split at h
                · simp at h
                · split at h
                  · simp at h
                  · simp at h
                  · simp at h
                  · rename_i commit middle_lineno hrec
                    split at h
                    · have := Outcome.ok.inj (Option.some.inj h)
                      simp only [Prod.mk.injEq] at this
                      obtain ⟨hcc, hll⟩ := this
                      subst hcc hll
                      exact ih _ _ _ _ _ hrec
                    · exact ih _ _ _ _ _ h
              · split at h
                · simp at h
                · rename_i record hrec
                  obtain ⟨ht0, hget⟩ := index?_some _ _ _ hrec
                  have := mapThroughHunks_ok _ _ _ _ _ _ _ _ (Option.some.inj h)
                  rcases this with ⟨h1, h2⟩ | ⟨h1, hunk, hmem, hl1, hl2⟩
                  · subst h1 h2; omega
                  · subst h1
                    have := hhk c _ record hunk (by rw [Int.toNat_of_nonneg ht0]; omega) hget hmem
                    omega
            · simp at h
    · simp at h

theorem demo_consistent : ConsistentIndex demoHistory "f" demoFileHistory demoIndex := by
  constructor
  · intro a b fh index0 index1 h
    simp only [demoHistory, List.map, Except.ok.injEq, Prod.mk.injEq, List.cons.injEq,
      and_true] at h
    exact ⟨h.1.symm, h.2.1.symm, h.2.2.symm⟩
  · intro m record h
    match m, h with
    | 0, h => simp [demoFileHistory] at h; subst h; decide
    | 1, h => simp [demoFileHistory] at h; subst h; decide
    | 2, h => simp [demoFileHistory] at h; subst h; decide
    | m + 3, h => simp [demoFileHistory] at h

theorem demo_blameVectorsSized : BlameVectorsSized demoHistory "f" demoNumLines := by
  intro a b bv0 bv1 h
  simp only [demoHistory, List.map, Except.ok.injEq, List.cons.injEq, and_true] at h
  obtain ⟨ha, hb⟩ := h
  constructor
  · unfold demoBlame at ha
    unfold demoNumLines
    split_ifs at ha ⊢ <;> simp_all <;> subst ha <;> rfl
  · unfold demoBlame at hb
    unfold demoNumLines
    split_ifs at hb ⊢ <;> simp_all <;> subst hb <;> rfl

theorem demo_hunksWithinFile : HunksWithinFile demoFileHistory demoIndex demoNumLines := by
  intro c m record hunk hi hget hmem
  unfold demoIndex at hi
  unfold demoNumLines
  split_ifs at hi ⊢
  · have hm : m = 0 := by omega
    subst hm
    simp [demoFileHistory] at hget
    subst hget
    simp at hmem
    subst hmem
    decide
  · have hm : m = 1 := by omega
    subst hm
    simp [demoFileHistory] at hget
    subst hget
    simp at hmem
    rcases hmem with hmem | hmem <;> subst hmem <;> decide
  · have hm : m = 2 := by omega
    subst hm
    simp [demoFileHistory] at hget
    subst hget
    simp at hmem
    subst hmem
    decide
  · omega

/-- C7: over a consistent history index, whenever `FastForward` returns without error, the
commit it returns is the target commit, or the source commit, or the commit of a
file-history record whose 0-based position lies strictly between `i_s` and `i_t`. -/
theorem FastForward_returned_commit (repo : Repo) (file : String) (gitHistory : GitHistory)
    (fileHistory : List FileCommit) (index : String → Int)
    (fuel : Nat) (source_commit target_commit : String) (k : Int) (c : String) (l : Int)
    (hh : repo.history = some gitHistory)
    (hc : ConsistentIndex gitHistory file fileHistory index)
    (h : FastForwardFuel repo file fuel source_commit target_commit k = some (.ok (c, l))) :
    c = target_commit ∨ c = source_commit ∨
      ∃ (m : Nat) (record : FileCommit),
        index source_commit - 1 < m ∧ (m : Int) < index target_commit - 1 ∧
          fileHistory.get? m = some record ∧ record.CommitHash = c :=
  FastForwardFuel_commit repo file gitHistory fileHistory index hh hc fuel source_commit
    target_commit k c l h

/-- Witness of C7: in the small repository line 3 of `c1` is followed from `c1` towards
`c3` up to `c2`, the record at position 1, where it is line 4; `c3` deletes it. -/
theorem FastForward_returned_commit_witness :
    FastForwardFuel demoRepo "f" 2 "c1" "c3" 3 = some (.ok ("c2", 4)) ∧
      ("c2" = "c3" ∨ "c2" = "c1" ∨
        ∃ (m : Nat) (record : FileCommit),
          demoIndex "c1" - 1 < m ∧ (m : Int) < demoIndex "c3" - 1 ∧
            demoFileHistory.get? m = some record ∧ record.CommitHash = "c2") :=
  ⟨by decide,
   FastForward_returned_commit demoRepo "f" demoHistory demoFileHistory demoIndex 2 "c1" "c3" 3
    "c2" 4 rfl demo_consistent (by decide)⟩

/-- C8: under the data-model invariants (blame vectors as long as the file, hunks within
the file on the new side, consistent history index), whenever `FastForward` returns
`(c, l)` without error, `1 <= l <= number of lines of the file at c`. -/
theorem FastForward_returned_line_valid (repo : Repo) (file : String)
    (gitHistory : GitHistory) (fileHistory : List FileCommit) (index : String → Int)
    (numLines : String → Int)
    (fuel : Nat) (source_commit target_commit : String) (k : Int) (c : String) (l : Int)
    (hh : repo.history = some gitHistory)
    (hc : ConsistentIndex gitHistory file fileHistory index)
    (hbv : BlameVectorsSized gitHistory file numLines)
    (hhk : HunksWithinFile fileHistory index numLines)
    (h : FastForwardFuel repo file fuel source_commit target_commit k = some (.ok (c, l))) :
    1 ≤ l ∧ l ≤ numLines c :=
  FastForwardFuel_line repo file gitHistory fileHistory index numLines hh hc hbv hhk fuel
    source_commit target_commit k c l h

/-- Witness of C8: in the small repository line 2 of `c1` is line 3 of `c3`, which has 3
lines. -/
theorem FastForward_returned_line_valid_witness :
    (1 : Int) ≤ 3 ∧ (3 : Int) ≤ demoNumLines "c3" :=
  FastForward_returned_line_valid demoRepo "f" demoHistory demoFileHistory demoIndex
    demoNumLines 2 "c1" "c3" 2 "c3" 3 rfl demo_consistent demo_blameVectorsSized
    demo_hunksWithinFile
    (by
      have ha : analyzeEditAndMapLine [[98]] [[66]] ((2 : Int) - 2 + 1) = .ok 1 := by
        rw [analyzeEditAndMapLine_short _ _ _ (by decide) (by decide) (by decide)]; decide
      have hs : getFileSlice demoRepo "c1" "f" 2 1 = .ok [[98]] := by decide
      have ht : getFileSlice demoRepo "c2" "f" 3 1 = .ok [[66]] := by decide
      have hf : findHunk 2 [⟨0, 0, 1, 1⟩, ⟨2, 1, 3, 1⟩] = some ⟨2, 1, 3, 1⟩ := by decide
      have hm : index? demoFileHistory (((1 : Int) - 1 + (3 - 1)).tdiv 2)
          = some ⟨"c2", [⟨0, 0, 1, 1⟩, ⟨2, 1, 3, 1⟩]⟩ := by decide
      have hm2 : index? demoFileHistory ((2 : Int) - 1)
          = some ⟨"c2", [⟨0, 0, 1, 1⟩, ⟨2, 1, 3, 1⟩]⟩ := by decide
      have h1 : FastForwardFuel demoRepo "f" 1 "c1" "c2" 2 = some (.ok ("c2", 3)) := by
        have hb : demoHistory.FileBlameVectorBatch ["c1", "c2"] "f" = .ok
            [some [⟨"c1", 1⟩, ⟨"c1", 2⟩, ⟨"c1", 3⟩],
             some [⟨"c2", 1⟩, ⟨"c1", 1⟩, ⟨"c2", 3⟩, ⟨"c1", 3⟩]] := by decide
        rw [FastForwardFuel_tracked demoRepo "f" "c1" "c2" 2 0 demoHistory _ _ ⟨"c1", 2⟩
          demoFileHistory 1 2 rfl hb (by decide) (by decide) (by decide) (by decide),
          if_neg (by decide), hm2]
        simp only [mapThroughHunks, hf]
        rw [if_neg (by decide), hs, ht]
        simp only [ha]
        decide
      have h2 : FastForwardFuel demoRepo "f" 1 "c2" "c3" 3 = some (.ok ("c3", 3)) := by
        decide
      have hb : demoHistory.FileBlameVectorBatch ["c1", "c3"] "f" = .ok
          [some [⟨"c1", 1⟩, ⟨"c1", 2⟩, ⟨"c1", 3⟩],
           some [⟨"c2", 1⟩, ⟨"c1", 1⟩, ⟨"c2", 3⟩]] := by decide
      rw [FastForwardFuel_tracked demoRepo "f" "c1" "c3" 2 1 demoHistory _ _ ⟨"c1", 2⟩
        demoFileHistory 1 3 rfl hb (by decide) (by decide) (by decide) (by decide),
        if_pos (by decide), hm]
      simp only [h1, ne_eq, not_true_eq_false, if_false, h2])

/-! ## The alignment of a text with itself -/


theorem penaltyForDistance_cases (d : Int) :
    (d < 1 ∧ penaltyForDistance d = 0) ∨ (d = 1 ∧ penaltyForDistance d = 1) ∨
      (1 < d ∧ penaltyForDistance d = 2) := by
  unfold penaltyForDistance
  split_ifs <;> omega

theorem Row.scoreAt_of_getElem? (row : Row) (j : Nat) (cell : Cell) (h : row[j]? = some cell) :
    row.scoreAt j = cell.1 := by
  simp [Row.scoreAt, List.getD_eq_getElem?_getD, h]

theorem scanPredecessors_before (prev : Row) (i j : Nat) (hj : j ≤ i)
    (hprev : ∀ k, k < j → OnDiagonal i k (prev.scoreAt k)) :
    ∀ (n k : Nat) (best : Int × Int), k + n = j → (best.1 = -1 ∨ (i : Int) + 1 < best.1) →
      (scanPredecessors prev j n k best).1 = -1 ∨
        (i : Int) + 1 < (scanPredecessors prev j n k best).1 := by
  intro n
  induction n with
  | zero => intro k best _ hb; simpa [scanPredecessors] using hb
  | succ n ih =>
    intro k best hk hb
    simp only [scanPredecessors]
    split
    · exact ih (k + 1) best (by omega) hb
    · rename_i hs
      have hd := hprev k (by omega)
      have hpd := penaltyForDistance_cases ((j : Int) - k)
      split
      · refine ih (k + 1) _ (by omega) (Or.inr ?_)
        simp only
        unfold OnDiagonal at hd
        omega
      · exact ih (k + 1) best (by omega) hb

theorem scanPredecessors_at (prev : Row) (i : Nat)
    (hprev : ∀ k, k < i + 1 → OnDiagonal i k (prev.scoreAt k)) (hd : prev.scoreAt i = i) :
    ∀ (n k : Nat) (best : Int × Int), k + (n + 1) = i + 1 →
      (best.1 = -1 ∨ (i : Int) + 1 < best.1) →
      scanPredecessors prev (i + 1) (n + 1) k best = ((i : Int) + 1, (i : Int)) := by
  intro n
  induction n with
  | zero =>
    intro k best hk hb
    have hki : k = i := by omega
    subst hki
    have hpd : penaltyForDistance (((k + 1 : Nat) : Int) - k) = 1 := by
      have : ((k + 1 : Nat) : Int) - k = 1 := by push_cast; ring
      rw [this]; rfl
    simp only [scanPredecessors, hd, hpd]
    rw [if_neg (by omega), if_pos (by omega)]
  | succ n ih =>
    intro k best hk hb
    rw [scanPredecessors]
    split
    · exact ih (k + 1) best (by omega) hb
    · rename_i hs
      have hdk := hprev k (by omega)
      have hpd := penaltyForDistance_cases (((i + 1 : Nat) : Int) - k)
      dsimp only
      split
      · refine ih (k + 1) _ (by omega) (Or.inr ?_)
        simp only
        unfold OnDiagonal at hdk
        push_cast at hpd ⊢
        omega
      · exact ih (k + 1) best (by omega) hb

theorem scanPredecessors_after (prev : Row) (i j : Nat)
    (hprev : ∀ k, k < j → OnDiagonal i k (prev.scoreAt k)) :
    ∀ (n k : Nat), k + n = j →
      scanPredecessors prev j n k ((i : Int) + 1, (i : Int)) = ((i : Int) + 1, (i : Int)) := by
  intro n
  induction n with
  | zero => intro k _; rfl
  | succ n ih =>
    intro k hk
    rw [scanPredecessors]
    split
    · exact ih (k + 1) (by omega)
    · rename_i hs
      have hdk := hprev k (by omega)
      have hpd := penaltyForDistance_cases ((j : Int) - k)
      dsimp only
      rw [if_neg]
      · exact ih (k + 1) (by omega)
      · unfold OnDiagonal at hdk
        omega


theorem drop_cons_getElem? {α : Type} (T : List α) (j : Nat) (t : α) (ts : List α)
    (h : T.drop j = t :: ts) : j < T.length ∧ T[j]? = some t ∧ T.drop (j + 1) = ts := by
  have hj : j < T.length := by
    by_contra hn
    rw [List.drop_of_length_le (by omega)] at h
    exact absurd h (by simp)
  rw [List.drop_eq_getElem_cons hj] at h
  simp only [List.cons.injEq] at h
  exact ⟨hj, by rw [List.getElem?_eq_getElem hj, h.1], h.2⟩

theorem nextRowFrom_diag (T : GoString) (i : Nat) (p : Int) (hp : 2 ≤ p) (prev : Row)
    (hprev : DiagonalRow T.length i prev) (c : Nat) (hc : T[i + 1]? = some c) :
    ∀ (ts : GoString) (j : Nat) (best : Int × Int) (kr : Nat), T.drop j = ts →
      (kr < j ∨ (j = 0 ∧ kr = 0)) →
      (j ≤ i + 1 → best.1 = -1 ∨ (i : Int) + 1 < best.1) →
      (i + 1 < j → best = ((i : Int) + 1, (i : Int))) →
      (nextRowFrom c p prev j ts best kr).length = ts.length ∧
        ∀ d cell, (nextRowFrom c p prev j ts best kr)[d]? = some cell →
          OnDiagonal (i + 1) (j + d) cell.1 ∧
            (j + d = i + 1 → cell = ((i : Int) + 1, (i : Int))) := by
  obtain ⟨hlen, hcells, hdiag⟩ := hprev
  have hi : i < T.length := by
    by_contra hn
    rw [List.getElem?_eq_none (by omega)] at hc
    exact absurd hc (by simp)
  have hdi : prev.scoreAt i = i := by
    rw [Row.scoreAt_of_getElem? prev i _ (hdiag hi)]
  intro ts
  induction ts with
  | nil => intro j best kr _ _ _ _; simp [nextRowFrom]
  | cons t ts ih =>
    intro j best kr hdrop hkr hle hgt
    obtain ⟨hj, htj, hdrop'⟩ := drop_cons_getElem? T j t ts hdrop
    rw [nextRowFrom]
    split
    · rename_i hct
      dsimp only
      have hbest' : (j ≤ i + 1 → j ≠ i + 1 →
            (scanPredecessors prev j (j - kr) kr best).1 = -1 ∨
              (i : Int) + 1 < (scanPredecessors prev j (j - kr) kr best).1) ∧
          (i + 1 ≤ j → scanPredecessors prev j (j - kr) kr best = ((i : Int) + 1, (i : Int))) := by
        constructor
        · intro h1 h2
          exact scanPredecessors_before prev i j (by omega)
            (fun k hk => hcells k (by omega)) (j - kr) kr best (by omega) (hle h1)
        · intro h1
          rcases Nat.eq_or_lt_of_le h1 with h2 | h2
          · subst h2
            obtain ⟨n, hn⟩ : ∃ n, i + 1 - kr = n + 1 := ⟨i + 1 - kr - 1, by omega⟩
            rw [hn]
            exact scanPredecessors_at prev i (fun k hk => hcells k (by omega)) hdi n kr best
              (by omega) (hle (le_refl _))
          · rw [hgt h2]
            exact scanPredecessors_after prev i j (fun k hk => hcells k (by omega)) (j - kr) kr
              (by omega)
      have ih' := ih (j + 1) (scanPredecessors prev j (j - kr) kr best) j hdrop' (Or.inl (by omega))
        (fun h => hbest'.1 (by omega) (by omega)) (fun h => hbest'.2 (by omega))
      refine ⟨by simp [ih'.1], ?_⟩
      intro d cell hcell
      cases d with
      | zero =>
        simp only [List.getElem?_cons_zero, Option.some.injEq] at hcell
        subst hcell
        constructor
        · unfold OnDiagonal
          by_cases h1 : i + 1 ≤ j
          · rw [hbest'.2 h1]; push_cast; omega
          · rcases hbest'.1 (by omega) (by omega) with h2 | h2
            · exact Or.inl h2
            · right; left; push_cast; omega
        · intro h1
          exact hbest'.2 (by omega)
      | succ d =>
        simp only [List.getElem?_cons_succ] at hcell
        have := ih'.2 d cell hcell
        rw [show j + (d + 1) = j + 1 + d by omega]
        exact this
    · rename_i hct
      have hji : j ≠ i + 1 := by
        intro h
        subst h
        rw [htj] at hc
        exact hct (Option.some.inj hc).symm
      have ih' := ih (j + 1) best kr hdrop' (Or.inl (by omega))
        (fun h => hle (by omega)) (fun h => hgt (by omega))
      have hdj := hcells j hj
      split
      · rename_i hs
        refine ⟨by simp [ih'.1], ?_⟩
        intro d cell hcell
        cases d with
        | zero =>
          simp only [List.getElem?_cons_zero, Option.some.injEq] at hcell
          subst hcell
          refine ⟨?_, fun h => absurd h (by omega)⟩
          unfold OnDiagonal at hdj ⊢
          right; left
          push_cast
          omega
        | succ d =>
          simp only [List.getElem?_cons_succ] at hcell
          have := ih'.2 d cell hcell
          rw [show j + (d + 1) = j + 1 + d by omega]
          exact this
      · refine ⟨by simp [ih'.1], ?_⟩
        intro d cell hcell
        cases d with
        | zero =>
          simp only [List.getElem?_cons_zero, Option.some.injEq] at hcell
          subst hcell
          exact ⟨Or.inl rfl, fun h => absurd h (by omega)⟩
        | succ d =>
          simp only [List.getElem?_cons_succ] at hcell
          have := ih'.2 d cell hcell
          rw [show j + (d + 1) = j + 1 + d by omega]
          exact this

theorem firstRowFrom_diag (T : GoString) (p : Int) (hp : 2 ≤ p) (c : Nat)
    (hc : T[0]? = some c) :
    ∀ (ts : GoString) (j : Nat), T.drop j = ts →
      (firstRowFrom c p j ts).length = ts.length ∧
        ∀ d cell, (firstRowFrom c p j ts)[d]? = some cell →
          OnDiagonal 0 (j + d) cell.1 ∧ (j + d = 0 → cell = ((0 : Int), (-1 : Int))) := by
  intro ts
  induction ts with
  | nil => intro j _; simp [firstRowFrom]
  | cons t ts ih =>
    intro j hdrop
    obtain ⟨hj, htj, hdrop'⟩ := drop_cons_getElem? T j t ts hdrop
    have ih' := ih (j + 1) hdrop'
    rw [firstRowFrom]
    refine ⟨by simp [ih'.1], ?_⟩
    intro d cell hcell
    cases d with
    | zero =>
      simp only [List.getElem?_cons_zero, Option.some.injEq] at hcell
      subst hcell
      have hpd := penaltyForDistance_cases (j : Int)
      constructor
      · unfold OnDiagonal
        dsimp only
        split_ifs <;> omega
      · intro h0
        have hj0 : j = 0 := by omega
        subst hj0
        rw [htj] at hc
        have hct : c = t := (Option.some.inj hc).symm
        simp [hct, penaltyForDistance]
    | succ d =>
      simp only [List.getElem?_cons_succ] at hcell
      have := ih'.2 d cell hcell
      rw [show j + (d + 1) = j + 1 + d by omega]
      exact ⟨this.1, fun h => absurd h (by omega)⟩

theorem diagonalRow_of_cells (n i : Nat) (row : Row) (hlen : row.length = n)
    (h : ∀ d cell, row[d]? = some cell →
      OnDiagonal i d cell.1 ∧ (d = i → cell = ((i : Int), (i : Int) - 1))) :
    DiagonalRow n i row := by
  refine ⟨hlen, ?_, ?_⟩
  · intro j hj
    have hj' : j < row.length := by omega
    have hc : row[j]? = some row[j] := List.getElem?_eq_getElem hj'
    rw [Row.scoreAt_of_getElem? row j _ hc]
    exact (h j _ hc).1
  · intro hi
    have hi' : i < row.length := by omega
    have hc : row[i]? = some row[i] := List.getElem?_eq_getElem hi'
    rw [hc, (h i _ hc).2 rfl]


theorem runeWidth_ascii (c : Nat) (rest : GoString) (h : c < 128) :
    runeWidth (c :: rest) = 1 := by
  simp [runeWidth, h]

theorem penaltyForSkippingThisChar_ge (i1 i2 : Int) (i : Nat) :
    2 ≤ penaltyForSkippingThisChar i1 i2 i := by
  unfold penaltyForSkippingThisChar penaltyForSkippingImportantLine penaltyForSkipping
  split_ifs <;> decide

theorem tableFrom_diag (T : GoString) (i1 i2 : Int) :
    ∀ (rest : GoString) (i : Nat) (prev : Row), T.drop i = rest → (∀ b ∈ rest, b < 128) →
      (i ≠ 0 → DiagonalRow T.length (i - 1) prev) →
      (tableFrom T i1 i2 i 0 prev rest).length = rest.length ∧
        ∀ d row, (tableFrom T i1 i2 i 0 prev rest)[d]? = some row →
          DiagonalRow T.length (i + d) row := by
  intro rest
  induction rest with
  | nil => intro i prev _ _ _; simp [tableFrom]
  | cons c rest ih =>
    intro i prev hdrop hascii hprev
    obtain ⟨hi, hci, hdrop'⟩ := drop_cons_getElem? T i c rest hdrop
    have hp := penaltyForSkippingThisChar_ge i1 i2 i
    rw [tableFrom, runeWidth_ascii c rest (hascii c (by simp))]
    have hrow : DiagonalRow T.length i
        (if i = 0 then firstRowFrom c (penaltyForSkippingThisChar i1 i2 i) 0 T
         else nextRowFrom c (penaltyForSkippingThisChar i1 i2 i) prev 0 T (-1, -1) 0) := by
      split
      · rename_i h0
        subst h0
        have h := firstRowFrom_diag T _ hp c hci T 0 rfl
        refine diagonalRow_of_cells _ _ _ h.1 (fun d cell hcell => ?_)
        have := h.2 d cell hcell
        rw [Nat.zero_add] at this
        exact ⟨this.1, fun hd => by rw [this.2 hd]; rfl⟩
      · rename_i h0
        obtain ⟨i', rfl⟩ : ∃ i', i = i' + 1 := ⟨i - 1, by omega⟩
        have h := nextRowFrom_diag T i' _ hp prev (by simpa using hprev h0) c hci T 0 (-1, -1) 0
          rfl (Or.inr ⟨rfl, rfl⟩) (fun _ => Or.inl rfl) (fun h => absurd h (by omega))
        refine diagonalRow_of_cells _ _ _ h.1 (fun d cell hcell => ?_)
        have := h.2 d cell hcell
        rw [Nat.zero_add] at this
        exact ⟨this.1, fun hd => by rw [this.2 hd]; push_cast; simp⟩
    have ih' := ih (i + 1) _ hdrop' (fun b hb => hascii b (by simp [hb]))
      (fun _ => by simpa using hrow)
    refine ⟨by simp [ih'.1], ?_⟩
    intro d row hr
    cases d with
    | zero =>
      simp only [List.getElem?_cons_zero, Option.some.injEq] at hr
      subst hr
      exact hrow
    | succ d =>
      simp only [List.getElem?_cons_succ] at hr
      have := ih'.2 d row hr
      rw [show i + (d + 1) = i + 1 + d by omega]
      exact this

theorem table_diag (T : GoString) (i1 i2 : Int) (hascii : ∀ b ∈ T, b < 128) :
    (table T T i1 i2).length = T.length ∧
      ∀ i row, (table T T i1 i2)[i]? = some row → DiagonalRow T.length i row := by
  have h := tableFrom_diag T i1 i2 T 0 [] rfl hascii (fun h => absurd rfl h)
  refine ⟨h.1, fun i row hr => ?_⟩
  have := h.2 i row hr
  rwa [Nat.zero_add] at this


theorem lastCursorFrom_diag (n : Nat) (row : Row) (hrow : DiagonalRow (n + 1) n row) :
    ∀ (cells : Row) (j : Nat) (st : Int × Int), row.drop j = cells → j ≤ n →
      (st.1 = -1 ∨ (n : Int) < st.1) → (lastCursorFrom (n + 1) j cells st).2 = n := by
  obtain ⟨hlen, hcells, hdiag⟩ := hrow
  intro cells
  induction cells with
  | nil =>
    intro j st hdrop hj _
    have := congrArg List.length hdrop
    simp at this
    omega
  | cons cell cells ih =>
    intro j st hdrop hj hst
    obtain ⟨hjl, hcj, hdrop'⟩ := drop_cons_getElem? row j cell cells hdrop
    have hsc := Row.scoreAt_of_getElem? row j cell hcj
    have hd := hcells j (by omega)
    rw [hsc] at hd
    have hpd := penaltyForDistance_cases (((n + 1 : Nat) : Int) - 1 - j)
    rw [lastCursorFrom]
    rcases Nat.lt_or_ge j n with hlt | hge
    · split
      · refine ih (j + 1) _ hdrop' (by omega) (Or.inr ?_)
        unfold OnDiagonal at hd
        dsimp only
        omega
      · exact ih (j + 1) st hdrop' (by omega) hst
    · have hjn : j = n := by omega
      subst hjn
      have hcell : cell = ((j : Int), (j : Int) - 1) := by
        have := hdiag (by omega)
        rw [hcj] at this
        exact Option.some.inj this
      have hnil : cells = [] := by
        have := congrArg List.length hdrop'
        simp at this
        exact List.eq_nil_of_length_eq_zero (by omega)
      subst hnil
      subst hcell
      have hpd0 : penaltyForDistance (((j + 1 : Nat) : Int) - 1 - j) = 0 := by
        have : ((j + 1 : Nat) : Int) - 1 - j = 0 := by push_cast; ring
        rw [this]; rfl
      rw [hpd0, if_pos]
      · rfl
      · dsimp only
        omega

theorem walkBack_diag :
    ∀ (m : Nat) (rs : List Row), rs.length = m →
      (∀ (d : Nat) (row : Row), rs[d]? = some row →
        row[d + 1]? = some ((d : Int) + 1, (d : Int))) →
      walkBack rs.reverse m = some ((List.range m).reverse.map Int.ofNat) := by
  intro m
  induction m with
  | zero =>
    intro rs hlen _
    have : rs = [] := List.eq_nil_of_length_eq_zero hlen
    subst this
    rfl
  | succ m ih =>
    intro rs hlen hrs
    rcases List.eq_nil_or_concat rs with h | ⟨rs', r, h⟩
    · subst h; simp at hlen
    · subst h
      simp only [List.concat_eq_append, List.length_append, List.length_singleton] at hlen
      have hr : r[m + 1]? = some ((m : Int) + 1, (m : Int)) := by
        apply hrs m r
        simp only [List.concat_eq_append]
        rw [List.getElem?_append_right (by omega)]
        simp [show m - rs'.length = 0 by omega]
      have hidx : index? r (((m + 1 : Nat) : Int)) = some ((m : Int) + 1, (m : Int)) := by
        unfold index?
        rw [if_neg (by omega)]
        simpa using hr
      have ih' := ih rs' (by omega) (fun d row hd => hrs d row (by
        simp only [List.concat_eq_append]
        rw [List.getElem?_append_left]
        · exact hd
        · have := (List.getElem?_eq_some.1 hd).1
          omega))
      simp only [List.concat_eq_append, List.reverse_append, List.reverse_singleton,
        List.singleton_append, walkBack, hidx, ih', List.range_succ, List.map_cons]
      rfl

theorem backtrack_diag (rows : List Row) (n : Nat) (hlen : rows.length = n)
    (hrows : ∀ i row, rows[i]? = some row → DiagonalRow n i row) :
    backtrack rows n = some ((List.range n).map Int.ofNat) := by
  cases rows with
  | nil =>
    simp at hlen
    subst hlen
    rfl
  | cons r0 tail =>
    obtain ⟨m, rfl⟩ : ∃ m, n = m + 1 := ⟨tail.length, by simpa using hlen.symm⟩
    have htl : tail.length = m := by simpa using hlen
    have hrev : (r0 :: tail).reverse = tail.reverse ++ [r0] := by simp
    obtain ⟨last, above, hla⟩ : ∃ last above, (r0 :: tail).reverse = last :: above := by
      cases h : (r0 :: tail).reverse with
      | nil => simp at h
      | cons a b => exact ⟨a, b, rfl⟩
    have hlast : DiagonalRow (m + 1) m last := by
      apply hrows m last
      have h0 : ((r0 :: tail).reverse)[0]? = some last := by rw [hla]; simp
      rw [List.getElem?_reverse (by simp)] at h0
      simpa [htl] using h0
    have hcur := lastCursorFrom_diag m last hlast last 0 (-1, 0) rfl (by omega) (Or.inl rfl)
    have hdl : (last :: above).dropLast = tail.reverse := by
      rw [← hla, hrev, List.dropLast_concat]
    have hwb := walkBack_diag m tail htl (fun d row hd => by
      have h1 := hrows (d + 1) row (by simpa using hd)
      have hdm : d < m := by
        have := (List.getElem?_eq_some.1 hd).1
        omega
      have := h1.2.2 (by omega)
      rw [this]
      push_cast
      simp)
    unfold backtrack
    rw [hla]
    dsimp only
    rw [hdl, hcur, hwb]
    simp only [List.range_succ, List.map_append, List.map_cons, List.map_nil,
      List.reverse_cons, List.map_reverse, List.reverse_reverse]
    rfl


theorem lineStart_zero (X : List GoString) : lineStart X 0 = 0 := by
  cases X <;> rfl

theorem lineBeginningsFrom_getD :
    ∀ (X : List GoString) (b : Int) (d : Nat), d ≤ X.length →
      (lineBeginningsFrom b X).getD d 0 = b + lineStart X d := by
  intro X
  induction X with
  | nil =>
    intro b d hd
    have : d = 0 := by simpa using hd
    subst this
    simp [lineBeginningsFrom, lineStart]
  | cons l ls ih =>
    intro b d hd
    cases d with
    | zero => simp [lineBeginningsFrom, lineStart]
    | succ d =>
      simp only [lineBeginningsFrom, List.getD_cons_succ, lineStart]
      rw [ih _ d (by simpa using hd)]
      ring

theorem lineStart_succ :
    ∀ (X : List GoString) (d : Nat) (l : GoString), X[d]? = some l →
      lineStart X (d + 1) = lineStart X d + l.length + 1 := by
  intro X
  induction X with
  | nil => intro d l h; simp at h
  | cons l0 ls ih =>
    intro d l h
    cases d with
    | zero =>
      simp only [List.getElem?_cons_zero, Option.some.injEq] at h
      subst h
      simp [lineStart, lineStart_zero]
    | succ d =>
      simp only [List.getElem?_cons_succ] at h
      simp only [lineStart]
      rw [ih d l h]
      ring

theorem lineStart_le_succ (X : List GoString) (d : Nat) :
    lineStart X d ≤ lineStart X (d + 1) := by
  induction X generalizing d with
  | nil => simp [lineStart]
  | cons l0 ls ih =>
    cases d with
    | zero => rw [lineStart_zero]; simp only [lineStart]; omega
    | succ d => simp only [lineStart]; have := ih d; omega

theorem lineStart_mono (X : List GoString) (d e : Nat) (h : d ≤ e) :
    lineStart X d ≤ lineStart X e := by
  induction e with
  | zero =>
    have : d = 0 := by omega
    subst this
    exact le_refl _
  | succ e ih =>
    rcases Nat.eq_or_lt_of_le h with h1 | h1
    · subst h1; exact le_refl _
    · exact le_trans (ih (by omega)) (lineStart_le_succ X e)

theorem stringsJoin_length (X : List GoString) (h : X ≠ []) :
    ((stringsJoin X newline).length : Int) + 1 = lineStart X X.length := by
  induction X with
  | nil => exact absurd rfl h
  | cons e rest ih =>
    cases rest with
    | nil => simp [stringsJoin, lineStart]
    | cons e2 rest =>
      have := ih (by simp)
      simp only [stringsJoin, List.length_append, List.length_cons, lineStart, newline,
        List.length_nil] at this ⊢
      push_cast at this ⊢
      omega

theorem lineStart_take :
    ∀ (X : List GoString) (d : Nat), lineStart (X.take d) d = lineStart X d := by
  intro X
  induction X with
  | nil => intro d; simp
  | cons l ls ih =>
    intro d
    cases d with
    | zero => rfl
    | succ d => simp only [List.take_succ_cons, lineStart, ih d]

theorem stringsJoin_take_length (X : List GoString) (d : Nat) (h1 : 1 ≤ d)
    (h2 : d ≤ X.length) :
    ((stringsJoin (X.take d) newline).length : Int) + 1 = lineStart X d := by
  have hne : X.take d ≠ [] := by
    intro h
    have := congrArg List.length h
    rw [List.length_take, Nat.min_eq_left h2] at this
    simp at this
    omega
  have := stringsJoin_length (X.take d) hne
  rw [List.length_take, Nat.min_eq_left h2, lineStart_take] at this
  exact this

theorem stringsJoin_ascii (X : List GoString) (h : ∀ l ∈ X, ∀ b ∈ l, b < 128) :
    ∀ b ∈ stringsJoin X newline, b < 128 := by
  induction X with
  | nil => intro b hb; simp [stringsJoin] at hb
  | cons e rest ih =>
    cases rest with
    | nil => intro b hb; exact h e (by simp) b (by simpa [stringsJoin] using hb)
    | cons e2 rest =>
      intro b hb
      simp only [stringsJoin, List.mem_append, newline, List.mem_singleton] at hb
      rcases hb with (hb | hb) | hb
      · exact h e (by simp) b hb
      · omega
      · exact ih (fun l hl => h l (by simp [hl])) b hb

theorem advance_reach (beginnings : List Int) (m : Int) (last t : Nat)
    (hstop : t = last ∨ (beginnings.getD t 0 ≤ m ∧ m < beginnings.getD (t + 1) 0)) :
    ∀ (n j : Nat), j ≤ t → t ≤ last → last - j ≤ n →
      (∀ j', j ≤ j' → j' < t →
        ¬ (beginnings.getD j' 0 ≤ m ∧ m < beginnings.getD (j' + 1) 0)) →
      advance beginnings m last n j = t := by
  intro n
  induction n with
  | zero =>
    intro j hjt htl hn _
    simp only [advance]
    omega
  | succ n ih =>
    intro j hjt htl hn hskip
    simp only [advance]
    split
    · rename_i hjl
      split
      · rename_i hin
        by_contra hne
        exact hskip j (le_refl _) (by omega) hin
      · rename_i hin
        have hjt' : j < t := by
          rcases Nat.eq_or_lt_of_le hjt with h | h
          · subst h
            rcases hstop with h1 | h1
            · omega
            · exact absurd h1 hin
          · exact h
        exact ih (j + 1) (by omega) htl (by omega) (fun j' h1 h2 => hskip j' (by omega) h2)
    · omega

theorem projectOnLines_stay (beginnings : List Int) (last t : Nat) :
    ∀ (ms : List Int) (histogram : List Int),
      (∀ m ∈ ms, advance beginnings m last (last - t) t = t) →
      ∀ idx, (projectOnLines beginnings last ms t histogram)[idx]? =
        if idx = t then histogram[idx]?.map (· + (ms.length : Int)) else histogram[idx]? := by
  intro ms
  induction ms with
  | nil =>
    intro histogram _ idx
    simp only [projectOnLines, List.length_nil, Nat.cast_zero, add_zero]
    split <;> simp
  | cons m ms ih =>
    intro histogram h idx
    simp only [projectOnLines, h m (by simp)]
    rw [ih _ (fun m' hm' => h m' (by simp [hm'])), List.getElem?_modify]
    by_cases hidx : idx = t
    · subst hidx
      simp only [if_true, List.length_cons]
      cases histogram[idx]? with
      | none => rfl
      | some v => simp; ring
    · have : ¬ t = idx := fun h => hidx h.symm
      simp only [hidx, this, if_false]
      cases histogram[idx]? <;> rfl

theorem projectOnLines_move (beginnings : List Int) (last j t : Nat) (ms : List Int)
    (histogram : List Int)
    (h0 : ∀ m ∈ ms, advance beginnings m last (last - j) j = t)
    (h1 : ∀ m ∈ ms, advance beginnings m last (last - t) t = t) :
    ∀ idx, (projectOnLines beginnings last ms j histogram)[idx]? =
      if idx = t then histogram[idx]?.map (· + (ms.length : Int)) else histogram[idx]? := by
  cases ms with
  | nil =>
    intro idx
    simp only [projectOnLines, List.length_nil, Nat.cast_zero, add_zero]
    split <;> simp
  | cons m ms =>
    intro idx
    simp only [projectOnLines, h0 m (by simp)]
    rw [projectOnLines_stay beginnings last t ms _ (fun m' hm' => h1 m' (by simp [hm'])),
      List.getElem?_modify]
    by_cases hidx : idx = t
    · subst hidx
      simp only [if_true, List.length_cons]
      cases histogram[idx]? with
      | none => rfl
      | some v => simp; ring
    · have : ¬ t = idx := fun h => hidx h.symm
      simp only [hidx, this, if_false]
      cases histogram[idx]? <;> rfl

theorem bestLineFrom_keep (hs : List Int) :
    ∀ (i : Nat) (st : Int × Int), (∀ h ∈ hs, h ≤ st.1) → bestLineFrom i hs st = st := by
  induction hs with
  | nil => intro i st _; rfl
  | cons h hs ih =>
    intro i st hle
    have := hle h (by simp)
    simp only [bestLineFrom]
    rw [if_neg (by omega)]
    exact ih (i + 1) st (fun h' hh' => hle h' (by simp [hh']))

theorem bestLineFrom_first_max (hs : List Int) :
    ∀ (i : Nat) (st : Int × Int) (t : Nat) (v : Int), hs[t]? = some v →
      (∀ (d : Nat) (h : Int), d < t → hs[d]? = some h → h < v) →
      (∀ (d : Nat) (h : Int), hs[d]? = some h → h ≤ v) →
      st.1 < v → (bestLineFrom i hs st).2 = (i : Int) + t := by
  induction hs with
  | nil => intro i st t v h; simp at h
  | cons h0 hs ih =>
    intro i st t v ht hlt hle hst
    cases t with
    | zero =>
      simp only [List.getElem?_cons_zero, Option.some.injEq] at ht
      subst ht
      simp only [bestLineFrom]
      rw [if_pos hst, bestLineFrom_keep hs (i + 1) (h0, (i : Int))
        (fun h' hh' => by
          obtain ⟨d, hd⟩ := List.getElem?_of_mem hh'
          exact hle (d + 1) h' (by simpa using hd))]
      simp
    | succ t =>
      simp only [List.getElem?_cons_succ] at ht
      have h0v : h0 < v := hlt 0 h0 (by omega) (by simp)
      simp only [bestLineFrom]
      have hlt' : ∀ (d : Nat) (h : Int), d < t → hs[d]? = some h → h < v :=
        fun d h hd hh => hlt (d + 1) h (by omega) (by simpa using hh)
      have hle' : ∀ (d : Nat) (h : Int), hs[d]? = some h → h ≤ v :=
        fun d h hh => hle (d + 1) h (by simpa using hh)
      split
      · rw [ih (i + 1) _ t v ht hlt' hle' h0v]; push_cast; ring
      · rw [ih (i + 1) _ t v ht hlt' hle' hst]; push_cast; ring


theorem slice?_range_map (n a b : Nat) (h : a + b ≤ n) :
    slice? ((List.range n).map Int.ofNat) (a : Int) ((a : Int) + b)
      = some ((List.range' a b).map Int.ofNat) := by
  unfold slice?
  rw [if_pos (by simp; omega)]
  congr 1
  apply List.ext_getElem?
  intro idx
  have h1 : ((a : Int) + b).toNat - (a : Int).toNat = b := by omega
  rw [h1]
  simp only [Int.toNat_ofNat, List.getElem?_take, List.getElem?_drop, List.getElem?_map]
  by_cases hb : idx < b
  · rw [if_pos hb, List.getElem?_range (by omega), List.getElem?_range' _ _ hb]
    simp
  · rw [if_neg hb, List.getElem?_eq_none (by simp; omega)]
    rfl

theorem getD_beginnings (X : List GoString) (d : Nat) (hd : d ≤ X.length) :
    (lineBeginningsFrom 0 X).getD d 0 = lineStart X d := by
  rw [lineBeginningsFrom_getD X 0 d hd, zero_add]

theorem zeros_getElem? (X : List GoString) (idx : Nat) :
    (X.map (fun _ => (0 : Int)))[idx]? = if idx < X.length then some 0 else none := by
  rw [List.getElem?_map]
  split
  · rename_i h
    rw [List.getElem?_eq_getElem h]; rfl
  · rename_i h
    rw [List.getElem?_eq_none (by omega)]; rfl

theorem histogram_first_line (X : List GoString) (line : GoString)
    (hline : X[0]? = some line) (hlen : 1 ≤ line.length) :
    (bestLineFrom 0
      (projectOnLines (lineBeginningsFrom 0 X) (X.length - 1)
        ((List.range' 0 line.length).map Int.ofNat) 0 (X.map (fun _ => (0 : Int))))
      (0, 0)).2 = 0 := by
  have hk : 0 < X.length := (List.getElem?_eq_some.1 hline).1
  have hs1 : lineStart X 1 = line.length + 1 := by
    rw [lineStart_succ X 0 line hline, lineStart_zero]; ring
  have hstay : ∀ m ∈ (List.range' 0 line.length).map Int.ofNat,
      advance (lineBeginningsFrom 0 X) m (X.length - 1) (X.length - 1 - 0) 0 = 0 := by
    intro m hm
    simp only [List.mem_map, List.mem_range'_1] at hm
    obtain ⟨e, ⟨_, he⟩, rfl⟩ := hm
    refine advance_reach _ _ _ 0 (Or.inr ?_) _ 0 (le_refl _) (by omega) (by omega)
      (fun j' _ h2 => absurd h2 (by omega))
    rw [getD_beginnings X 0 (by omega), getD_beginnings X 1 (by omega), lineStart_zero, hs1]
    simp only [Int.ofNat_eq_coe]
    omega
  have hpt := projectOnLines_stay (lineBeginningsFrom 0 X) (X.length - 1) 0 _
    (X.map (fun _ => (0 : Int))) hstay
  have := bestLineFrom_first_max
    (projectOnLines (lineBeginningsFrom 0 X) (X.length - 1)
      ((List.range' 0 line.length).map Int.ofNat) 0 (X.map (fun _ => (0 : Int))))
    0 (0, 0) 0 (line.length : Int)
    (by rw [hpt 0, zeros_getElem?]; simp [hk])
    (fun d h hd _ => absurd hd (by omega))
    (fun d h hh => by
      rw [hpt d, zeros_getElem?] at hh
      by_cases hd0 : d = 0
      · subst hd0; simp [hk] at hh; omega
      · simp only [hd0, if_false] at hh
        split at hh
        · have := Option.some.inj hh; omega
        · exact absurd hh (by simp))
    (by simp only; omega)
  simpa using this

theorem histogram_later_line (X : List GoString) (k1 a : Nat) (line : GoString)
    (hline : X[k1 + 1]? = some line) (hlen : 3 ≤ line.length)
    (ha : (a : Int) + 1 = lineStart X (k1 + 1)) :
    (bestLineFrom 0
      (projectOnLines (lineBeginningsFrom 0 X) (X.length - 1)
        ((List.range' a line.length).map Int.ofNat) 0 (X.map (fun _ => (0 : Int))))
      (0, 0)).2 = (k1 : Int) + 1 := by
  have hk : k1 + 1 < X.length := (List.getElem?_eq_some.1 hline).1
  obtain ⟨prevLine, hprev⟩ : ∃ l, X[k1]? = some l :=
    ⟨X[k1], List.getElem?_eq_getElem (by omega)⟩
  have hs0 : lineStart X (k1 + 1) = lineStart X k1 + prevLine.length + 1 :=
    lineStart_succ X k1 prevLine hprev
  have hs2 : lineStart X (k1 + 1 + 1) = lineStart X (k1 + 1) + line.length + 1 :=
    lineStart_succ X (k1 + 1) line hline
  obtain ⟨L, hL⟩ : ∃ L, line.length = L + 1 := ⟨line.length - 1, by omega⟩
  have hfirst : advance (lineBeginningsFrom 0 X) (Int.ofNat a) (X.length - 1)
      (X.length - 1 - 0) 0 = k1 := by
    refine advance_reach _ _ _ k1 (Or.inr ?_) _ 0 (by omega) (by omega) (by omega) ?_
    · rw [getD_beginnings X k1 (by omega), getD_beginnings X (k1 + 1) (by omega)]
      simp only [Int.ofNat_eq_coe]
      omega
    · intro j' _ hj'
      rw [getD_beginnings X j' (by omega), getD_beginnings X (j' + 1) (by omega)]
      have := lineStart_mono X (j' + 1) k1 (by omega)
      simp only [Int.ofNat_eq_coe]
      omega
  have hrest : ∀ m ∈ (List.range' (a + 1) L).map Int.ofNat,
      ∀ j, j = k1 ∨ j = k1 + 1 →
        advance (lineBeginningsFrom 0 X) m (X.length - 1) (X.length - 1 - j) j = k1 + 1 := by
    intro m hm j hj
    simp only [List.mem_map, List.mem_range'_1] at hm
    obtain ⟨e, ⟨he1, he2⟩, rfl⟩ := hm
    refine advance_reach _ _ _ (k1 + 1) (Or.inr ?_) _ j (by omega) (by omega) (by omega) ?_
    · rw [getD_beginnings X (k1 + 1) (by omega), getD_beginnings X (k1 + 1 + 1) (by omega)]
      simp only [Int.ofNat_eq_coe]
      omega
    · intro j' h1 h2
      have hj' : j' = k1 := by omega
      subst hj'
      rw [getD_beginnings X j' (by omega), getD_beginnings X (j' + 1) (by omega)]
      simp only [Int.ofNat_eq_coe]
      omega
  have hpt := projectOnLines_move (lineBeginningsFrom 0 X) (X.length - 1) k1 (k1 + 1)
    ((List.range' (a + 1) L).map Int.ofNat)
    (List.modify (· + 1) k1 (X.map (fun _ => (0 : Int))))
    (fun m hm => hrest m hm k1 (Or.inl rfl)) (fun m hm => hrest m hm (k1 + 1) (Or.inr rfl))
  have hunf : projectOnLines (lineBeginningsFrom 0 X) (X.length - 1)
      ((List.range' a line.length).map Int.ofNat) 0 (X.map (fun _ => (0 : Int))) =
      projectOnLines (lineBeginningsFrom 0 X) (X.length - 1)
        ((List.range' (a + 1) L).map Int.ofNat) k1
        (List.modify (· + 1) k1 (X.map (fun _ => (0 : Int)))) := by
    rw [hL, List.range'_succ, List.map_cons, projectOnLines]
    simp only [hfirst]
  rw [hunf]
  have hcell : ∀ d, (List.modify (· + 1) k1 (X.map (fun _ => (0 : Int))))[d]? =
      if d < X.length then some (if k1 = d then (1 : Int) else 0) else none := by
    intro d
    rw [List.getElem?_modify, zeros_getElem?]
    by_cases hd : d < X.length <;> by_cases hk1 : k1 = d <;> simp [hd, hk1]
  have := bestLineFrom_first_max
    (projectOnLines (lineBeginningsFrom 0 X) (X.length - 1)
      ((List.range' (a + 1) L).map Int.ofNat) k1
      (List.modify (· + 1) k1 (X.map (fun _ => (0 : Int)))))
    0 (0, 0) (k1 + 1) (L : Int)
    (by rw [hpt (k1 + 1), hcell]; simp [hk])
    (fun d h hd hh => by
      rw [hpt d, hcell] at hh
      rw [if_neg (by omega), if_pos (by omega)] at hh
      have := Option.some.inj hh
      split at this <;> omega)
    (fun d h hh => by
      rw [hpt d, hcell] at hh
      by_cases hd0 : d = k1 + 1
      · subst hd0
        simp [hk] at hh
        omega
      · rw [if_neg hd0] at hh
        split at hh
        · have := Option.some.inj hh
          split at this <;> omega
        · exact absurd hh (by simp))
    (by simp only; omega)
  rw [this]
  push_cast
  ring


theorem alignLines_identity (X : List GoString) (k0 : Nat) (line : GoString)
    (hline : X[k0]? = some line) (hascii : ∀ l ∈ X, ∀ b ∈ l, b < 128)
    (hlen : 3 ≤ line.length ∨ (k0 = 0 ∧ 1 ≤ line.length)) :
    alignLines X X ((k0 : Int) + 1) = .ok ((k0 : Int) + 1) := by
  have hk : k0 < X.length := (List.getElem?_eq_some.1 hline).1
  have hne : X ≠ [] := by
    intro h; subst h; simp at hk
  have hn := stringsJoin_length X hne
  have hsl : slice? X 0 ((k0 : Int) + 1 - 1) = some (X.take k0) := by
    unfold slice?
    rw [if_pos (by omega)]
    simp
  have hix : index? X ((k0 : Int) + 1 - 1) = some line := by
    unfold index?
    rw [if_neg (by omega)]
    simpa using hline
  have hs2 : lineStart X (k0 + 1) = lineStart X k0 + line.length + 1 :=
    lineStart_succ X k0 line hline
  have hmono := lineStart_mono X (k0 + 1) X.length (by omega)
  have hi1 : k0 = 0 ∧ (stringsJoin (X.take k0) newline).length = 0 ∨
      1 ≤ k0 ∧ (((stringsJoin (X.take k0) newline).length : Nat) : Int) + 1 = lineStart X k0 := by
    rcases Nat.eq_zero_or_pos k0 with h | h
    · left; subst h; exact ⟨rfl, rfl⟩
    · right; exact ⟨h, stringsJoin_take_length X k0 h (by omega)⟩
  have hfit : (stringsJoin (X.take k0) newline).length + line.length
      ≤ (stringsJoin X newline).length := by
    rcases hi1 with ⟨h0, h1⟩ | ⟨h0, h1⟩
    · subst h0
      rw [lineStart_zero] at hs2
      omega
    · omega
  have hT := table_diag (stringsJoin X newline)
    ((stringsJoin (X.take k0) newline).length : Int)
    (((stringsJoin (X.take k0) newline).length : Int) + line.length)
    (stringsJoin_ascii X hascii)
  have hbt := backtrack_diag _ _ hT.1 hT.2
  have himp := slice?_range_map (stringsJoin X newline).length
    (stringsJoin (X.take k0) newline).length line.length hfit
  unfold alignLines
  simp only [hsl, hix, hbt, himp]
  congr 1
  rcases hi1 with ⟨h0, h1⟩ | ⟨h0, h1⟩
  · subst h0
    have hl1 : 1 ≤ line.length := by omega
    rw [h1, histogram_first_line X line hline hl1]
    rfl
  · obtain ⟨k1, rfl⟩ : ∃ k1, k0 = k1 + 1 := ⟨k0 - 1, by omega⟩
    have hl3 : 3 ≤ line.length := by omega
    rw [histogram_later_line X k1 _ line hline hl3 h1]
    push_cast
    ring

theorem analyzeEditAndMapLine_identity (X : List GoString) (k : Nat) (line : GoString)
    (h8 : X.length ≤ 8) (hascii : ∀ l ∈ X, ∀ b ∈ l, b < 128)
    (hk : 1 ≤ k) (hline : X[k - 1]? = some line)
    (hlen : 3 ≤ line.length ∨ (k = 1 ∧ 1 ≤ line.length)) :
    analyzeEditAndMapLine X X k = .ok (k : Int) := by
  obtain ⟨k0, rfl⟩ : ∃ k0, k = k0 + 1 := ⟨k - 1, by omega⟩
  simp only [Nat.add_sub_cancel] at hline
  have hk0 : k0 < X.length := (List.getElem?_eq_some.1 hline).1
  rw [analyzeEditAndMapLine_short X X _ (by push_cast; omega) (by omega) (by omega)]
  push_cast
  exact alignLines_identity X k0 line hline hascii (by omega)


/-- The truncation makes the alignment of a long text with itself lose the position of
the window: of nine lines `xyz`, line 7 is mapped to line 6. -/
theorem identity_fails_in_a_window :
    analyzeEditAndMapLine (List.replicate 9 [120, 121, 122]) (List.replicate 9 [120, 121, 122]) 7
      = .ok 6 := by
  rw [analyzeEditAndMapLine_long _ _ _ (by decide) (by decide) (by decide)]
  have hw : slice? (List.replicate 9 [120, 121, 122])
      (max (7 - SOURCE_CHUNK_MAX_CONTEXT / 2) 1 - 1)
      (min (7 + SOURCE_CHUNK_MAX_CONTEXT / 2)
        ((List.replicate 9 ([120, 121, 122] : GoString)).length : Int) - 1)
      = some (List.replicate 7 [120, 121, 122]) := by decide
  rw [hw]
  have hk : (7 : Int) - max (7 - SOURCE_CHUNK_MAX_CONTEXT / 2) 1 + 1 = 6 := by decide
  rw [hk]
  show analyzeEditAndMapLine (List.replicate 7 [120, 121, 122])
    (List.replicate 9 [120, 121, 122]) 6 = .ok 6
  rw [analyzeEditAndMapLine_short _ _ _ (by decide) (by decide) (by decide)]
  decide!

/-- C1 (Identity) as stated is false: an empty line has no byte to vote with, the
histogram stays at zero and line 1 is returned; of the lines `a` and the empty line,
aligned with themselves, line 2 is mapped to line 1. -/
theorem identity_fails_on_empty_line :
    analyzeEditAndMapLine [[97], []] [[97], []] 2 = .ok 1 ∧
      analyzeEditAndMapLine [[97], []] [[97], []] 2 ≠ .ok 2 := by
  have h : analyzeEditAndMapLine [[97], []] [[97], []] 2 = .ok 1 := by
    rw [analyzeEditAndMapLine_short _ _ _ (by decide) (by decide) (by decide)]
    decide
  exact ⟨h, by rw [h]; decide⟩

/-- C1 (Identity), amended: for every list `X` of at most 8 lines of ASCII bytes and every
`k` in `1..len(X)` whose line has at least 3 bytes, or at least 1 byte when `k = 1`,
`analyzeEditAndMapLine(X, X, k)` returns `k` without error. -/
theorem identity_on_small_ascii_input (X : List GoString) (k : Nat) (line : GoString)
    (h8 : X.length ≤ 8) (hascii : ∀ l ∈ X, ∀ b ∈ l, b < 128)
    (hk : 1 ≤ k) (hline : X[k - 1]? = some line)
    (hlen : 3 ≤ line.length ∨ (k = 1 ∧ 1 ≤ line.length)) :
    analyzeEditAndMapLine X X k = .ok (k : Int) :=
  analyzeEditAndMapLine_identity X k line h8 hascii hk hline hlen

/-- Witness of C1 as amended: of the lines `abc`, `de`, `fgh`, aligned with themselves,
line 3 is mapped to line 3. -/
theorem identity_on_small_ascii_input_witness :
    analyzeEditAndMapLine [[97, 98, 99], [100, 101], [102, 103, 104]]
      [[97, 98, 99], [100, 101], [102, 103, 104]] ((3 : Nat) : Int) = .ok ((3 : Nat) : Int) :=
  identity_on_small_ascii_input [[97, 98, 99], [100, 101], [102, 103, 104]] 3 [102, 103, 104]
    (by decide) (by decide) (by decide) (by decide) (by decide)

/-! ## The propagator: bisection -/

theorem FastForwardFuel_succ (repo : Repo) (file : String) :
    ∀ (fuel : Nat) (s t : String) (k : Int) (o : Outcome (String × Int)),
      FastForwardFuel repo file fuel s t k = some o →
      FastForwardFuel repo file (fuel + 1) s t k = some o := by
  intro fuel
  induction fuel with
  | zero => intro s t k o h; simp [FastForwardFuel] at h
  | succ fuel ih =>
    intro s t k o h
    rw [FastForwardFuel] at h ⊢
    revert h
    split
    · exact id
    · split
      · split
        · exact id
        · split
          · exact id
          · split
            · exact id
            · split
              · exact id
              · dsimp only
                split
                · split
                  · exact id
                  · rename_i middle hm
                    intro h
                    cases h1 : FastForwardFuel repo file fuel s middle.CommitHash k with
                    | none => simp only [h1] at h; exact absurd h (by simp)
                    | some r =>
                      rw [ih _ _ _ _ h1]
                      simp only [h1] at h
                      cases r with
                      | error e => exact h
                      | panic => exact h
                      | ok v =>
                        obtain ⟨commit, middle_lineno⟩ := v
                        dsimp only at h ⊢
                        split
                        · rename_i hne
                          rwa [if_pos hne] at h
                        · rename_i hne
                          rw [if_neg hne] at h
                          exact ih _ _ _ _ h
                · exact id
              · exact id
      · exact id


theorem FastForwardFuel_le (repo : Repo) (file : String) (fuel fuel' : Nat) (h : fuel ≤ fuel')
    (s t : String) (k : Int) (o : Outcome (String × Int))
    (ho : FastForwardFuel repo file fuel s t k = some o) :
    FastForwardFuel repo file fuel' s t k = some o := by
  induction fuel' with
  | zero =>
    have : fuel = 0 := by omega
    subst this
    exact ho
  | succ fuel' ih =>
    rcases Nat.eq_or_lt_of_le h with h1 | h1
    · subst h1; exact ho
    · exact FastForwardFuel_succ repo file fuel' s t k o (ih (by omega))

/-- The outcome of `FastForward` does not depend on the bound. -/
theorem FastForward_unique (repo : Repo) (file s t : String) (k : Int)
    (o o' : Outcome (String × Int)) (h : FastForward repo file s t k o)
    (h' : FastForward repo file s t k o') : o = o' := by
  obtain ⟨f, hf⟩ := h
  obtain ⟨f', hf'⟩ := h'
  have h1 := FastForwardFuel_le repo file f (Nat.max f f') (Nat.le_max_left _ _) s t k o hf
  have h2 := FastForwardFuel_le repo file f' (Nat.max f f') (Nat.le_max_right _ _) s t k o' hf'
  rw [h1] at h2
  exact Option.some.inj h2

/-- C11 (bisection step): when the blame shortcut does not fire and `i_s + 1 < i_t`, with
`middle` the file-history record at `(i_s + i_t) / 2`: an error of
`FastForward(source, middle, k)` is the error of `FastForward(source, target, k)`; a result
`(c, l)` of it with `c != middle` is the result of `FastForward(source, target, k)`; and
after a result `(middle, l)`, `FastForward(source, target, k)` returns what
`FastForward(middle, target, l)` returns. -/
theorem FastForward_bisection_step (repo : Repo) (file source_commit target_commit : String)
    (k : Int) (gitHistory : GitHistory) (bv0 bv1 : List BlameLine)
    (origin : BlameLine) (fileHistory : List FileCommit) (index0 index1 : Int)
    (middle : FileCommit)
    (hh : repo.history = some gitHistory)
    (hb : gitHistory.FileBlameVectorBatch [source_commit, target_commit] file
      = .ok [some bv0, some bv1])
    (hk1 : 1 ≤ k) (hk2 : k ≤ bv0.length)
    (ho : bv0.get? (k - 1).toNat = some origin)
    (hmiss : ∀ b ∈ bv1,
      ¬ (b.CommitHash = origin.CommitHash ∧ b.LineNumber = origin.LineNumber))
    (hc : gitHistory.FindCommitBatch [source_commit, target_commit] file
      = .ok (fileHistory, [index0, index1]))
    (hlt : (index0 - 1) + 1 < index1 - 1)
    (hm : index? fileHistory (((index0 - 1) + (index1 - 1)).tdiv 2) = some middle) :
    (∀ err, FastForward repo file source_commit middle.CommitHash k (.error err) →
        FastForward repo file source_commit target_commit k (.error err)) ∧
      (∀ c l, FastForward repo file source_commit middle.CommitHash k (.ok (c, l)) →
        c ≠ middle.CommitHash →
        FastForward repo file source_commit target_commit k (.ok (c, l))) ∧
      (∀ l outcome, FastForward repo file source_commit middle.CommitHash k
          (.ok (middle.CommitHash, l)) →
        (FastForward repo file source_commit target_commit k outcome ↔
          FastForward repo file middle.CommitHash target_commit l outcome)) := by
  have hstep : ∀ fuel,
      FastForwardFuel repo file (fuel + 1) source_commit target_commit k =
        match FastForwardFuel repo file fuel source_commit middle.CommitHash k with
        | none => none
        | some (.error err) => some (.error err)
        | some .panic => some .panic
        | some (.ok (commit, middle_lineno)) =>
          if commit ≠ middle.CommitHash then some (.ok (commit, middle_lineno))
          else FastForwardFuel repo file fuel middle.CommitHash target_commit middle_lineno := by
    intro fuel
    rw [FastForwardFuel_tracked repo file source_commit target_commit k fuel gitHistory bv0
      bv1 origin fileHistory index0 index1 hh hb (by omega)
      (index?_of_get? bv0 k origin hk1 ho) (findOrigin_none origin bv1 hmiss 0) hc,
      if_pos hlt, hm]
  refine ⟨?_, ?_, ?_⟩
  · rintro err ⟨fuel, hf⟩
    exact ⟨fuel + 1, by rw [hstep, hf]⟩
  · rintro c l ⟨fuel, hf⟩ hne
    exact ⟨fuel + 1, by rw [hstep, hf]; exact if_pos hne⟩
  · intro l outcome hmid
    constructor
    · rintro ⟨fuel, hf⟩
      cases fuel with
      | zero => simp [FastForwardFuel] at hf
      | succ fuel =>
        rw [hstep] at hf
        cases h1 : FastForwardFuel repo file fuel source_commit middle.CommitHash k with
        | none => rw [h1] at hf; exact absurd hf (by simp)
        | some r =>
          have hr := FastForward_unique repo file _ _ _ _ _ ⟨fuel, h1⟩ hmid
          subst hr
          rw [h1] at hf
          simp only [ne_eq, not_true_eq_false, if_false] at hf
          exact ⟨fuel, hf⟩
    · rintro ⟨fuel, hf⟩
      obtain ⟨fuel', hf'⟩ := hmid
      refine ⟨Nat.max fuel fuel' + 1, ?_⟩
      rw [hstep, FastForwardFuel_le repo file fuel' _ (Nat.le_max_right _ _) _ _ _ _ hf']
      simp only [ne_eq, not_true_eq_false, if_false]
      exact FastForwardFuel_le repo file fuel _ (Nat.le_max_left _ _) _ _ _ _ hf

/-- Witness of C11: in the small repository, line 3 of `c1` towards `c3`: the middle is
`c2`, where the line is line 4, and from `c2` to `c3` it is deleted. -/
theorem FastForward_bisection_step_witness :
    FastForward demoRepo "f" "c1" "c3" 3 (.ok ("c2", 4)) :=
  ((FastForward_bisection_step demoRepo "f" "c1" "c3" 3 demoHistory
    [⟨"c1", 1⟩, ⟨"c1", 2⟩, ⟨"c1", 3⟩] [⟨"c2", 1⟩, ⟨"c1", 1⟩, ⟨"c2", 3⟩] ⟨"c1", 3⟩
    demoFileHistory 1 3 ⟨"c2", [⟨0, 0, 1, 1⟩, ⟨2, 1, 3, 1⟩]⟩
    rfl (by decide) (by decide) (by decide) (by decide) (by decide) (by decide) (by decide)
    (by decide)).2.2 4 (.ok ("c2", 4)) ⟨1, by decide⟩).2 ⟨1, by decide⟩

theorem FastForwardFuel_total (repo : Repo) (file : String) (gitHistory : GitHistory)
    (fileHistory : List FileCommit) (index : String → Int)
    (hh : repo.history = some gitHistory)
    (hc : ConsistentIndex gitHistory file fileHistory index) :
    ∀ (n : Nat) (s t : String) (k : Int), (index t - index s).toNat ≤ n →
      ∃ o, FastForwardFuel repo file (n + 1) s t k = some o := by
  intro n
  induction n with
  | zero =>
    intro s t k hgap
    rw [FastForwardFuel]
    simp only [hh]
    split
    · split
      · exact ⟨_, rfl⟩
      · split
        · exact ⟨_, rfl⟩
        · split
          · exact ⟨_, rfl⟩
          · split
            · exact ⟨_, rfl⟩
            · rename_i fh index0 index1 hfc
              obtain ⟨hfh, h0, h1⟩ := hc.1 _ _ _ _ _ hfc
              subst hfh h0 h1
              rw [if_neg (by omega)]
              split <;> exact ⟨_, rfl⟩
            · exact ⟨_, rfl⟩
    · exact ⟨_, rfl⟩
  | succ n ih =>
    intro s t k hgap
    rw [FastForwardFuel]
    simp only [hh]
    split
    · split
      · exact ⟨_, rfl⟩
      · split
        · exact ⟨_, rfl⟩
        · split
          · exact ⟨_, rfl⟩
          · split
            · exact ⟨_, rfl⟩
            · rename_i fh index0 index1 hfc
              obtain ⟨hfh, h0, h1⟩ := hc.1 _ _ _ _ _ hfc
              subst hfh h0 h1
              split
              · rename_i hlt
                have hbt := tdiv_two_between _ _ hlt
                split
                · exact ⟨_, rfl⟩
                · rename_i middle hmid
                  obtain ⟨hm0, hget⟩ := index?_some _ _ _ hmid
                  have hidx := hc.2 _ _ hget
                  rw [Int.toNat_of_nonneg hm0] at hidx
                  obtain ⟨r, hr⟩ := ih s middle.CommitHash k (by omega)
                  rw [hr]
                  cases r with
                  | error e => exact ⟨_, rfl⟩
                  | panic => exact ⟨_, rfl⟩
                  | ok v =>
                    obtain ⟨commit, middle_lineno⟩ := v
                    dsimp only
                    split
                    · exact ⟨_, rfl⟩
                    · exact ih middle.CommitHash t middle_lineno (by omega)
              · split <;> exact ⟨_, rfl⟩
            · exact ⟨_, rfl⟩
    · exact ⟨_, rfl⟩

/-- C12 (bisection termination): over a consistent history index, when `FastForward`
recurses (`i_s + 1 < i_t`) the position `m` of the middle record lies strictly between
`i_s` and `i_t`, the index of its commit is `m + 1`, so both recursive calls have a
strictly smaller index gap; and `FastForward` returns on every input, within a depth of
`idx_target - idx_source + 1` calls. -/
theorem FastForward_terminates (repo : Repo) (file : String) (gitHistory : GitHistory)
    (fileHistory : List FileCommit) (index : String → Int)
    (hh : repo.history = some gitHistory)
    (hc : ConsistentIndex gitHistory file fileHistory index) :
    (∀ (s t : String) (middle : FileCommit),
        (index s - 1) + 1 < index t - 1 →
        index? fileHistory (((index s - 1) + (index t - 1)).tdiv 2) = some middle →
        (index middle.CommitHash - 1) - (index s - 1) < (index t - 1) - (index s - 1) ∧
          (index t - 1) - (index middle.CommitHash - 1) < (index t - 1) - (index s - 1)) ∧
      ∀ (s t : String) (k : Int),
        ∃ o, FastForwardFuel repo file ((index t - index s).toNat + 1) s t k = some o := by
  refine ⟨fun s t middle hlt hmid => ?_, fun s t k => ?_⟩
  · have hbt := tdiv_two_between _ _ hlt
    obtain ⟨hm0, hget⟩ := index?_some _ _ _ hmid
    have hidx := hc.2 _ _ hget
    rw [Int.toNat_of_nonneg hm0] at hidx
    omega
  · exact FastForwardFuel_total repo file gitHistory fileHistory index hh hc _ s t k (le_refl _)

/-- Witness of C12: in the small repository the call for line 2 from `c1` to `c3` returns
within a depth of 3. -/
theorem FastForward_terminates_witness :
    ∃ o, FastForwardFuel demoRepo "f" ((demoIndex "c3" - demoIndex "c1").toNat + 1)
      "c1" "c3" 2 = some o :=
  (FastForward_terminates demoRepo "f" demoHistory demoFileHistory demoIndex rfl
    demo_consistent).2 "c1" "c3" 2

/-! ## The propagator: errors -/

theorem findHunk_none (k : Int) (hunks : List Hunk)
    (h : ∀ hunk ∈ hunks, ¬ inOldRange k hunk) : findHunk k hunks = none := by
  induction hunks with
  | nil => rfl
  | cons h0 hunks ih =>
    simp only [findHunk, h h0 (by simp), if_false]
    exact ih (fun hunk hh => h hunk (by simp [hh]))

/-- C13: when the blame shortcut does not fire, no bisection applies and no hunk of the
target record has an old range containing `k`, `FastForward` returns the error "Should not
reach here", and no `(commit, line)` pair; hunks that are pure insertions
(`old_length == 0`) contain no line. -/
theorem FastForward_no_containing_hunk (repo : Repo) (file source_commit target_commit : String)
    (k : Int) (fuel : Nat) (gitHistory : GitHistory) (bv0 bv1 : List BlameLine)
    (origin : BlameLine) (fileHistory : List FileCommit) (index0 index1 : Int)
    (target : FileCommit)
    (hh : repo.history = some gitHistory)
    (hb : gitHistory.FileBlameVectorBatch [source_commit, target_commit] file
      = .ok [some bv0, some bv1])
    (hk1 : 1 ≤ k) (hk2 : k ≤ bv0.length)
    (ho : bv0.get? (k - 1).toNat = some origin)
    (hmiss : ∀ b ∈ bv1,
      ¬ (b.CommitHash = origin.CommitHash ∧ b.LineNumber = origin.LineNumber))
    (hc : gitHistory.FindCommitBatch [source_commit, target_commit] file
      = .ok (fileHistory, [index0, index1]))
    (hnb : ¬ ((index0 - 1) + 1 < index1 - 1))
    (ht : index? fileHistory (index1 - 1) = some target)
    (hnone : (∀ h ∈ target.Hunks, ¬ (k ≥ h.OldStart ∧ k < h.OldStart + h.OldLength)) ∨
      (∀ h ∈ target.Hunks, h.OldLength = 0)) :
    FastForwardFuel repo file (fuel + 1) source_commit target_commit k
        = some (.error .shouldNotReachHere) ∧
      ∀ c l, FastForwardFuel repo file (fuel + 1) source_commit target_commit k
        ≠ some (.ok (c, l)) := by
  have hno : ∀ h ∈ target.Hunks, ¬ inOldRange k h := by
    rcases hnone with h1 | h1
    · exact h1
    · intro h hh hin
      have := h1 h hh
      unfold inOldRange at hin
      omega
  have hstep : FastForwardFuel repo file (fuel + 1) source_commit target_commit k
      = some (.error .shouldNotReachHere) := by
    rw [FastForwardFuel_tracked repo file source_commit target_commit k fuel gitHistory bv0
      bv1 origin fileHistory index0 index1 hh hb (by omega)
      (index?_of_get? bv0 k origin hk1 ho) (findOrigin_none origin bv1 hmiss 0) hc,
      if_neg hnb, ht]
    simp only [mapThroughHunks, findHunk_none k target.Hunks hno]
  exact ⟨hstep, fun c l h => by rw [hstep] at h; exact absurd h (by simp)⟩

/-- Witness of C13: in the small repository, asked to carry line 1 of `c2` to the older
`c1`, whose record holds the one pure insertion of the first three lines. -/
theorem FastForward_no_containing_hunk_witness :
    FastForwardFuel demoRepo "f" 1 "c2" "c1" 1 = some (.error .shouldNotReachHere) :=
  (FastForward_no_containing_hunk demoRepo "f" "c2" "c1" 1 0 demoHistory
    [⟨"c2", 1⟩, ⟨"c1", 1⟩, ⟨"c2", 3⟩, ⟨"c1", 3⟩] [⟨"c1", 1⟩, ⟨"c1", 2⟩, ⟨"c1", 3⟩] ⟨"c2", 1⟩
    demoFileHistory 2 1 ⟨"c1", [⟨0, 0, 1, 3⟩]⟩
    rfl (by decide) (by decide) (by decide) (by decide) (by decide) (by decide) (by decide)
    (by decide) (Or.inr (by decide))).1

/-- C14 (input errors): `FastForward` returns an error, and no result, when the repo has
no history, when the blame lookup does not give exactly two non-nil vectors, and when
`source_lineno` is outside `1..len(blamevectors[0])`; this last error is returned whatever
the target blame vector and the history index hold. -/
theorem FastForward_input_errors (repo : Repo) (file source_commit target_commit : String)
    (k : Int) (fuel : Nat) :
    (repo.history = none →
        FastForwardFuel repo file (fuel + 1) source_commit target_commit k
          = some (.error .repoNotConfigured)) ∧
      (∀ gitHistory, repo.history = some gitHistory →
        (∀ bv0 bv1, gitHistory.FileBlameVectorBatch [source_commit, target_commit] file
          ≠ .ok [some bv0, some bv1]) →
        FastForwardFuel repo file (fuel + 1) source_commit target_commit k
          = some (.error .blameUnavailable)) ∧
      (∀ gitHistory bv0 bv1, repo.history = some gitHistory →
        gitHistory.FileBlameVectorBatch [source_commit, target_commit] file
          = .ok [some bv0, some bv1] →
        (k < 1 ∨ k > bv0.length) →
        FastForwardFuel repo file (fuel + 1) source_commit target_commit k
          = some (.error (.invalidLine k source_commit))) := by
  refine ⟨fun hh => ?_, fun gitHistory hh hb => ?_, fun gitHistory bv0 bv1 hh hb hk => ?_⟩
  · simp only [FastForwardFuel, hh]
  · cases hbl : gitHistory.FileBlameVectorBatch [source_commit, target_commit] file with
    | error err => simp only [FastForwardFuel, hh, hbl]
    | ok vectors =>
      simp only [FastForwardFuel, hh, hbl]
      split
      · rename_i b0 b1 heq
        exact absurd (hbl.trans (congrArg Except.ok (Except.ok.inj heq))) (hb b0 b1)
      · rfl
  · simp only [FastForwardFuel, hh, hb, hk, if_true]

/-- Witness of C14: without a history; with an unknown commit, which has no blame vector;
and with line 4 of `c1`, which has 3 lines. -/
theorem FastForward_input_errors_witness :
    FastForwardFuel { demoRepo with history := none } "f" 1 "c1" "c3" 1
        = some (.error .repoNotConfigured) ∧
      FastForwardFuel demoRepo "f" 1 "c1" "c9" 1 = some (.error .blameUnavailable) ∧
      FastForwardFuel demoRepo "f" 1 "c1" "c3" 4 = some (.error (.invalidLine 4 "c1")) :=
  ⟨(FastForward_input_errors { demoRepo with history := none } "f" "c1" "c3" 1 0).1 rfl,
   (FastForward_input_errors demoRepo "f" "c1" "c9" 1 0).2.1 demoHistory rfl
     (fun bv0 bv1 h => by
       have h' : demoHistory.FileBlameVectorBatch ["c1", "c9"] "f"
           = .ok [some [⟨"c1", 1⟩, ⟨"c1", 2⟩, ⟨"c1", 3⟩], none] := by decide
       rw [h'] at h
       simp at h),
   (FastForward_input_errors demoRepo "f" "c1" "c3" 4 0).2.2 demoHistory
     [⟨"c1", 1⟩, ⟨"c1", 2⟩, ⟨"c1", 3⟩] [⟨"c2", 1⟩, ⟨"c1", 1⟩, ⟨"c2", 3⟩] rfl (by decide)
     (by decide)⟩

/-! ## The slice provider: lines and bounds -/

theorem splitLinesAux_no_newline (rest : GoString) :
    ∀ (cur : GoString), 10 ∉ cur → ∀ l ∈ splitLinesAux cur rest, 10 ∉ l := by
  induction rest with
  | nil =>
    intro cur hcur l hl
    simp only [splitLinesAux, List.mem_singleton] at hl
    subst hl
    simpa using hcur
  | cons c rest ih =>
    intro cur hcur l hl
    simp only [splitLinesAux] at hl
    split at hl
    · simp only [List.mem_cons] at hl
      rcases hl with hl | hl
      · subst hl; simpa using hcur
      · exact ih [] (by simp) l hl
    · rename_i hc
      exact ih (c :: cur) (by simp only [List.mem_cons, not_or]; exact ⟨fun h => hc h.symm, hcur⟩)
        l hl

theorem stringsSplit_no_newline (content : GoString) : ∀ l ∈ stringsSplit content, 10 ∉ l :=
  splitLinesAux_no_newline content [] (by simp)

theorem splitLinesAux_ne_nil (rest : GoString) :
    ∀ (cur : GoString), splitLinesAux cur rest ≠ [] := by
  induction rest with
  | nil => intro cur; simp [splitLinesAux]
  | cons c rest ih =>
    intro cur
    simp only [splitLinesAux]
    split
    · simp
    · exact ih _

theorem stringsJoin_splitLinesAux (rest : GoString) :
    ∀ (cur : GoString),
      stringsJoin (splitLinesAux cur rest) newline = cur.reverse ++ rest := by
  induction rest with
  | nil => intro cur; simp [splitLinesAux, stringsJoin]
  | cons c rest ih =>
    intro cur
    simp only [splitLinesAux]
    split
    · rename_i hc
      subst hc
      have h := ih []
      cases hs : splitLinesAux [] rest with
      | nil => exact absurd hs (splitLinesAux_ne_nil rest [])
      | cons a as =>
        rw [hs] at h
        simp only [stringsJoin]
        rw [h]
        simp [newline]
    · rw [ih]; simp

/-- Joining the pieces of `strings.Split(content, "\n")` with `"\n"` gives `content` back. -/
theorem stringsJoin_stringsSplit (content : GoString) :
    stringsJoin (stringsSplit content) newline = content := by
  simpa [stringsSplit] using stringsJoin_splitLinesAux content []

theorem splitLinesAux_length_le (rest : GoString) :
    ∀ cur : GoString, (splitLinesAux cur rest).length ≤ rest.length + 1 := by
  induction rest with
  | nil => intro cur; simp [splitLinesAux]
  | cons c rest ih =>
    intro cur
    simp only [splitLinesAux]
    split
    · have := ih []
      simp only [List.length_cons]
      omega
    · have := ih (c :: cur)
      simp only [List.length_cons]
      omega

theorem stringsSplit_length_le (content : GoString) :
    (stringsSplit content).length ≤ content.length + 1 :=
  splitLinesAux_length_le content []

/-- The number of lines of a blob, plus one, is far below the largest `int`. -/
theorem lines_fit (repo : Repo) (obj : String) (content : GoString)
    (hc : repo.gitCatBlob obj = .ok content) :
    ((stringsSplit content).length : Int) + 1 < 4611686018427387906 := by
  have h1 := repo.gitCatBlob_fits obj content hc
  have h2 := stringsSplit_length_le content
  omega

theorem getFileSlice_blob (repo : Repo) (commit file : String) (content : GoString)
    (start length : Int)
    (ht : repo.gitObjectType (commit ++ ":" ++ repo.pathClean file) = .ok "blob")
    (hc : repo.gitCatBlob (commit ++ ":" ++ repo.pathClean file) = .ok content) :
    getFileSlice repo commit file start length =
      if start ≥ 1 ∧ length ≥ 0 ∧
          wrapInt (start + length) ≤ wrapInt ((stringsSplit content).length + 1) then
        match slice? (stringsSplit content) (wrapInt (start - 1))
            (wrapInt (wrapInt (start - 1) + length)) with
        | some ls => .ok ls
        | none => .panic
      else .error .sliceOutOfRange := by
  unfold getFileSlice
  simp only [ht, hc, ne_eq, not_true_eq_false, if_false]

/-- Below the largest `int` the sums of `getFileSlice` are the sums of the integers. -/
theorem getFileSlice_blob_below_wrap (repo : Repo) (commit file : String)
    (content : GoString) (start length : Int)
    (ht : repo.gitObjectType (commit ++ ":" ++ repo.pathClean file) = .ok "blob")
    (hc : repo.gitCatBlob (commit ++ ":" ++ repo.pathClean file) = .ok content)
    (hsum : start + length ≤ 9223372036854775807) :
    getFileSlice repo commit file start length =
      if start ≥ 1 ∧ length ≥ 0 ∧ start + length ≤ (stringsSplit content).length + 1 then
        .ok (((stringsSplit content).drop (start - 1).toNat).take
          ((start - 1 + length).toNat - (start - 1).toNat))
      else .error .sliceOutOfRange := by
  have hfit := lines_fit repo _ content hc
  rw [getFileSlice_blob repo commit file content start length ht hc]
  by_cases hb : start ≥ 1 ∧ length ≥ 0
  · have hw1 : wrapInt (start + length) = start + length := by unfold wrapInt; omega
    have hw2 : wrapInt (((stringsSplit content).length : Int) + 1)
        = (stringsSplit content).length + 1 := by unfold wrapInt; omega
    have hw3 : wrapInt (start - 1) = start - 1 := by unfold wrapInt; omega
    have hw4 : wrapInt (start - 1 + length) = start - 1 + length := by unfold wrapInt; omega
    rw [hw1, hw2, hw3, hw4]
    split
    · rename_i hchk
      rw [slice?_isSome _ _ _ ⟨by omega, by omega, by omega⟩]
    · rfl
  · rw [if_neg (fun h => hb ⟨h.1, h.2.1⟩), if_neg (fun h => hb ⟨h.1, h.2.1⟩)]

/-- C15: on a blob whose content splits on `"\n"` into `lines`, for `start >= 1`,
`length >= 0` and `start + length <= len(lines) + 1`, `getFileSlice` returns exactly
`length` lines, the `i`-th (0-based) being `lines[start - 1 + i]`, none of which contains a
newline. -/
theorem getFileSlice_returns_the_lines (repo : Repo) (commit file : String)
    (content : GoString) (start length : Int)
    (ht : repo.gitObjectType (commit ++ ":" ++ repo.pathClean file) = .ok "blob")
    (hc : repo.gitCatBlob (commit ++ ":" ++ repo.pathClean file) = .ok content)
    (h1 : start ≥ 1) (h2 : length ≥ 0)
    (h3 : start + length ≤ (stringsSplit content).length + 1) :
    ∃ ls, getFileSlice repo commit file start length = .ok ls ∧
      (ls.length : Int) = length ∧
      (∀ i : Nat, (i : Int) < length → ∃ l, ls[i]? = some l ∧
        (stringsSplit content)[(start - 1).toNat + i]? = some l) ∧
      ∀ l ∈ ls, 10 ∉ l := by
  have hfit := lines_fit repo _ content hc
  refine ⟨((stringsSplit content).drop (start - 1).toNat).take
    ((start - 1 + length).toNat - (start - 1).toNat), ?_, ?_, ?_, ?_⟩
  · rw [getFileSlice_blob_below_wrap repo commit file content start length ht hc (by omega),
      if_pos ⟨h1, h2, h3⟩]
  · rw [List.length_take, List.length_drop]
    omega
  · intro i hi
    have hlt : (start - 1).toNat + i < (stringsSplit content).length := by omega
    refine ⟨(stringsSplit content)[(start - 1).toNat + i], ?_, List.getElem?_eq_getElem hlt⟩
    rw [List.getElem?_take, if_pos (by omega), List.getElem?_drop,
      List.getElem?_eq_getElem hlt]
  · intro l hl
    exact stringsSplit_no_newline content l (List.mem_of_mem_drop (List.mem_of_mem_take hl))

/-- Witness of C15: lines 2 and 3 of the file `f` of the small repository at `c2`, whose
content is `x`, `a`, `B`, `c`. -/
theorem getFileSlice_returns_the_lines_witness :
    ∃ ls, getFileSlice demoRepo "c2" "f" 2 2 = .ok ls ∧
      (ls.length : Int) = 2 ∧
      (∀ i : Nat, (i : Int) < 2 → ∃ l, ls[i]? = some l ∧
        (stringsSplit (bytes "x\na\nB\nc"))[((2 : Int) - 1).toNat + i]? = some l) ∧
      ∀ l ∈ ls, 10 ∉ l :=
  getFileSlice_returns_the_lines demoRepo "c2" "f" (bytes "x\na\nB\nc") 2 2 (by decide)
    (by decide) (by decide) (by decide) (by decide)

/-- Where `start + length` does not exceed the largest `int`, `getFileSlice` on a blob
fails with "Unable to slice file content" exactly when `start < 1`, or `length < 0`, or
`start + length > line_count + 1`; it does not panic there, and the request one past the
end, of length 0, returns the empty list. -/
theorem getFileSlice_out_of_range_iff_below_wrap (repo : Repo) (commit file : String)
    (content : GoString) (start length : Int)
    (ht : repo.gitObjectType (commit ++ ":" ++ repo.pathClean file) = .ok "blob")
    (hc : repo.gitCatBlob (commit ++ ":" ++ repo.pathClean file) = .ok content)
    (hsum : start + length ≤ 9223372036854775807) :
    (getFileSlice repo commit file start length = .error .sliceOutOfRange ↔
        (start < 1 ∨ length < 0 ∨ start + length > (stringsSplit content).length + 1)) ∧
      getFileSlice repo commit file start length ≠ .panic ∧
      getFileSlice repo commit file ((stringsSplit content).length + 1) 0 = .ok [] := by
  have hfit := lines_fit repo _ content hc
  refine ⟨?_, ?_, ?_⟩
  · rw [getFileSlice_blob_below_wrap repo commit file content start length ht hc hsum]
    constructor
    · intro h
      by_contra hn
      rw [if_pos (by omega)] at h
      exact absurd h (by simp)
    · intro h
      rw [if_neg (by omega)]
  · rw [getFileSlice_blob_below_wrap repo commit file content start length ht hc hsum]
    split <;> simp
  · rw [getFileSlice_blob_below_wrap repo commit file content _ 0 ht hc (by omega),
      if_pos (by omega)]
    congr 1
    rw [List.take_eq_nil_iff]
    left
    omega

/-- C16 fails on the code where the sum `start + length` exceeds the largest `int`: for
`int`s `start >= 1` and `length >= 0` with `start + length > 2^63 - 1`, which is more than
`line_count + 1`, the sum of fastforward.go:26 wraps around to a negative number, the
request passes the check, and the slice expression `lines[start-1:start-1+length]`
panics: `getFileSlice` does not return the error "Unable to slice file content". -/
theorem getFileSlice_panics_when_the_sum_wraps (repo : Repo) (commit file : String)
    (content : GoString) (start length : Int)
    (ht : repo.gitObjectType (commit ++ ":" ++ repo.pathClean file) = .ok "blob")
    (hc : repo.gitCatBlob (commit ++ ":" ++ repo.pathClean file) = .ok content)
    (h1 : 1 ≤ start) (h2 : start ≤ 9223372036854775807)
    (h3 : 0 ≤ length) (h4 : length ≤ 9223372036854775807)
    (h5 : start + length > 9223372036854775807) :
    getFileSlice repo commit file start length = .panic ∧
      getFileSlice repo commit file start length ≠ .error .sliceOutOfRange ∧
      start + length > (stringsSplit content).length + 1 := by
  have hfit := lines_fit repo _ content hc
  have hp : getFileSlice repo commit file start length = .panic := by
    rw [getFileSlice_blob repo commit file content start length ht hc,
      if_pos ⟨h1, h3, by unfold wrapInt; omega⟩]
    have hs : slice? (stringsSplit content) (wrapInt (start - 1))
        (wrapInt (wrapInt (start - 1) + length)) = none := by
      unfold slice?
      rw [if_neg (by unfold wrapInt; omega)]
    rw [hs]
  exact ⟨hp, by rw [hp]; simp, by omega⟩

/-- Witness of the defect behind C16: on the file `f` of the small repository at `c1`, of
3 lines, the request for 1 line from line 9223372036854775807 on panics. -/
theorem getFileSlice_panics_when_the_sum_wraps_witness :
    getFileSlice demoRepo "c1" "f" 9223372036854775807 1 = .panic ∧
      getFileSlice demoRepo "c1" "f" 9223372036854775807 1 ≠ .error .sliceOutOfRange ∧
      (9223372036854775807 : Int) + 1 > (stringsSplit (bytes "a\nb\nc")).length + 1 :=
  getFileSlice_panics_when_the_sum_wraps demoRepo "c1" "f" (bytes "a\nb\nc")
    9223372036854775807 1 (by decide) (by decide) (by decide) (by decide) (by decide)
    (by decide) (by decide)

/-! ## Monotonicity of the alignment -/

theorem histogram_later_line_short (X : List GoString) (k1 a : Nat) (line : GoString)
    (hline : X[k1 + 1]? = some line) (hlen1 : 1 ≤ line.length) (hlen2 : line.length ≤ 2)
    (ha : (a : Int) + 1 = lineStart X (k1 + 1)) :
    (bestLineFrom 0
      (projectOnLines (lineBeginningsFrom 0 X) (X.length - 1)
        ((List.range' a line.length).map Int.ofNat) 0 (X.map (fun _ => (0 : Int))))
      (0, 0)).2 = (k1 : Int) := by
  have hk : k1 + 1 < X.length := (List.getElem?_eq_some.1 hline).1
  obtain ⟨prevLine, hprev⟩ : ∃ l, X[k1]? = some l :=
    ⟨X[k1], List.getElem?_eq_getElem (by omega)⟩
  have hs0 : lineStart X (k1 + 1) = lineStart X k1 + prevLine.length + 1 :=
    lineStart_succ X k1 prevLine hprev
  have hs2 : lineStart X (k1 + 1 + 1) = lineStart X (k1 + 1) + line.length + 1 :=
    lineStart_succ X (k1 + 1) line hline
  obtain ⟨L, hL⟩ : ∃ L, line.length = L + 1 := ⟨line.length - 1, by omega⟩
  have hfirst : advance (lineBeginningsFrom 0 X) (Int.ofNat a) (X.length - 1)
      (X.length - 1 - 0) 0 = k1 := by
    refine advance_reach _ _ _ k1 (Or.inr ?_) _ 0 (by omega) (by omega) (by omega) ?_
    · rw [getD_beginnings X k1 (by omega), getD_beginnings X (k1 + 1) (by omega)]
      simp only [Int.ofNat_eq_coe]
      omega
    · intro j' _ hj'
      rw [getD_beginnings X j' (by omega), getD_beginnings X (j' + 1) (by omega)]
      have := lineStart_mono X (j' + 1) k1 (by omega)
      simp only [Int.ofNat_eq_coe]
      omega
  have hrest : ∀ m ∈ (List.range' (a + 1) L).map Int.ofNat,
      ∀ j, j = k1 ∨ j = k1 + 1 →
        advance (lineBeginningsFrom 0 X) m (X.length - 1) (X.length - 1 - j) j = k1 + 1 := by
    intro m hm j hj
    simp only [List.mem_map, List.mem_range'_1] at hm
    obtain ⟨e, ⟨he1, he2⟩, rfl⟩ := hm
    refine advance_reach _ _ _ (k1 + 1) (Or.inr ?_) _ j (by omega) (by omega) (by omega) ?_
    · rw [getD_beginnings X (k1 + 1) (by omega), getD_beginnings X (k1 + 1 + 1) (by omega)]
      simp only [Int.ofNat_eq_coe]
      omega
    · intro j' h1 h2
      have hj' : j' = k1 := by omega
      subst hj'
      rw [getD_beginnings X j' (by omega), getD_beginnings X (j' + 1) (by omega)]
      simp only [Int.ofNat_eq_coe]
      omega
  have hpt := projectOnLines_move (lineBeginningsFrom 0 X) (X.length - 1) k1 (k1 + 1)
    ((List.range' (a + 1) L).map Int.ofNat)
    (List.modify (· + 1) k1 (X.map (fun _ => (0 : Int))))
    (fun m hm => hrest m hm k1 (Or.inl rfl)) (fun m hm => hrest m hm (k1 + 1) (Or.inr rfl))
  have hunf : projectOnLines (lineBeginningsFrom 0 X) (X.length - 1)
      ((List.range' a line.length).map Int.ofNat) 0 (X.map (fun _ => (0 : Int))) =
      projectOnLines (lineBeginningsFrom 0 X) (X.length - 1)
        ((List.range' (a + 1) L).map Int.ofNat) k1
        (List.modify (· + 1) k1 (X.map (fun _ => (0 : Int)))) := by
    rw [hL, List.range'_succ, List.map_cons, projectOnLines]
    simp only [hfirst]
  rw [hunf]
  have hcell : ∀ d, (List.modify (· + 1) k1 (X.map (fun _ => (0 : Int))))[d]? =
      if d < X.length then some (if k1 = d then (1 : Int) else 0) else none := by
    intro d
    rw [List.getElem?_modify, zeros_getElem?]
    by_cases hd : d < X.length <;> by_cases hk1 : k1 = d <;> simp [hd, hk1]
  have := bestLineFrom_first_max
    (projectOnLines (lineBeginningsFrom 0 X) (X.length - 1)
      ((List.range' (a + 1) L).map Int.ofNat) k1
      (List.modify (· + 1) k1 (X.map (fun _ => (0 : Int)))))
    0 (0, 0) k1 (1 : Int)
    (by rw [hpt k1, hcell]; simp; omega)
    (fun d h hd hh => by
      rw [hpt d, hcell] at hh
      rw [if_neg (by omega), if_pos (by omega)] at hh
      have := Option.some.inj hh
      split at this <;> omega)
    (fun d h hh => by
      rw [hpt d, hcell] at hh
      by_cases hd0 : d = k1 + 1
      · subst hd0
        simp [hk] at hh
        omega
      · rw [if_neg hd0] at hh
        split at hh
        · have := Option.some.inj hh
          split at this <;> omega
        · exact absurd hh (by simp))
    (by simp only; omega)
  rw [this]
  push_cast
  ring

theorem alignLines_self (X : List GoString) (k0 : Nat) (line : GoString)
    (hline : X[k0]? = some line) (hascii : ∀ l ∈ X, ∀ b ∈ l, b < 128) :
    ∃ r : Int, alignLines X X ((k0 : Int) + 1) = .ok r ∧ 1 ≤ r ∧ r ≤ (k0 : Int) + 1 ∧
      (1 ≤ line.length → (k0 : Int) ≤ r) := by
  have hk : k0 < X.length := (List.getElem?_eq_some.1 hline).1
  have hne : X ≠ [] := by
    intro h; subst h; simp at hk
  have hn := stringsJoin_length X hne
  have hsl : slice? X 0 ((k0 : Int) + 1 - 1) = some (X.take k0) := by
    unfold slice?
    rw [if_pos (by omega)]
    simp
  have hix : index? X ((k0 : Int) + 1 - 1) = some line := by
    unfold index?
    rw [if_neg (by omega)]
    simpa using hline
  have hs2 : lineStart X (k0 + 1) = lineStart X k0 + line.length + 1 :=
    lineStart_succ X k0 line hline
  have hmono := lineStart_mono X (k0 + 1) X.length (by omega)
  have hi1 : k0 = 0 ∧ (stringsJoin (X.take k0) newline).length = 0 ∨
      1 ≤ k0 ∧ (((stringsJoin (X.take k0) newline).length : Nat) : Int) + 1 = lineStart X k0 := by
    rcases Nat.eq_zero_or_pos k0 with h | h
    · left; subst h; exact ⟨rfl, rfl⟩
    · right; exact ⟨h, stringsJoin_take_length X k0 h (by omega)⟩
  have hfit : (stringsJoin (X.take k0) newline).length + line.length
      ≤ (stringsJoin X newline).length := by
    rcases hi1 with ⟨h0, h1⟩ | ⟨h0, h1⟩
    · subst h0
      rw [lineStart_zero] at hs2
      omega
    · omega
  have hT := table_diag (stringsJoin X newline)
    ((stringsJoin (X.take k0) newline).length : Int)
    (((stringsJoin (X.take k0) newline).length : Int) + line.length)
    (stringsJoin_ascii X hascii)
  have hbt := backtrack_diag _ _ hT.1 hT.2
  have himp := slice?_range_map (stringsJoin X newline).length
    (stringsJoin (X.take k0) newline).length line.length hfit
  unfold alignLines
  simp only [hsl, hix, hbt, himp]
  rcases Nat.eq_zero_or_pos line.length with hz | hpos
  · refine ⟨1, ?_, by omega, by omega, by omega⟩
    rw [hz]
    have hkeep := bestLineFrom_keep (X.map (fun _ => (0 : Int))) 0 (0, 0)
      (fun h hh => by
        obtain ⟨_, _, rfl⟩ := List.mem_map.1 hh
        exact le_refl _)
    simp only [List.range'_zero, List.map_nil, projectOnLines, hkeep]
    rfl
  · rcases hi1 with ⟨h0, h1⟩ | ⟨h0, h1⟩
    · subst h0
      refine ⟨1, ?_, by omega, by omega, by intro _; omega⟩
      rw [h1, histogram_first_line X line hline hpos]
      rfl
    · obtain ⟨k1, rfl⟩ : ∃ k1, k0 = k1 + 1 := ⟨k0 - 1, by omega⟩
      by_cases hl3 : 3 ≤ line.length
      · refine ⟨(k1 : Int) + 1 + 1, ?_, by omega, by push_cast; omega, by intro _; push_cast; omega⟩
        rw [histogram_later_line X k1 _ line hline hl3 h1]
      · refine ⟨(k1 : Int) + 1, ?_, by omega, by push_cast; omega, by intro _; push_cast; omega⟩
        rw [histogram_later_line_short X k1 _ line hline hpos (by omega) h1]

theorem analyzeEditAndMapLine_self (X : List GoString) (k : Nat) (line : GoString)
    (h8 : X.length ≤ 8) (hascii : ∀ l ∈ X, ∀ b ∈ l, b < 128)
    (hk : 1 ≤ k) (hline : X[k - 1]? = some line) :
    ∃ r : Int, analyzeEditAndMapLine X X k = .ok r ∧ 1 ≤ r ∧ r ≤ (k : Int) ∧
      (1 ≤ line.length → (k : Int) - 1 ≤ r) := by
  obtain ⟨k0, rfl⟩ : ∃ k0, k = k0 + 1 := ⟨k - 1, by omega⟩
  simp only [Nat.add_sub_cancel] at hline
  have hk0 : k0 < X.length := (List.getElem?_eq_some.1 hline).1
  rw [analyzeEditAndMapLine_short X X _ (by push_cast; omega) (by omega) (by omega)]
  obtain ⟨r, hr, h1, h2, h3⟩ := alignLines_self X k0 line hline hascii
  refine ⟨r, ?_, h1, by push_cast; omega, fun h => by have := h3 h; push_cast; omega⟩
  push_cast
  exact hr

/-- C17 (Monotonicity) as stated is false. Of the lines `abc`, `def` and the empty line,
aligned with themselves (no line moves at all), line 2 is mapped to line 2 and line 3 to
line 1. With non-empty lines only: of the lines `abc`, `abd`, `xyz` aligned with
`abc`, `xyz`, `abx` (the surviving lines `abc` and `xyz` keep their order), line 2 is
mapped to line 3 and line 3 to line 2. -/
theorem monotonicity_fails :
    (analyzeEditAndMapLine [[97, 98, 99], [100, 101, 102], []]
        [[97, 98, 99], [100, 101, 102], []] 2 = .ok 2 ∧
      analyzeEditAndMapLine [[97, 98, 99], [100, 101, 102], []]
        [[97, 98, 99], [100, 101, 102], []] 3 = .ok 1) ∧
    (analyzeEditAndMapLine [[97, 98, 99], [97, 98, 100], [120, 121, 122]]
        [[97, 98, 99], [120, 121, 122], [97, 98, 120]] 2 = .ok 3 ∧
      analyzeEditAndMapLine [[97, 98, 99], [97, 98, 100], [120, 121, 122]]
        [[97, 98, 99], [120, 121, 122], [97, 98, 120]] 3 = .ok 2) := by
  refine ⟨⟨?_, ?_⟩, ?_, ?_⟩ <;>
    rw [analyzeEditAndMapLine_short _ _ _ (by decide) (by decide) (by decide)] <;>
    decide!

/-- C17 (Monotonicity), amended: for every list `X` of at most 8 lines of ASCII bytes and
all `1 <= k1 < k2 <= len(X)` where line `k2` is not empty, `analyzeEditAndMapLine(X, X, k1)`
and `analyzeEditAndMapLine(X, X, k2)` both return a line, and the first is at most the
second. -/
theorem monotone_on_small_ascii_self_alignment (X : List GoString) (k1 k2 : Nat)
    (line : GoString) (h8 : X.length ≤ 8) (hascii : ∀ l ∈ X, ∀ b ∈ l, b < 128)
    (hk1 : 1 ≤ k1) (hlt : k1 < k2) (hline : X[k2 - 1]? = some line)
    (hlen : 1 ≤ line.length) :
    ∃ r1 r2 : Int, analyzeEditAndMapLine X X k1 = .ok r1 ∧
      analyzeEditAndMapLine X X k2 = .ok r2 ∧ r1 ≤ r2 := by
  have hk2 : k2 - 1 < X.length := (List.getElem?_eq_some.1 hline).1
  have hb : k1 - 1 < X.length := by omega
  obtain ⟨line1, hline1⟩ : ∃ l, X[k1 - 1]? = some l := ⟨X[k1 - 1], List.getElem?_eq_getElem hb⟩
  obtain ⟨r1, hr1, _, hle1, _⟩ := analyzeEditAndMapLine_self X k1 line1 h8 hascii hk1 hline1
  obtain ⟨r2, hr2, _, _, hge2⟩ := analyzeEditAndMapLine_self X k2 line h8 hascii (by omega) hline
  have := hge2 hlen
  exact ⟨r1, r2, hr1, hr2, by omega⟩

/-- Witness of C17 as amended: of the lines `abc`, `de`, `fgh`, aligned with themselves,
lines 1 and 2 are mapped to lines in ascending order. -/
theorem monotone_on_small_ascii_self_alignment_witness :
    ∃ r1 r2 : Int,
      analyzeEditAndMapLine [[97, 98, 99], [100, 101], [102, 103, 104]]
        [[97, 98, 99], [100, 101], [102, 103, 104]] ((1 : Nat) : Int) = .ok r1 ∧
      analyzeEditAndMapLine [[97, 98, 99], [100, 101], [102, 103, 104]]
        [[97, 98, 99], [100, 101], [102, 103, 104]] ((2 : Nat) : Int) = .ok r2 ∧ r1 ≤ r2 :=
  monotone_on_small_ascii_self_alignment [[97, 98, 99], [100, 101], [102, 103, 104]] 1 2
    [100, 101] (by decide) (by decide) (by decide) (by decide) (by decide) (by decide)

/-! ## The selection of the result -/

theorem alignLines_of_histogram (S T : List GoString) (k : Int) :
    alignLines S T k =
      match alignHistogram S T k with
      | .ok histogram => .ok ((bestLineFrom 0 histogram (0, 0)).2 + 1)
      | .error err => .error err
      | .panic => .panic := by
  unfold alignLines alignHistogram
  simp only
  cases hs : slice? S 0 (k - 1) with
  | none => rfl
  | some before =>
    cases hi : index? S (k - 1) with
    | none => rfl
    | some line =>
      dsimp only
      cases hb : backtrack (table (stringsJoin S newline) (stringsJoin T newline)
          ((stringsJoin before newline).length : Int)
          (((stringsJoin before newline).length : Int) + line.length))
          (stringsJoin T newline).length with
      | none => rfl
      | some mapping =>
        dsimp only
        cases hm : slice? mapping ((stringsJoin before newline).length : Int)
            (((stringsJoin before newline).length : Int) + line.length) with
        | none => rfl
        | some important => rfl

theorem projectOnLines_nonneg (beginnings : List Int) (last : Nat) (ms : List Int) :
    ∀ (j : Nat) (histogram : List Int), (∀ h ∈ histogram, 0 ≤ h) →
      ∀ h ∈ projectOnLines beginnings last ms j histogram, 0 ≤ h := by
  induction ms with
  | nil => intro j histogram hh; exact hh
  | cons m ms ih =>
    intro j histogram hh
    simp only [projectOnLines]
    apply ih
    intro h hmem
    obtain ⟨d, hd⟩ := List.getElem?_of_mem hmem
    rw [List.getElem?_modify] at hd
    cases hg : histogram[d]? with
    | none => rw [hg] at hd; exact absurd hd (by simp)
    | some v =>
      rw [hg] at hd
      have hv := hh v (List.getElem?_mem hg)
      simp only [Option.map_eq_map, Option.map_some', Option.some.injEq] at hd
      split at hd <;> omega

theorem alignHistogram_entries (S T : List GoString) (k : Int) (histogram : List Int)
    (h : alignHistogram S T k = .ok histogram) :
    histogram.length = T.length ∧ ∀ v ∈ histogram, 0 ≤ v := by
  unfold alignHistogram at h
  simp only at h
  split at h
  · split at h
    · exact absurd h (by simp)
    · split at h
      · exact absurd h (by simp)
      · have hr := Outcome.ok.inj h
        subst hr
        refine ⟨by rw [projectOnLines_length, List.length_map], ?_⟩
        apply projectOnLines_nonneg
        intro v hv
        simp only [List.mem_map] at hv
        obtain ⟨_, _, rfl⟩ := hv
        exact le_refl _
  · exact absurd h (by simp)

/-- The loop of fastforward.go:160-165 keeps its state, or moves to the first entry that is
above the state and above everything before it, and no entry is above the result. -/
theorem bestLineFrom_spec (hs : List Int) :
    ∀ (i : Nat) (st : Int × Int),
      (bestLineFrom i hs st = st ∧ ∀ h ∈ hs, h ≤ st.1) ∨
        ∃ (d : Nat) (v : Int), hs[d]? = some v ∧ bestLineFrom i hs st = (v, (i : Int) + d) ∧
          st.1 < v ∧ (∀ (e : Nat) (h : Int), e < d → hs[e]? = some h → h < v) ∧
          (∀ (e : Nat) (h : Int), hs[e]? = some h → h ≤ v) := by
  induction hs with
  | nil => intro i st; exact Or.inl ⟨rfl, fun h hh => absurd hh (by simp)⟩
  | cons h0 hs ih =>
    intro i st
    simp only [bestLineFrom]
    split
    · rename_i hlt
      right
      rcases ih (i + 1) (h0, (i : Int)) with ⟨h1, h2⟩ | ⟨d, v, hd, h1, h2, h3, h4⟩
      · refine ⟨0, h0, by simp, by rw [h1]; simp, hlt, fun e h he => absurd he (by omega), ?_⟩
        intro e h he
        cases e with
        | zero => simp at he; omega
        | succ e =>
          simp only [List.getElem?_cons_succ] at he
          exact h2 h (List.getElem?_mem he)
      · refine ⟨d + 1, v, by simpa using hd, by rw [h1]; push_cast; congr 1; ring,
          by simp only at h2; omega, ?_, ?_⟩
        · intro e h he hh
          cases e with
          | zero => simp at hh; simp only at h2; omega
          | succ e =>
            simp only [List.getElem?_cons_succ] at hh
            exact h3 e h (by omega) hh
        · intro e h hh
          cases e with
          | zero => simp at hh; simp only at h2; omega
          | succ e =>
            simp only [List.getElem?_cons_succ] at hh
            exact h4 e h hh
    · rename_i hge
      rcases ih (i + 1) st with ⟨h1, h2⟩ | ⟨d, v, hd, h1, h2, h3, h4⟩
      · left
        refine ⟨h1, fun h hh => ?_⟩
        simp only [List.mem_cons] at hh
        rcases hh with hh | hh
        · omega
        · exact h2 h hh
      · right
        refine ⟨d + 1, v, by simpa using hd, by rw [h1]; push_cast; congr 1; ring, h2, ?_, ?_⟩
        · intro e h he hh
          cases e with
          | zero => simp at hh; omega
          | succ e =>
            simp only [List.getElem?_cons_succ] at hh
            exact h3 e h (by omega) hh
        · intro e h hh
          cases e with
          | zero => simp at hh; omega
          | succ e =>
            simp only [List.getElem?_cons_succ] at hh
            exact h4 e h hh

/-- C18 (result selection): on the path below the truncation, with `histogram` the array
`target_line_histogram` after the projection, `analyzeEditAndMapLine` returns `i + 1` for
the lowest index `i` at which the histogram has its maximum; when every entry is zero that
is index 0, and the result is 1. -/
theorem result_is_lowest_maximum (source_lines target_lines : List GoString) (k : Int)
    (histogram : List Int) (hk1 : 1 ≤ k) (hk2 : k ≤ source_lines.length)
    (hT : target_lines ≠ []) (h8 : source_lines.length ≤ 8)
    (hh : alignHistogram source_lines target_lines k = .ok histogram) :
    ∃ (i : Nat) (v : Int),
      analyzeEditAndMapLine source_lines target_lines k = .ok ((i : Int) + 1) ∧
      histogram[i]? = some v ∧
      (∀ (j : Nat) (h : Int), histogram[j]? = some h → h ≤ v) ∧
      (∀ (j : Nat) (h : Int), j < i → histogram[j]? = some h → h < v) ∧
      ((∀ h ∈ histogram, h = 0) → i = 0) := by
  have hT1 : ¬ target_lines.length < 1 := by
    cases target_lines with
    | nil => exact absurd rfl hT
    | cons t ts => simp
  obtain ⟨hlen, hnn⟩ := alignHistogram_entries source_lines target_lines k histogram hh
  rw [analyzeEditAndMapLine_short source_lines target_lines k (by omega) hT1 (by omega),
    alignLines_of_histogram, hh]
  dsimp only
  rcases bestLineFrom_spec histogram 0 (0, 0) with ⟨h1, h2⟩ | ⟨d, v, hd, h1, h2, h3, h4⟩
  · have h0 : 0 < histogram.length := by omega
    have hz : ∀ h ∈ histogram, h = 0 := fun h hm => le_antisymm (h2 h hm) (hnn h hm)
    refine ⟨0, 0, by rw [h1]; rfl, ?_, ?_, fun j h hj => absurd hj (by omega), fun _ => rfl⟩
    · rw [List.getElem?_eq_getElem h0, hz _ (List.getElem_mem h0)]
    · intro j h hj
      exact h2 h (List.getElem?_mem hj)
  · refine ⟨d, v, by rw [h1]; push_cast; simp, hd, h4, h3, fun hz => ?_⟩
    have := hz v (List.getElem?_mem hd)
    simp only at h2
    omega

/-- Witness of C18: the line `ab` against the lines `b`, `ab`: the histogram is `[0, 2]`
and the result is line 2. -/
theorem result_is_lowest_maximum_witness :
    ∃ (i : Nat) (v : Int),
      analyzeEditAndMapLine [[97, 98]] [[98], [97, 98]] 1 = .ok ((i : Int) + 1) ∧
      ([0, 2] : List Int)[i]? = some v ∧
      (∀ (j : Nat) (h : Int), ([0, 2] : List Int)[j]? = some h → h ≤ v) ∧
      (∀ (j : Nat) (h : Int), j < i → ([0, 2] : List Int)[j]? = some h → h < v) ∧
      ((∀ h ∈ ([0, 2] : List Int), h = 0) → i = 0) :=
  result_is_lowest_maximum [[97, 98]] [[98], [97, 98]] 1 [0, 2] (by decide) (by decide)
    (by decide) (by decide) (by decide)

/-! ## The truncation of a long source -/

theorem max_five (k : Int) :
    max (k - SOURCE_CHUNK_MAX_CONTEXT / 2) 1 = if k - 5 > 1 then k - 5 else 1 := by
  unfold max SOURCE_CHUNK_MAX_CONTEXT
  rfl

theorem min_five (k n : Int) :
    min (k + SOURCE_CHUNK_MAX_CONTEXT / 2) n = if k + 5 < n then k + 5 else n := by
  unfold min SOURCE_CHUNK_MAX_CONTEXT
  rfl

/-- The window of the truncation (fastforward.go:62-64). -/
theorem window_of_long (S : List GoString) (k : Int) (h8 : S.length > 8)
    (hk : ¬ (k < 1 ∨ k > S.length)) :
    0 ≤ max (k - SOURCE_CHUNK_MAX_CONTEXT / 2) 1 - 1 ∧
      max (k - SOURCE_CHUNK_MAX_CONTEXT / 2) 1 - 1
        ≤ min (k + SOURCE_CHUNK_MAX_CONTEXT / 2) S.length - 1 ∧
      min (k + SOURCE_CHUNK_MAX_CONTEXT / 2) S.length - 1 ≤ S.length ∧
      ∃ w, slice? S (max (k - SOURCE_CHUNK_MAX_CONTEXT / 2) 1 - 1)
          (min (k + SOURCE_CHUNK_MAX_CONTEXT / 2) S.length - 1) = some w ∧
        w.length ≤ 10 ∧ w.length < S.length := by
  rw [max_five, min_five]
  have hb : 0 ≤ (if k - 5 > 1 then k - 5 else 1) - 1 ∧
      (if k - 5 > 1 then k - 5 else 1) - 1 ≤ (if k + 5 < (S.length : Int) then k + 5
        else (S.length : Int)) - 1 ∧
      (if k + 5 < (S.length : Int) then k + 5 else (S.length : Int)) - 1 ≤ S.length := by
    split_ifs <;> omega
  refine ⟨hb.1, hb.2.1, hb.2.2, _, slice?_isSome S _ _ hb, ?_⟩
  have hl := slice?_length S _ _ _ (slice?_isSome S _ _ hb)
  constructor
  · have : ((if k + 5 < (S.length : Int) then k + 5 else (S.length : Int)) - 1) -
        ((if k - 5 > 1 then k - 5 else 1) - 1) ≤ 10 := by split_ifs <;> omega
    omega
  · have : ((if k + 5 < (S.length : Int) then k + 5 else (S.length : Int)) - 1) -
        ((if k - 5 > 1 then k - 5 else 1) - 1) < S.length := by split_ifs <;> omega
    omega

theorem analyzeEditAndMapLineCounting_fst (S T : List GoString) (k : Int) :
    (analyzeEditAndMapLineCounting S T k).1 = analyzeEditAndMapLine S T k := by
  induction S, T, k using analyzeEditAndMapLine.induct with
  | case1 S T k h1 =>
    rw [analyzeEditAndMapLine_lineOutOfRange S T k h1, analyzeEditAndMapLineCounting]
    simp [h1]
  | case2 S T k h1 h2 =>
    rw [analyzeEditAndMapLine_deletion S T k h1 h2, analyzeEditAndMapLineCounting]
    simp only [h1, h2, dite_false, if_true]
  | case3 S T k h1 h2 h8 new_start new_end hw =>
    rw [analyzeEditAndMapLine_long S T k h1 h2 h8, hw, analyzeEditAndMapLineCounting]
    simp only [h1, h2, h8, dite_false, if_false, dite_true]
    split
    · rfl
    · rename_i w hw'
      exact absurd (hw.symm.trans hw') (by simp)
  | case4 S T k h1 h2 h8 new_start new_end window hw _ ih =>
    rw [analyzeEditAndMapLine_long S T k h1 h2 h8, hw, analyzeEditAndMapLineCounting]
    simp only [h1, h2, h8, dite_false, if_false, dite_true]
    split
    · rename_i hw'
      exact absurd (hw.symm.trans hw') (by simp)
    · rename_i w hw'
      have : w = window := Option.some.inj (hw'.symm.trans hw)
      subst this
      exact ih
  | case5 S T k h1 h2 h8 =>
    rw [analyzeEditAndMapLine_short S T k h1 h2 h8, analyzeEditAndMapLineCounting]
    simp only [h1, h2, h8, dite_false, if_false]

theorem analyzeEditAndMapLineCounting_short (S T : List GoString) (k : Int)
    (h8 : ¬ S.length > 8) : (analyzeEditAndMapLineCounting S T k).2 = 0 := by
  rw [analyzeEditAndMapLineCounting]
  simp only [h8, dite_false]
  split
  · rfl
  · split <;> rfl

theorem analyzeEditAndMapLineCounting_long (S T : List GoString) (k : Int)
    (h1 : ¬ (k < 1 ∨ k > S.length)) (h2 : ¬ T.length < 1) (h8 : S.length > 8)
    (w : List GoString)
    (hw : slice? S (max (k - SOURCE_CHUNK_MAX_CONTEXT / 2) 1 - 1)
      (min (k + SOURCE_CHUNK_MAX_CONTEXT / 2) S.length - 1) = some w) :
    (analyzeEditAndMapLineCounting S T k).2 =
      (analyzeEditAndMapLineCounting w T
        (k - max (k - SOURCE_CHUNK_MAX_CONTEXT / 2) 1 + 1)).2 + 1 := by
  rw [analyzeEditAndMapLineCounting]
  simp only [h1, h2, h8, dite_false, if_false, dite_true]
  split
  · rename_i hw'
    exact absurd (hw.symm.trans hw') (by simp)
  · rename_i w' hw'
    have : w' = w := Option.some.inj (hw'.symm.trans hw)
    subst this
    rfl

theorem analyzeEditAndMapLineCounting_le (S T : List GoString) (k : Int) :
    (analyzeEditAndMapLineCounting S T k).2 ≤ 3 ∧
      (S.length ≤ 10 → (analyzeEditAndMapLineCounting S T k).2 ≤ 2) ∧
      (S.length ≤ 9 → (analyzeEditAndMapLineCounting S T k).2 ≤ 1) := by
  have hzero : ∀ (S : List GoString) (k : Int), (k < 1 ∨ k > S.length) ∨ T.length < 1 →
      (analyzeEditAndMapLineCounting S T k).2 = 0 := by
    intro S k h
    rw [analyzeEditAndMapLineCounting]
    rcases h with h | h
    · simp only [h, dite_true]
    · split
      · rfl
      · simp only [h, if_true]
  have hstep : ∀ (n : Nat) (S : List GoString) (k : Int), S.length ≤ 8 + n →
      (analyzeEditAndMapLineCounting S T k).2 ≤ n := by
    intro n
    induction n with
    | zero =>
      intro S k hS
      rw [analyzeEditAndMapLineCounting_short S T k (by omega)]
    | succ n ih =>
      intro S k hS
      by_cases h8 : S.length > 8
      · by_cases hk : (k < 1 ∨ k > S.length) ∨ T.length < 1
        · rw [hzero S k hk]; omega
        · obtain ⟨_, _, _, w, hw, _, hlt⟩ := window_of_long S k h8 (fun h => hk (Or.inl h))
          rw [analyzeEditAndMapLineCounting_long S T k (fun h => hk (Or.inl h))
            (fun h => hk (Or.inr h)) h8 w hw]
          have := ih w (k - max (k - SOURCE_CHUNK_MAX_CONTEXT / 2) 1 + 1) (by omega)
          omega
      · rw [analyzeEditAndMapLineCounting_short S T k h8]; omega
  refine ⟨?_, fun h => hstep 2 S k (by omega), fun h => hstep 1 S k (by omega)⟩
  by_cases h8 : S.length > 8
  · by_cases hk : (k < 1 ∨ k > S.length) ∨ T.length < 1
    · rw [hzero S k hk]; omega
    · obtain ⟨_, _, _, w, hw, h10, _⟩ := window_of_long S k h8 (fun h => hk (Or.inl h))
      rw [analyzeEditAndMapLineCounting_long S T k (fun h => hk (Or.inl h))
        (fun h => hk (Or.inr h)) h8 w hw]
      have := hstep 2 w (k - max (k - SOURCE_CHUNK_MAX_CONTEXT / 2) 1 + 1) (by omega)
      omega
  · rw [analyzeEditAndMapLineCounting_short S T k h8]; omega


theorem half_context : SOURCE_CHUNK_MAX_CONTEXT / 2 = 5 := by decide

/-- C19 as stated is false: of 20 source lines and `k = 10` the window has 10 lines, not at
most 8; the self-call truncates again, and so does the next: `analyzeEditAndMapLine` calls
itself 3 times. -/
theorem window_of_twenty_lines_is_truncated_again :
    slice? (List.replicate 20 ([120] : GoString)) (max (10 - 5) 1 - 1)
        (min (10 + 5) ((List.replicate 20 ([120] : GoString)).length : Int) - 1)
        = some (List.replicate 10 [120]) ∧
      ¬ (List.replicate 10 ([120] : GoString)).length ≤ 8 ∧
      (analyzeEditAndMapLineCounting (List.replicate 20 [120]) [[120]] 10).2 = 3 := by
  refine ⟨by decide, by decide, ?_⟩
  rw [analyzeEditAndMapLineCounting_long _ _ _ (by decide) (by decide) (by decide)
    (List.replicate 10 [120]) (by decide)]
  have h1 : (10 : Int) - max (10 - SOURCE_CHUNK_MAX_CONTEXT / 2) 1 + 1 = 6 := by decide
  rw [h1, analyzeEditAndMapLineCounting_long _ _ _ (by decide) (by decide) (by decide)
    (List.replicate 9 [120]) (by decide)]
  have h2 : (6 : Int) - max (6 - SOURCE_CHUNK_MAX_CONTEXT / 2) 1 + 1 = 6 := by decide
  rw [h2, analyzeEditAndMapLineCounting_long _ _ _ (by decide) (by decide) (by decide)
    (List.replicate 8 [120]) (by decide)]
  rw [h2, analyzeEditAndMapLineCounting_short _ _ _ (by decide)]

/-- C19, amended: for every source of more than 8 lines, `k` in range and a non-empty
target, the window passed to the self-call has at most 10 lines; when it has at most 8
lines `analyzeEditAndMapLine` calls itself once, and it never calls itself more than 3
times. -/
theorem truncation_in_at_most_three_calls (source_lines target_lines : List GoString)
    (k : Int) (h8 : source_lines.length > 8) (hk1 : 1 ≤ k) (hk2 : k ≤ source_lines.length)
    (hT : target_lines ≠ []) :
    ∃ window, slice? source_lines (max (k - 5) 1 - 1)
        (min (k + 5) (source_lines.length : Int) - 1) = some window ∧
      window.length ≤ 10 ∧
      (analyzeEditAndMapLineCounting source_lines target_lines k).1
        = analyzeEditAndMapLine source_lines target_lines k ∧
      (analyzeEditAndMapLineCounting source_lines target_lines k).2 ≤ 3 ∧
      (window.length ≤ 8 →
        (analyzeEditAndMapLineCounting source_lines target_lines k).2 = 1) := by
  have hT1 : ¬ target_lines.length < 1 := by
    cases target_lines with
    | nil => exact absurd rfl hT
    | cons t ts => simp
  obtain ⟨_, _, _, w, hw, h10, _⟩ := window_of_long source_lines k h8 (by omega)
  refine ⟨w, by rw [← half_context]; exact hw, h10,
    analyzeEditAndMapLineCounting_fst _ _ _,
    (analyzeEditAndMapLineCounting_le source_lines target_lines k).1, fun hw8 => ?_⟩
  rw [analyzeEditAndMapLineCounting_long source_lines target_lines k (by omega) hT1 h8 w hw,
    analyzeEditAndMapLineCounting_short w target_lines _ (by omega)]

/-- Witness of C19 as amended: the 10 source lines of the test and line 3, whose window
`source_lines[0:7]` has 7 lines. -/
theorem truncation_in_at_most_three_calls_witness :
    ∃ window, slice? testSourceLines (max (3 - 5) 1 - 1)
        (min (3 + 5) (testSourceLines.length : Int) - 1) = some window ∧
      window.length ≤ 10 ∧
      (analyzeEditAndMapLineCounting testSourceLines testTargetLines 3).1
        = analyzeEditAndMapLine testSourceLines testTargetLines 3 ∧
      (analyzeEditAndMapLineCounting testSourceLines testTargetLines 3).2 ≤ 3 ∧
      (window.length ≤ 8 →
        (analyzeEditAndMapLineCounting testSourceLines testTargetLines 3).2 = 1) :=
  truncation_in_at_most_three_calls testSourceLines testTargetLines 3 (by decide) (by decide)
    (by decide) (by decide)

/-- C20: whenever `analyzeEditAndMapLine` calls itself (more than 8 source lines, `k` in
range, non-empty target), the bounds `new_start - 1 = max(k - 5, 1) - 1` and
`new_end - 1 = min(k + 5, len(source_lines)) - 1` form a well-formed slice, and the window
has at most 10 lines and fewer lines than `source_lines`: the recursion is on a strictly
shorter source, and the call is the self-call on the window. -/
theorem truncation_window_is_shorter (source_lines target_lines : List GoString)
    (k : Int) (h8 : source_lines.length > 8) (hk1 : 1 ≤ k) (hk2 : k ≤ source_lines.length)
    (hT : target_lines ≠ []) :
    0 ≤ max (k - 5) 1 - 1 ∧
      max (k - 5) 1 - 1 ≤ min (k + 5) (source_lines.length : Int) - 1 ∧
      min (k + 5) (source_lines.length : Int) - 1 ≤ source_lines.length ∧
      ∃ window, slice? source_lines (max (k - 5) 1 - 1)
          (min (k + 5) (source_lines.length : Int) - 1) = some window ∧
        window.length ≤ 10 ∧ window.length < source_lines.length ∧
        analyzeEditAndMapLine source_lines target_lines k
          = analyzeEditAndMapLine window target_lines (k - max (k - 5) 1 + 1) := by
  have hT1 : ¬ target_lines.length < 1 := by
    cases target_lines with
    | nil => exact absurd rfl hT
    | cons t ts => simp
  have h := window_of_long source_lines k h8 (by omega)
  have hl := analyzeEditAndMapLine_long source_lines target_lines k (by omega) hT1 h8
  rw [half_context] at h hl
  obtain ⟨hb1, hb2, hb3, w, hw, h10, hlt⟩ := h
  rw [hw] at hl
  exact ⟨hb1, hb2, hb3, w, hw, h10, hlt, hl⟩

/-- Witness of C20: the 10 source lines of the test and line 5, whose window
`source_lines[0:9]` has 9 lines. -/
theorem truncation_window_is_shorter_witness :
    ∃ window, slice? testSourceLines (max (5 - 5) 1 - 1)
        (min (5 + 5) (testSourceLines.length : Int) - 1) = some window ∧
      window.length ≤ 10 ∧ window.length < testSourceLines.length ∧
      analyzeEditAndMapLine testSourceLines testTargetLines 5
        = analyzeEditAndMapLine window testTargetLines (5 - max (5 - 5) 1 + 1) :=
  (truncation_window_is_shorter testSourceLines testTargetLines 5 (by decide) (by decide)
    (by decide) (by decide)).2.2.2

/-! ## The distinguished range -/

/-- The body of `analyzeEditAndMapLine` runs on the offsets of `distinguishedRange`. -/
theorem alignLines_of_range (S T : List GoString) (k : Int) :
    alignLines S T k =
      match distinguishedRange S k with
      | none => .panic
      | some (i1, i2) =>
        match backtrack (table (stringsJoin S newline) (stringsJoin T newline) i1 i2)
            (stringsJoin T newline).length with
        | none => .panic
        | some mapping =>
          match slice? mapping i1 i2 with
          | none => .panic
          | some important =>
            .ok ((bestLineFrom 0
              (projectOnLines (lineBeginningsFrom 0 T) (T.length - 1) important 0
                (T.map (fun _ => 0))) (0, 0)).2 + 1) := by
  unfold alignLines distinguishedRange
  cases hs : slice? S 0 (k - 1) with
  | none => rfl
  | some before =>
    cases hi : index? S (k - 1) with
    | none => rfl
    | some line => rfl

theorem stringsJoin_split_at :
    ∀ (X : List GoString) (d : Nat), 1 ≤ d → d < X.length →
      stringsJoin X newline
        = stringsJoin (X.take d) newline ++ newline ++ stringsJoin (X.drop d) newline := by
  intro X
  induction X with
  | nil => intro d _ h; simp at h
  | cons e rest ih =>
    intro d h1 h2
    obtain ⟨d', rfl⟩ : ∃ d', d = d' + 1 := ⟨d - 1, by omega⟩
    cases rest with
    | nil => simp at h2
    | cons e2 rest =>
      cases d' with
      | zero => simp [stringsJoin]
      | succ d' =>
        have := ih (d' + 1) (by omega) (by simpa using h2)
        simp only [List.take_succ_cons, List.drop_succ_cons] at this ⊢
        rw [stringsJoin, this]
        · cases hrest : List.take d' rest with
          | nil => simp [stringsJoin]
          | cons t ts => simp [stringsJoin]
        · simp

theorem distinguishedRange_later_line (X : List GoString) (k0 : Nat) (line : GoString)
    (hk : 1 ≤ k0) (hline : X[k0]? = some line) :
    ∃ i1 : Nat, distinguishedRange X ((k0 : Int) + 1) = some ((i1 : Int), (i1 : Int) + line.length) ∧
      (i1 : Int) + 1 = lineStart X k0 ∧
      (stringsJoin X newline)[i1]? = some 10 := by
  have hlt : k0 < X.length := (List.getElem?_eq_some.1 hline).1
  have hsl : slice? X 0 ((k0 : Int) + 1 - 1) = some (X.take k0) := by
    unfold slice?
    rw [if_pos (by omega)]
    simp
  have hix : index? X ((k0 : Int) + 1 - 1) = some line := by
    unfold index?
    rw [if_neg (by omega)]
    simpa using hline
  refine ⟨(stringsJoin (X.take k0) newline).length, ?_,
    stringsJoin_take_length X k0 hk (by omega), ?_⟩
  · unfold distinguishedRange
    rw [hsl, hix]
  · rw [stringsJoin_split_at X k0 hk hlt, List.append_assoc,
      List.getElem?_append_right (le_refl _)]
    simp [newline]

/-- C21 fails on the code for every line but the first: for `k >= 2` the offset `i1` is the
offset of the newline that joins line `k - 1` and line `k`, one byte before the offset at
which line `k` starts, and `i2 = i1 + len(source_lines[k-1])` is the offset of the last
byte of line `k`. -/
theorem distinguished_range_starts_at_the_newline (source_lines : List GoString) (k : Nat)
    (line : GoString) (hk : 2 ≤ k) (hline : source_lines[k - 1]? = some line) :
    ∃ i1 : Nat,
      distinguishedRange source_lines (k : Int) = some ((i1 : Int), (i1 : Int) + line.length) ∧
      (i1 : Int) + 1 = lineStart source_lines (k - 1) ∧
      (stringsJoin source_lines newline)[i1]? = some 10 := by
  obtain ⟨k0, rfl⟩ : ∃ k0, k = k0 + 1 := ⟨k - 1, by omega⟩
  simp only [Nat.add_sub_cancel] at hline ⊢
  obtain ⟨i1, h1, h2, h3⟩ := distinguishedRange_later_line source_lines k0 line (by omega) hline
  exact ⟨i1, by push_cast; exact h1, h2, h3⟩

/-- Witness of the defect behind C21: of the lines `a`, `b` and `k = 2` the range is
`[1, 2)`, and offset 1 of `"a\nb"` holds the newline, not `b`. -/
theorem distinguished_range_starts_at_the_newline_witness :
    ∃ i1 : Nat,
      distinguishedRange [[97], [98]] ((2 : Nat) : Int)
        = some ((i1 : Int), (i1 : Int) + ([98] : GoString).length) ∧
      (i1 : Int) + 1 = lineStart [[97], [98]] (2 - 1) ∧
      (stringsJoin [[97], [98]] newline)[i1]? = some 10 :=
  distinguished_range_starts_at_the_newline [[97], [98]] 2 [98] (by decide) (by decide)

/-! ## The rows of the tables -/

theorem firstRowFrom_length (c : Nat) (p : Int) :
    ∀ (ts : GoString) (j : Nat), (firstRowFrom c p j ts).length = ts.length := by
  intro ts
  induction ts with
  | nil => intro j; rfl
  | cons t ts ih => intro j; simp [firstRowFrom, ih]

theorem firstRowFrom_cell (c : Nat) (p : Int) :
    ∀ (ts : GoString) (j d : Nat) (cell : Cell), (firstRowFrom c p j ts)[d]? = some cell →
      ∃ t, ts[d]? = some t ∧
        cell = (if c = t then penaltyForDistance ((j + d : Nat) : Int)
                else if j + d = 0 then p else -1, -1) := by
  intro ts
  induction ts with
  | nil => intro j d cell h; simp [firstRowFrom] at h
  | cons t ts ih =>
    intro j d cell h
    cases d with
    | zero =>
      simp only [firstRowFrom, List.getElem?_cons_zero, Option.some.injEq] at h
      exact ⟨t, by simp, by rw [← h]; simp⟩
    | succ d =>
      simp only [firstRowFrom, List.getElem?_cons_succ] at h
      obtain ⟨t', h1, h2⟩ := ih (j + 1) d cell h
      refine ⟨t', by simpa using h1, ?_⟩
      rw [h2, show j + 1 + d = j + (d + 1) by omega]

theorem nextRowFrom_length (c : Nat) (p : Int) (prev : Row) :
    ∀ (ts : GoString) (j : Nat) (best : Int × Int) (kr : Nat),
      (nextRowFrom c p prev j ts best kr).length = ts.length := by
  intro ts
  induction ts with
  | nil => intro j best kr; rfl
  | cons t ts ih =>
    intro j best kr
    simp only [nextRowFrom]
    split
    · simp [ih]
    · split <;> simp [ih]

theorem untouchedRow_cell (T : GoString) (j : Nat) (cell : Cell)
    (h : (untouchedRow T)[j]? = some cell) : cell = (0, 0) := by
  unfold untouchedRow at h
  rw [List.getElem?_map] at h
  cases hT : T[j]? with
  | none => rw [hT] at h; simp at h
  | some t => rw [hT] at h; simpa using h.symm

/-- What holds of the first row, is kept from a row to the next and holds of a row the loop
does not visit, holds of every row of the tables. -/
theorem tableFrom_rows (T : GoString) (i1 i2 : Int) (P : Nat → Row → Prop)
    (hfirst : ∀ c, P 0 (firstRowFrom c (penaltyForSkippingThisChar i1 i2 0) 0 T))
    (hnext : ∀ (i : Nat) (c : Nat) (prev : Row), P i prev →
      P (i + 1)
        (nextRowFrom c (penaltyForSkippingThisChar i1 i2 (i + 1)) prev 0 T (-1, -1) 0))
    (hskip : ∀ i, P i (untouchedRow T)) :
    ∀ (rest : GoString) (i skip : Nat) (prev : Row), (i ≠ 0 → P (i - 1) prev) →
      ∀ (d : Nat) (row : Row), (tableFrom T i1 i2 i skip prev rest)[d]? = some row →
        P (i + d) row := by
  intro rest
  induction rest with
  | nil => intro i skip prev _ d row h; cases skip <;> simp [tableFrom] at h
  | cons c rest ih =>
    intro i skip prev hprev d row h
    cases skip with
    | zero =>
      rw [tableFrom] at h
      have hrow : P i
          (if i = 0 then firstRowFrom c (penaltyForSkippingThisChar i1 i2 i) 0 T
           else nextRowFrom c (penaltyForSkippingThisChar i1 i2 i) prev 0 T (-1, -1) 0) := by
        split
        · rename_i h0
          subst h0
          exact hfirst c
        · rename_i h0
          obtain ⟨i', rfl⟩ : ∃ i', i = i' + 1 := ⟨i - 1, by omega⟩
          exact hnext i' c prev (by simpa using hprev h0)
      cases d with
      | zero =>
        simp only [List.getElem?_cons_zero, Option.some.injEq] at h
        subst h
        exact hrow
      | succ d =>
        simp only [List.getElem?_cons_succ] at h
        have := ih (i + 1) _ _ (fun _ => by simpa using hrow) d row h
        rwa [show i + (d + 1) = i + 1 + d by omega]
    | succ skip =>
      rw [tableFrom] at h
      cases d with
      | zero =>
        simp only [List.getElem?_cons_zero, Option.some.injEq] at h
        subst h
        exact hskip i
      | succ d =>
        simp only [List.getElem?_cons_succ] at h
        have := ih (i + 1) skip _ (fun _ => by simpa using hskip i) d row h
        rwa [show i + (d + 1) = i + 1 + d by omega]

theorem table_rows (S T : GoString) (i1 i2 : Int) (P : Nat → Row → Prop)
    (hfirst : ∀ c, P 0 (firstRowFrom c (penaltyForSkippingThisChar i1 i2 0) 0 T))
    (hnext : ∀ (i : Nat) (c : Nat) (prev : Row), P i prev →
      P (i + 1)
        (nextRowFrom c (penaltyForSkippingThisChar i1 i2 (i + 1)) prev 0 T (-1, -1) 0))
    (hskip : ∀ i, P i (untouchedRow T))
    (i : Nat) (row : Row) (h : (table S T i1 i2)[i]? = some row) : P i row := by
  have := tableFrom_rows T i1 i2 P hfirst hnext hskip S 0 0 [] (fun h => absurd rfl h) i row h
  rwa [Nat.zero_add] at this

theorem tableFrom_length (T : GoString) (i1 i2 : Int) :
    ∀ (rest : GoString) (i skip : Nat) (prev : Row),
      (tableFrom T i1 i2 i skip prev rest).length = rest.length := by
  intro rest
  induction rest with
  | nil => intro i skip prev; cases skip <;> simp [tableFrom]
  | cons c rest ih =>
    intro i skip prev
    cases skip with
    | zero => rw [tableFrom]; simp [ih]
    | succ skip => rw [tableFrom]; simp [ih]

theorem table_length (S T : GoString) (i1 i2 : Int) : (table S T i1 i2).length = S.length :=
  tableFrom_length T i1 i2 S 0 0 []

theorem table_row_length (S T : GoString) (i1 i2 : Int) (i : Nat) (row : Row)
    (h : (table S T i1 i2)[i]? = some row) : row.length = T.length :=
  table_rows S T i1 i2 (fun _ row => row.length = T.length)
    (fun c => firstRowFrom_length c _ T 0)
    (fun _ c prev _ => nextRowFrom_length c _ prev T 0 _ 0)
    (fun _ => by simp [untouchedRow]) i row h

/-! ## The match case of the DP -/

theorem nextMatchFrom_eq (c : Nat) (T : GoString) (j : Nat) (hj : T[j]? = some c) :
    ∀ (ts : GoString) (a : Nat), T.drop a = ts → a ≤ j →
      (∀ j', a ≤ j' → j' < j → T[j']? ≠ some c) → nextMatchFrom c a ts = j := by
  intro ts
  induction ts with
  | nil =>
    intro a hdrop ha _
    have hlen := congrArg List.length hdrop
    simp only [List.length_drop, List.length_nil] at hlen
    have := (List.getElem?_eq_some.1 hj).1
    omega
  | cons t ts ih =>
    intro a hdrop ha hno
    obtain ⟨_, hta, hdrop'⟩ := drop_cons_getElem? T a t ts hdrop
    simp only [nextMatchFrom]
    split
    · rename_i htc
      subst htc
      by_contra hne
      exact hno a (le_refl _) (by omega) hta
    · rename_i htc
      have haj : a ≠ j := by
        rintro rfl
        rw [hta] at hj
        exact htc (Option.some.inj hj)
      exact ih (a + 1) hdrop' (by omega) (fun j' h1 h2 => hno j' (by omega) h2)

theorem nextMatch_eq (c : Nat) (T : GoString) (k j : Nat) (hkj : k < j)
    (hj : T[j]? = some c) (hno : ∀ j', k < j' → j' < j → T[j']? ≠ some c) :
    nextMatch c T k = j :=
  nextMatchFrom_eq c T j hj _ (k + 1) rfl hkj (fun j' h1 h2 => hno j' (by omega) h2)

theorem MatchScore.congr_price (price price' : Nat → Int) (prev : Row) (n : Nat)
    (b : Int × Int) (h : MatchScore price prev n b) (hp : ∀ k, k < n → price k = price' k) :
    MatchScore price' prev n b := by
  rcases h with h | ⟨k, hk, hd, hb, hmin⟩
  · exact Or.inl h
  · refine Or.inr ⟨k, hk, hd, by rw [← hp k hk]; exact hb, fun k' hk' hd' => ?_⟩
    rw [← hp k hk, ← hp k' hk']
    exact hmin k' hk' hd'

/-- The loop of fastforward.go:105-112 keeps its state, every candidate being no better, or
moves to the first of the least candidates. -/
theorem scanPredecessors_spec (prev : Row) (j : Nat) :
    ∀ (n k : Nat) (best : Int × Int),
      (scanPredecessors prev j n k best = best ∧
        ∀ k', k ≤ k' → k' < k + n → 0 ≤ prev.scoreAt k' →
          best.1 ≠ -1 ∧ best.1 ≤ prev.scoreAt k' + penaltyForDistance ((j : Int) - k'))
      ∨ ∃ k0, k ≤ k0 ∧ k0 < k + n ∧ 0 ≤ prev.scoreAt k0 ∧
          scanPredecessors prev j n k best
            = (prev.scoreAt k0 + penaltyForDistance ((j : Int) - k0), (k0 : Int)) ∧
          (best.1 = -1 ∨ prev.scoreAt k0 + penaltyForDistance ((j : Int) - k0) < best.1) ∧
          ∀ k', k ≤ k' → k' < k + n → 0 ≤ prev.scoreAt k' →
            prev.scoreAt k0 + penaltyForDistance ((j : Int) - k0)
              ≤ prev.scoreAt k' + penaltyForDistance ((j : Int) - k') := by
  intro n
  induction n with
  | zero =>
    intro k best
    exact Or.inl ⟨rfl, fun k' h1 h2 => absurd h2 (by omega)⟩
  | succ n ih =>
    intro k best
    have hpd := penaltyForDistance_cases ((j : Int) - k)
    simp only [scanPredecessors]
    split
    · rename_i hundef
      rcases ih (k + 1) best with ⟨h1, h2⟩ | ⟨k0, hk0, hk1, hd, h1, h2, h3⟩
      · refine Or.inl ⟨h1, fun k' hk hk' hd' => ?_⟩
        rcases Nat.eq_or_lt_of_le hk with h | h
        · subst h; omega
        · exact h2 k' (by omega) (by omega) hd'
      · refine Or.inr ⟨k0, by omega, by omega, hd, h1, h2, fun k' hk hk' hd' => ?_⟩
        rcases Nat.eq_or_lt_of_le hk with h | h
        · subst h; omega
        · exact h3 k' (by omega) (by omega) hd'
    · rename_i hdef
      split
      · rename_i hupd
        rcases ih (k + 1) (prev.scoreAt k + penaltyForDistance ((j : Int) - k), (k : Int)) with
          ⟨h1, h2⟩ | ⟨k0, hk0, hk1, hd, h1, h2, h3⟩
        · refine Or.inr ⟨k, le_refl _, by omega, by omega, h1, hupd, fun k' hk hk' hd' => ?_⟩
          rcases Nat.eq_or_lt_of_le hk with h | h
          · subst h; exact le_refl _
          · exact (h2 k' (by omega) (by omega) hd').2
        · simp only at h2
          have hlt : prev.scoreAt k0 + penaltyForDistance ((j : Int) - k0)
              < prev.scoreAt k + penaltyForDistance ((j : Int) - k) := by
            rcases h2 with h | h
            · omega
            · exact h
          refine Or.inr ⟨k0, by omega, by omega, hd, h1, ?_, fun k' hk hk' hd' => ?_⟩
          · rcases hupd with h | h
            · exact Or.inl h
            · exact Or.inr (by omega)
          · rcases Nat.eq_or_lt_of_le hk with h | h
            · subst h; omega
            · exact h3 k' (by omega) (by omega) hd'
      · rename_i hkeep
        have hk1 : best.1 ≠ -1 := fun h => hkeep (Or.inl h)
        have hk2 : best.1 ≤ prev.scoreAt k + penaltyForDistance ((j : Int) - k) := by
          by_contra h
          exact hkeep (Or.inr (by omega))
        rcases ih (k + 1) best with ⟨h1, h2⟩ | ⟨k0, hk0, hk1', hd, h1, h2, h3⟩
        · refine Or.inl ⟨h1, fun k' hk hk' hd' => ?_⟩
          rcases Nat.eq_or_lt_of_le hk with h | h
          · subst h; exact ⟨hk1, hk2⟩
          · exact h2 k' (by omega) (by omega) hd'
        · refine Or.inr ⟨k0, by omega, by omega, hd, h1, h2, fun k' hk hk' hd' => ?_⟩
          rcases Nat.eq_or_lt_of_le hk with h | h
          · subst h
            rcases h2 with h | h
            · exact absurd h hk1
            · omega
          · exact h3 k' (by omega) (by omega) hd'

theorem MatchScore.scan (c : Nat) (T : GoString) (prev : Row) (j kr : Nat)
    (best : Int × Int) (hkr : kr ≤ j) (hj : T[j]? = some c)
    (hno : ∀ j', kr < j' → j' < j → T[j']? ≠ some c)
    (hbest : MatchScore (fun k => penaltyForDistance ((nextMatch c T k : Nat) - (k : Int)))
      prev kr best) :
    MatchScore (fun k => penaltyForDistance ((nextMatch c T k : Nat) - (k : Int))) prev j
      (scanPredecessors prev j (j - kr) kr best) := by
  have hnext : ∀ k', kr ≤ k' → k' < j → nextMatch c T k' = j :=
    fun k' h1 h2 => nextMatch_eq c T k' j h2 hj (fun j' h3 h4 => hno j' (by omega) h4)
  have hend : kr + (j - kr) = j := by omega
  rcases scanPredecessors_spec prev j (j - kr) kr best with
    ⟨h1, h2⟩ | ⟨k0, hk0, hk1, hd, h1, h2, h3⟩
  · rw [h1]
    rcases hbest with ⟨hnone, hb⟩ | ⟨k, hk, hd, hb, hmin⟩
    · left
      refine ⟨fun k' hk' => ?_, hb⟩
      by_contra hdef
      rcases Nat.lt_or_ge k' kr with h | h
      · exact hdef (hnone k' h)
      · exact (h2 k' h (by omega) (by omega)).1 (by rw [hb])
    · right
      refine ⟨k, by omega, hd, hb, fun k' hk' hd' => ?_⟩
      rcases Nat.lt_or_ge k' kr with h | h
      · exact hmin k' h hd'
      · have := (h2 k' h (by omega) hd').2
        rw [hb] at this
        simp only at this ⊢
        rw [hnext k' h hk']
        exact this
  · rw [h1]
    right
    refine ⟨k0, by omega, hd, by simp only; rw [hnext k0 hk0 (by omega)], fun k' hk' hd' => ?_⟩
    simp only
    rw [hnext k0 hk0 (by omega)]
    rcases Nat.lt_or_ge k' kr with h | h
    · rcases hbest with ⟨hnone, _⟩ | ⟨k, hk, hdk, hb, hmin⟩
      · exact absurd hd' (by have := hnone k' h; omega)
      · have hle := hmin k' h hd'
        have hpd := penaltyForDistance_cases (((nextMatch c T k : Nat) : Int) - (k : Int))
        rw [hb] at h2
        simp only at h2 hle
        rcases h2 with h2 | h2
        · omega
        · omega
    · rw [hnext k' h hk']
      exact h3 k' h (by omega) hd'

theorem nextRowFrom_matchScore (c : Nat) (p : Int) (prev : Row) (T : GoString) :
    ∀ (ts : GoString) (j : Nat) (best : Int × Int) (kr : Nat), T.drop j = ts → kr ≤ j →
      (∀ j', kr < j' → j' < j → T[j']? ≠ some c) →
      MatchScore (fun k => penaltyForDistance ((nextMatch c T k : Nat) - (k : Int)))
        prev kr best →
      ∀ d, ts[d]? = some c →
        ∃ cell, (nextRowFrom c p prev j ts best kr)[d]? = some cell ∧
          MatchScore (fun k => penaltyForDistance ((nextMatch c T k : Nat) - (k : Int)))
            prev (j + d) cell := by
  intro ts
  induction ts with
  | nil => intro j best kr _ _ _ _ d hd; simp at hd
  | cons t ts ih =>
    intro j best kr hdrop hkr hno hbest d hd
    obtain ⟨_, htj, hdrop'⟩ := drop_cons_getElem? T j t ts hdrop
    simp only [nextRowFrom]
    split
    · rename_i hct
      subst hct
      have hs := MatchScore.scan c T prev j kr best hkr htj hno hbest
      cases d with
      | zero => exact ⟨_, by simp, hs⟩
      | succ d =>
        simp only [List.getElem?_cons_succ] at hd ⊢
        have := ih (j + 1) _ j hdrop' (by omega) (fun j' h1 h2 => absurd h2 (by omega)) hs d hd
        rwa [show j + 1 + d = j + (d + 1) by omega] at this
    · rename_i hct
      have hno' : ∀ j', kr < j' → j' < j + 1 → T[j']? ≠ some c := by
        intro j' h1 h2
        rcases Nat.lt_or_ge j' j with h | h
        · exact hno j' h1 h
        · have : j' = j := by omega
          subst this
          rw [htj]
          exact fun h => hct (Option.some.inj h).symm
      have hrest : ∀ d, ts[d]? = some c →
          ∃ cell, (nextRowFrom c p prev (j + 1) ts best kr)[d]? = some cell ∧
            MatchScore (fun k => penaltyForDistance ((nextMatch c T k : Nat) - (k : Int)))
              prev (j + (d + 1)) cell := by
        intro d hd
        have := ih (j + 1) best kr hdrop' (by omega) hno' hbest d hd
        rwa [show j + 1 + d = j + (d + 1) by omega] at this
      cases d with
      | zero =>
        simp only [List.getElem?_cons_zero, Option.some.injEq] at hd
        exact absurd hd.symm hct
      | succ d =>
        simp only [List.getElem?_cons_succ] at hd
        split <;> simpa using hrest d hd

theorem tableFrom_head (T : GoString) (i1 i2 : Int) (i : Nat) (prev : Row) (c : Nat)
    (rest : GoString) (hi : i ≠ 0) :
    (tableFrom T i1 i2 i 0 prev (c :: rest))[0]? =
      some (nextRowFrom c (penaltyForSkippingThisChar i1 i2 i) prev 0 T (-1, -1) 0) := by
  rw [tableFrom, if_neg hi]
  simp

theorem tableFrom_step (T : GoString) (i1 i2 : Int) :
    ∀ (rest : GoString) (i : Nat) (prev : Row), (∀ b ∈ rest, b < 128) →
      ∀ (d : Nat) (c : Nat) (row : Row), rest[d + 1]? = some c →
        (tableFrom T i1 i2 i 0 prev rest)[d]? = some row →
        (tableFrom T i1 i2 i 0 prev rest)[d + 1]? =
          some (nextRowFrom c (penaltyForSkippingThisChar i1 i2 (i + d + 1)) row 0 T
            (-1, -1) 0) := by
  intro rest
  induction rest with
  | nil => intro i prev _ d c row h; simp at h
  | cons c0 rest ih =>
    intro i prev hascii d c row hc hrow
    rw [tableFrom, runeWidth_ascii c0 rest (hascii c0 (by simp))] at hrow ⊢
    simp only [Nat.sub_self, List.getElem?_cons_succ] at hc ⊢
    cases d with
    | zero =>
      simp only [List.getElem?_cons_zero, Option.some.injEq] at hrow
      cases rest with
      | nil => simp at hc
      | cons c1 rest =>
        simp only [List.getElem?_cons_zero, Option.some.injEq] at hc
        subst hc
        rw [hrow, tableFrom_head T i1 i2 (i + 1) row c1 rest (by omega)]
    | succ d =>
      simp only [List.getElem?_cons_succ] at hrow
      have := ih (i + 1) _ (fun b hb => hascii b (by simp [hb])) d c row hc hrow
      rw [this, show i + 1 + d + 1 = i + (d + 1) + 1 by omega]

/-- Row `i + 1` of the tables of an ASCII source is computed from row `i` by the loop of
fastforward.go:100-120. -/
theorem table_step (S T : GoString) (i1 i2 : Int) (hascii : ∀ b ∈ S, b < 128) (i c : Nat)
    (prev : Row) (hc : S[i + 1]? = some c) (hprev : (table S T i1 i2)[i]? = some prev) :
    (table S T i1 i2)[i + 1]? =
      some (nextRowFrom c (penaltyForSkippingThisChar i1 i2 (i + 1)) prev 0 T (-1, -1) 0) := by
  have := tableFrom_step T i1 i2 S 0 [] hascii i c prev hc hprev
  rwa [Nat.zero_add] at this

/-- C22 as stated is false: `best_score` is carried along the row and a predecessor is
priced once, at the first matching column after it. For the text `aaa` against itself
(line 1), row 0 holds the scores 0, 1, 2; in row 1 the claim gives column 2 the minimum of
`0 + penaltyForDistance(2) = 2` and `1 + penaltyForDistance(1) = 2`, and the code gives it
1, the candidate `0 + penaltyForDistance(1)` kept from column 1. -/
theorem match_score_is_not_the_minimum :
    (table [97, 97, 97] [97, 97, 97] 0 3)[0]? = some [(0, -1), (1, -1), (2, -1)] ∧
      (table [97, 97, 97] [97, 97, 97] 0 3)[1]? = some [(-1, -1), (1, 0), (1, 0)] ∧
      Row.scoreAt [(0, -1), (1, -1), (2, -1)] 0 + penaltyForDistance (2 - 0) = 2 ∧
      Row.scoreAt [(0, -1), (1, -1), (2, -1)] 1 + penaltyForDistance (2 - 1) = 2 ∧
      ¬ MatchScore (fun k => penaltyForDistance (((2 : Nat) : Int) - (k : Int)))
        [(0, -1), (1, -1), (2, -1)] 2 (1, 0) := by
  refine ⟨by decide, by decide, by decide, by decide, ?_⟩
  rintro (⟨h, _⟩ | ⟨k, hk, _, hb, _⟩)
  · exact absurd (h 0 (by omega)) (by decide)
  · have h2 : ((0 : Int)) = (k : Int) := congrArg Prod.snd hb
    have hk0 : k = 0 := by omega
    subst hk0
    have h1 := congrArg Prod.fst hb
    revert h1
    decide

theorem visitedFrom_head_true (skip : Nat) (rest : GoString)
    (h : (visitedFrom skip rest)[0]? = some true) : skip = 0 := by
  cases rest with
  | nil => simp [visitedFrom] at h
  | cons b rest =>
    cases skip with
    | zero => rfl
    | succ skip => simp [visitedFrom] at h

theorem tableFrom_step_visited (T : GoString) (i1 i2 : Int) :
    ∀ (rest : GoString) (i skip : Nat) (prev : Row) (d : Nat) (c : Nat) (row : Row),
      rest[d + 1]? = some c → (visitedFrom skip rest)[d + 1]? = some true →
      (tableFrom T i1 i2 i skip prev rest)[d]? = some row →
      (tableFrom T i1 i2 i skip prev rest)[d + 1]? =
        some (nextRowFrom c (penaltyForSkippingThisChar i1 i2 (i + d + 1)) row 0 T
          (-1, -1) 0) := by
  intro rest
  induction rest with
  | nil => intro i skip prev d c row h; simp at h
  | cons c0 rest ih =>
    intro i skip prev d c row hc hv hrow
    have hstep : ∀ (skip' : Nat) (row0 : Row) (rows : List Row),
        rows = tableFrom T i1 i2 (i + 1) skip' row0 rest →
        (visitedFrom skip' rest)[d]? = some true →
        (row0 :: rows)[d]? = some row →
        (row0 :: rows)[d + 1]? =
          some (nextRowFrom c (penaltyForSkippingThisChar i1 i2 (i + d + 1)) row 0 T
            (-1, -1) 0) := by
      intro skip' row0 rows hrows hv' hrow'
      simp only [List.getElem?_cons_succ] at hc ⊢
      subst hrows
      cases d with
      | zero =>
        simp only [List.getElem?_cons_zero, Option.some.injEq] at hrow'
        have hs := visitedFrom_head_true skip' rest hv'
        subst hs
        cases rest with
        | nil => simp at hc
        | cons c1 rest =>
          simp only [List.getElem?_cons_zero, Option.some.injEq] at hc
          subst hc
          rw [hrow', tableFrom_head T i1 i2 (i + 1) row c1 rest (by omega)]
      | succ d =>
        simp only [List.getElem?_cons_succ] at hrow'
        have := ih (i + 1) skip' row0 d c row hc hv' hrow'
        rw [this, show i + 1 + d + 1 = i + (d + 1) + 1 by omega]
    cases skip with
    | zero =>
      rw [tableFrom] at hrow ⊢
      rw [visitedFrom] at hv
      simp only [List.getElem?_cons_succ] at hv
      exact hstep _ _ _ rfl hv hrow
    | succ skip =>
      rw [tableFrom] at hrow ⊢
      rw [visitedFrom] at hv
      simp only [List.getElem?_cons_succ] at hv
      exact hstep _ _ _ rfl hv hrow

/-- A row `i + 1` that the loop visits is computed from row `i` of the tables, as it
stands, by the loop of fastforward.go:100-120. -/
theorem table_step_visited (S T : GoString) (i1 i2 : Int) (i c : Nat) (prev : Row)
    (hc : S[i + 1]? = some c) (hv : rangeVisits S (i + 1) = true)
    (hprev : (table S T i1 i2)[i]? = some prev) :
    (table S T i1 i2)[i + 1]? =
      some (nextRowFrom c (penaltyForSkippingThisChar i1 i2 (i + 1)) prev 0 T (-1, -1) 0) := by
  have hv' : (visitedFrom 0 S)[i + 1]? = some true := by
    unfold rangeVisits at hv
    rw [List.getD_eq_getElem?_getD] at hv
    cases hget : (visitedFrom 0 S)[i + 1]? with
    | none => rw [hget] at hv; simp at hv
    | some b => rw [hget] at hv; simpa using hv
  have := tableFrom_step_visited T i1 i2 S 0 0 [] i c prev hc hv' hprev
  rwa [Nat.zero_add] at this

theorem visitedFrom_ascii :
    ∀ (rest : GoString), (∀ b ∈ rest, b < 128) →
      ∀ d, d < rest.length → (visitedFrom 0 rest)[d]? = some true := by
  intro rest
  induction rest with
  | nil => intro _ d hd; simp at hd
  | cons b rest ih =>
    intro hascii d hd
    rw [visitedFrom, runeWidth_ascii b rest (hascii b (by simp))]
    cases d with
    | zero => simp
    | succ d =>
      simp only [Nat.sub_self, List.getElem?_cons_succ]
      exact ih (fun b hb => hascii b (by simp [hb])) d (by simpa using hd)

/-- The loop visits every offset of an ASCII string. -/
theorem rangeVisits_ascii (s : GoString) (hascii : ∀ b ∈ s, b < 128) (i : Nat)
    (hi : i < s.length) : rangeVisits s i = true := by
  unfold rangeVisits
  rw [List.getD_eq_getElem?_getD, visitedFrom_ascii s hascii i hi]
  rfl

theorem tableFrom_unvisited (T : GoString) (i1 i2 : Int) :
    ∀ (rest : GoString) (i skip : Nat) (prev : Row) (d : Nat),
      (visitedFrom skip rest)[d]? = some false →
      (tableFrom T i1 i2 i skip prev rest)[d]? = some (untouchedRow T) := by
  intro rest
  induction rest with
  | nil => intro i skip prev d h; cases skip <;> simp [visitedFrom] at h
  | cons c0 rest ih =>
    intro i skip prev d h
    cases skip with
    | zero =>
      rw [visitedFrom] at h
      rw [tableFrom]
      cases d with
      | zero => simp at h
      | succ d =>
        simp only [List.getElem?_cons_succ] at h ⊢
        exact ih _ _ _ d h
    | succ skip =>
      rw [visitedFrom] at h
      rw [tableFrom]
      cases d with
      | zero => simp
      | succ d =>
        simp only [List.getElem?_cons_succ] at h ⊢
        exact ih _ _ _ d h

/-- C22, amended: in a row `i + 1` that the loop `for i := range source_chars` visits and
a column `j` with `T[j] == S[i+1]`, the score is the minimum, over all `k < j` with
`score[i][k]` defined, of `score[i][k] + penaltyForDistance(j_k - k)`, where `j_k <= j` is
the first column after `k` with `T[j_k] == S[i+1]`, the track is a column `k` that attains
it, and the cell is absent when there is no such `k`; when `j` is the first column of the
row with `T[j] == S[i+1]`, that is the minimum of `score[i][k] + penaltyForDistance(j - k)`.
Row `i` is the row of the tables as it stands, visited or not. -/
theorem match_score_is_a_running_minimum (source_chars target_chars : GoString)
    (i1 i2 : Int) (i j c : Nat) (prev : Row)
    (hvisit : rangeVisits source_chars (i + 1) = true)
    (hprev : (table source_chars target_chars i1 i2)[i]? = some prev)
    (hc : source_chars[i + 1]? = some c) (hj : target_chars[j]? = some c) :
    ∃ (row : Row) (cell : Cell),
      (table source_chars target_chars i1 i2)[i + 1]? = some row ∧ row[j]? = some cell ∧
      MatchScore
        (fun k => penaltyForDistance ((nextMatch c target_chars k : Nat) - (k : Int)))
        prev j cell ∧
      ((∀ j', j' < j → target_chars[j']? ≠ some c) →
        MatchScore (fun k => penaltyForDistance ((j : Int) - (k : Int))) prev j cell) := by
  obtain ⟨cell, hcell, hms⟩ := nextRowFrom_matchScore c
    (penaltyForSkippingThisChar i1 i2 (i + 1)) prev target_chars target_chars 0 (-1, -1) 0
    rfl (le_refl _) (fun j' h1 h2 => absurd h2 (by omega))
    (Or.inl ⟨fun k hk => absurd hk (by omega), rfl⟩) j hj
  rw [Nat.zero_add] at hms
  refine ⟨_, cell, table_step_visited source_chars target_chars i1 i2 i c prev hc hvisit hprev,
    hcell, hms, fun hfirst => ?_⟩
  refine MatchScore.congr_price _ _ prev j cell hms (fun k hk => ?_)
  rw [nextMatch_eq c target_chars k j hk hj (fun j' _ h2 => hfirst j' h2)]

/-- Witness of C22 as amended: the source `éb` (bytes 195, 169, 98) against the target
`bb`: the loop visits rows 0 and 2, row 1 keeps the zeroes of `make`, and row 2, column 1
holds the score 1 with the track 0, priced on row 1. -/
theorem match_score_is_a_running_minimum_witness :
    (∃ (row : Row) (cell : Cell),
      (table [195, 169, 98] [98, 98] 0 3)[1 + 1]? = some row ∧ row[1]? = some cell ∧
      MatchScore
        (fun k => penaltyForDistance ((nextMatch 98 [98, 98] k : Nat) - (k : Int)))
        [(0, 0), (0, 0)] 1 cell ∧
      ((∀ j', j' < 1 → ([98, 98] : GoString)[j']? ≠ some 98) →
        MatchScore (fun k => penaltyForDistance (((1 : Nat) : Int) - (k : Int)))
          [(0, 0), (0, 0)] 1 cell)) ∧
      (table [195, 169, 98] [98, 98] 0 3)[1 + 1]? = some [(-1, -1), (1, 0)] :=
  ⟨match_score_is_a_running_minimum [195, 169, 98] [98, 98] 0 3 1 1 98
    [(0, 0), (0, 0)] (by decide) (by decide) (by decide) (by decide), by decide⟩

/-! ## The validity of the mapping -/

/-- C23 fails on the code: the source `aaa` against the target `a` (one line each, line 1).
Row 0 matches column 0; in rows 1 and 2 the byte matches column 0, which has no column
before it, so both rows hold only absent cells. The last row has no defined cell, the
cursor stays 0, `track[2][0] = -1` is followed and `track[1][-1]` is read: the call
panics. -/
theorem mapping_of_aaa_onto_a_is_invalid :
    table [97, 97, 97] [97] 0 3 = [[(0, -1)], [(-1, -1)], [(-1, -1)]] ∧
      backtrack (table [97, 97, 97] [97] 0 3) ([97] : GoString).length = none ∧
      analyzeEditAndMapLine [[97, 97, 97]] [[97]] 1 = .panic := by
  refine ⟨by decide, by decide, ?_⟩
  rw [analyzeEditAndMapLine_short _ _ _ (by decide) (by decide) (by decide)]
  decide

/-! ## The order of the mapping -/

theorem scanPredecessors_track (prev : Row) (j : Nat) (B : Int) :
    ∀ (n k : Nat) (best : Int × Int), best.2 < B → ((k + n : Nat) : Int) ≤ B →
      (scanPredecessors prev j n k best).2 < B := by
  intro n
  induction n with
  | zero => intro k best h _; exact h
  | succ n ih =>
    intro k best h hk
    simp only [scanPredecessors]
    split
    · exact ih _ _ h (by push_cast at hk ⊢; omega)
    · split
      · exact ih _ _ (by simp only; push_cast at hk; omega) (by push_cast at hk ⊢; omega)
      · exact ih _ _ h (by push_cast at hk ⊢; omega)

theorem nextRowFrom_track (c : Nat) (p : Int) (prev : Row) :
    ∀ (ts : GoString) (j : Nat) (best : Int × Int) (kr : Nat), best.2 < j → kr ≤ j →
      ∀ (d : Nat) (cell : Cell), (nextRowFrom c p prev j ts best kr)[d]? = some cell →
        cell.2 ≤ ((j + d : Nat) : Int) := by
  intro ts
  induction ts with
  | nil => intro j best kr _ _ d cell h; simp [nextRowFrom] at h
  | cons t ts ih =>
    intro j best kr hb hkr d cell h
    simp only [nextRowFrom] at h
    split at h
    · have hs := scanPredecessors_track prev j j (j - kr) kr best hb
        (by rw [Nat.add_sub_cancel' hkr])
      cases d with
      | zero =>
        simp only [List.getElem?_cons_zero, Option.some.injEq] at h
        subst h
        push_cast
        omega
      | succ d =>
        simp only [List.getElem?_cons_succ] at h
        have := ih (j + 1) _ j (by push_cast; omega) (by omega) d cell h
        rwa [show j + 1 + d = j + (d + 1) by omega] at this
    · have hrest : ∀ d cell,
          (nextRowFrom c p prev (j + 1) ts best kr)[d]? = some cell →
            cell.2 ≤ ((j + (d + 1) : Nat) : Int) := by
        intro d cell h
        have := ih (j + 1) best kr (by push_cast; omega) (by omega) d cell h
        rwa [show j + 1 + d = j + (d + 1) by omega] at this
      split at h
      · cases d with
        | zero =>
          simp only [List.getElem?_cons_zero, Option.some.injEq] at h
          subst h
          simp
        | succ d =>
          simp only [List.getElem?_cons_succ] at h
          exact hrest d cell h
      · cases d with
        | zero =>
          simp only [List.getElem?_cons_zero, Option.some.injEq] at h
          subst h
          simp only
          push_cast
          omega
        | succ d =>
          simp only [List.getElem?_cons_succ] at h
          exact hrest d cell h

/-- Every recorded predecessor `track[i][j]` is at most `j`. -/
theorem table_track_le (S T : GoString) (i1 i2 : Int) (i j : Nat) (row : Row) (cell : Cell)
    (hrow : (table S T i1 i2)[i]? = some row) (hcell : row[j]? = some cell) :
    cell.2 ≤ (j : Int) := by
  refine table_rows S T i1 i2
    (fun _ row => ∀ (j : Nat) (cell : Cell), row[j]? = some cell → cell.2 ≤ (j : Int))
    ?_ ?_ ?_ i row hrow j cell hcell
  · intro c j cell h
    obtain ⟨t, _, rfl⟩ := firstRowFrom_cell c _ T 0 j cell h
    simp only
    omega
  · intro i c prev _ j cell h
    have := nextRowFrom_track c _ prev T 0 (-1, -1) 0 (by decide) (le_refl _) j cell h
    rwa [Nat.zero_add] at this
  · intro i j cell h
    rw [untouchedRow_cell T j cell h]
    simp only
    omega

theorem walkBack_chain :
    ∀ (rows : List Row) (cursor : Int) (ms : List Int),
      (∀ row ∈ rows, ∀ (j : Nat) (cell : Cell), row[j]? = some cell → cell.2 ≤ (j : Int)) →
      walkBack rows cursor = some ms → List.Chain (fun a b => b ≤ a) cursor ms := by
  intro rows
  induction rows with
  | nil =>
    intro cursor ms _ h
    simp only [walkBack, Option.some.injEq] at h
    subst h
    exact List.Chain.nil
  | cons row rows ih =>
    intro cursor ms hrows h
    simp only [walkBack] at h
    cases hc : index? row cursor with
    | none => rw [hc] at h; simp at h
    | some cell =>
      rw [hc] at h
      simp only at h
      cases hw : walkBack rows cell.2 with
      | none => rw [hw] at h; simp at h
      | some ms' =>
        rw [hw] at h
        simp only [Option.some.injEq] at h
        subst h
        have hle : cell.2 ≤ cursor := by
          unfold index? at hc
          split at hc
          · simp at hc
          · have := hrows row (by simp) cursor.toNat cell (by simpa using hc)
            omega
        exact List.Chain.cons hle
          (ih cell.2 ms' (fun r hr => hrows r (by simp [hr])) hw)

theorem backtrack_chain (rows : List Row) (lenT : Nat) (mapping : List Int)
    (hrows : ∀ row ∈ rows, ∀ (j : Nat) (cell : Cell), row[j]? = some cell → cell.2 ≤ (j : Int))
    (h : backtrack rows lenT = some mapping) :
    List.Chain' (fun a b => a ≤ b) mapping := by
  unfold backtrack at h
  cases hrev : rows.reverse with
  | nil =>
    rw [hrev] at h
    simp only [Option.some.injEq] at h
    subst h
    exact List.chain'_nil
  | cons last above =>
    rw [hrev] at h
    simp only at h
    cases hw : walkBack (last :: above).dropLast (lastCursorFrom lenT 0 last (-1, 0)).2 with
    | none => rw [hw] at h; simp at h
    | some ms =>
      rw [hw] at h
      simp only [Option.some.injEq] at h
      subst h
      rw [List.chain'_reverse]
      refine walkBack_chain _ _ ms (fun row hrow => hrows row ?_) hw
      have h1 : row ∈ last :: above := (List.dropLast_sublist _).subset hrow
      rw [← hrev] at h1
      exact List.mem_reverse.1 h1

/-- C24: the mapping that backtracking produces is non-decreasing: whenever backtracking
completes, `mapping[i] <= mapping[i+1]` for every `i`; and every recorded predecessor
`track[i][j]` is at most `j`. -/
theorem mapping_is_non_decreasing (source_chars target_chars : GoString) (i1 i2 : Int)
    (mapping : List Int)
    (h : backtrack (table source_chars target_chars i1 i2) target_chars.length = some mapping) :
    (∀ (i : Nat) (a b : Int), mapping[i]? = some a → mapping[i + 1]? = some b → a ≤ b) ∧
      (∀ (i j : Nat) (row : Row) (cell : Cell),
        (table source_chars target_chars i1 i2)[i]? = some row → row[j]? = some cell →
          cell.2 ≤ (j : Int)) := by
  have htrack : ∀ (i j : Nat) (row : Row) (cell : Cell),
      (table source_chars target_chars i1 i2)[i]? = some row → row[j]? = some cell →
        cell.2 ≤ (j : Int) :=
    fun i j row cell => table_track_le source_chars target_chars i1 i2 i j row cell
  refine ⟨fun i a b ha hb => ?_, htrack⟩
  have hch := backtrack_chain _ _ mapping
    (fun row hrow j cell hc => by
      obtain ⟨i, hi⟩ := List.getElem?_of_mem hrow
      exact htrack i j row cell hi hc) h
  have hi1 : i + 1 < mapping.length := (List.getElem?_eq_some.1 hb).1
  have := List.chain'_iff_get.1 hch i (by omega)
  rw [List.getElem?_eq_getElem (by omega)] at ha
  rw [List.getElem?_eq_getElem hi1] at hb
  simp only [List.get_eq_getElem] at this
  rw [Option.some.inj ha, Option.some.inj hb] at this
  exact this

/-- Witness of C24: the source `ab` against the target `xab`: the mapping is `[1, 2]`. -/
theorem mapping_is_non_decreasing_witness :
    (∀ (i : Nat) (a b : Int), ([1, 2] : List Int)[i]? = some a →
        ([1, 2] : List Int)[i + 1]? = some b → a ≤ b) ∧
      (∀ (i j : Nat) (row : Row) (cell : Cell),
        (table [97, 98] [120, 97, 98] 0 2)[i]? = some row → row[j]? = some cell →
          cell.2 ≤ (j : Int)) :=
  mapping_is_non_decreasing [97, 98] [120, 97, 98] 0 2 [1, 2] (by decide)

/-! ## The skip case of the DP -/

theorem nextRowFrom_skip_cell (c : Nat) (p : Int) (prev : Row) :
    ∀ (ts : GoString) (j : Nat) (best : Int × Int) (kr : Nat) (d t : Nat),
      ts[d]? = some t → t ≠ c →
      (nextRowFrom c p prev j ts best kr)[d]? =
        some (if prev.scoreAt (j + d) > -1 then (prev.scoreAt (j + d) + p, ((j + d : Nat) : Int))
              else (-1, -1)) := by
  intro ts
  induction ts with
  | nil => intro j best kr d t h; simp at h
  | cons t0 ts ih =>
    intro j best kr d t hd ht
    cases d with
    | zero =>
      simp only [List.getElem?_cons_zero, Option.some.injEq] at hd
      subst hd
      simp only [nextRowFrom]
      rw [if_neg (fun h => ht h.symm)]
      split
      · rename_i h
        simp [h]
      · rename_i h
        simp [h]
    | succ d =>
      simp only [List.getElem?_cons_succ] at hd
      simp only [nextRowFrom]
      rw [show j + (d + 1) = j + 1 + d by omega]
      split
      · simpa using ih (j + 1) _ j d t hd ht
      · split <;> simpa using ih (j + 1) best kr d t hd ht

/-- The skip case of the DP on the rows the loop visits: in a row `i + 1` of an ASCII source
and a column `j` with `T[j] != S[i+1]`, the cell is `(score[i][j] + p, j)` when
`score[i][j]` is defined and absent otherwise, with `p` the penalty of row `i + 1`. -/
theorem skip_case_on_ascii_source (source_chars target_chars : GoString) (i1 i2 : Int)
    (hascii : ∀ b ∈ source_chars, b < 128) (i j c t : Nat) (prev : Row)
    (hprev : (table source_chars target_chars i1 i2)[i]? = some prev)
    (hc : source_chars[i + 1]? = some c) (hj : target_chars[j]? = some t) (hne : t ≠ c) :
    ∃ row, (table source_chars target_chars i1 i2)[i + 1]? = some row ∧
      row[j]? = some
        (if prev.scoreAt j > -1 then
          (prev.scoreAt j + (if i1 ≤ ((i + 1 : Nat) : Int) ∧ ((i + 1 : Nat) : Int) < i2
            then 10 else 2), (j : Int))
         else (-1, -1)) := by
  refine ⟨_, table_step source_chars target_chars i1 i2 hascii i c prev hc hprev, ?_⟩
  have := nextRowFrom_skip_cell c (penaltyForSkippingThisChar i1 i2 (i + 1)) prev target_chars
    0 (-1, -1) 0 j t hj hne
  rw [Nat.zero_add] at this
  rw [this]
  rfl

/-- C25 fails on the code for a source with a multi-byte character: the source line `é`
(bytes 195, 169) against the target `a`, line 1, so `i1 = 0` and `i2 = 2`. The loop
`for i := range source_chars` visits row 0 only; row 1 keeps the zeroes of `make`:
`score[1][0] = 0` and `track[1][0] = 0`, where `T[0] != S[1]` and `score[0][0] = 10` is
defined, so that the claim gives `score[1][0] = 20`. -/
theorem skip_case_fails_inside_a_rune :
    table [195, 169] [97] 0 2 = [[(10, -1)], [(0, 0)]] ∧
      distinguishedRange [[195, 169]] 1 = some (0, 2) ∧
      penaltyForSkippingThisChar 0 2 1 = 10 ∧
      analyzeEditAndMapLine [[195, 169]] [[97]] 1 = .ok 1 := by
  refine ⟨by decide, by decide, by decide, ?_⟩
  rw [analyzeEditAndMapLine_short _ _ _ (by decide) (by decide) (by decide)]
  decide

/-! ## The start of backtracking -/

/-- The loop of fastforward.go:129-135 keeps its state, every defined cell being no better,
or moves to the first defined cell whose candidate score is the least. -/
theorem lastCursorFrom_spec (lenT : Nat) :
    ∀ (cells : Row) (j : Nat) (st : Int × Int),
      (lastCursorFrom lenT j cells st = st ∧
        ∀ (d : Nat) (cell : Cell), cells[d]? = some cell → 0 ≤ cell.1 →
          st.1 ≠ -1 ∧ st.1 ≤ cell.1 + penaltyForDistance ((lenT : Int) - 1 - ((j + d : Nat) : Int)))
      ∨ ∃ (d : Nat) (cell : Cell), cells[d]? = some cell ∧ 0 ≤ cell.1 ∧
          lastCursorFrom lenT j cells st
            = (cell.1 + penaltyForDistance ((lenT : Int) - 1 - ((j + d : Nat) : Int)),
                ((j + d : Nat) : Int)) ∧
          (st.1 = -1 ∨
            cell.1 + penaltyForDistance ((lenT : Int) - 1 - ((j + d : Nat) : Int)) < st.1) ∧
          (∀ (e : Nat) (other : Cell), e < d → cells[e]? = some other → 0 ≤ other.1 →
            cell.1 + penaltyForDistance ((lenT : Int) - 1 - ((j + d : Nat) : Int))
              < other.1 + penaltyForDistance ((lenT : Int) - 1 - ((j + e : Nat) : Int))) ∧
          (∀ (e : Nat) (other : Cell), cells[e]? = some other → 0 ≤ other.1 →
            cell.1 + penaltyForDistance ((lenT : Int) - 1 - ((j + d : Nat) : Int))
              ≤ other.1 + penaltyForDistance ((lenT : Int) - 1 - ((j + e : Nat) : Int))) := by
  intro cells
  induction cells with
  | nil =>
    intro j st
    exact Or.inl ⟨rfl, fun d cell h => by simp at h⟩
  | cons c cells ih =>
    intro j st
    have hpd := penaltyForDistance_cases ((lenT : Int) - 1 - ((j + 0 : Nat) : Int))
    simp only [lastCursorFrom]
    split
    · rename_i hupd
      -- the head cell is taken
      rcases ih (j + 1) (c.1 + penaltyForDistance ((lenT : Int) - 1 - j), (j : Int)) with
        ⟨h1, h2⟩ | ⟨d, cell, hd, hc, h1, h2, h3, h4⟩
      · right
        refine ⟨0, c, by simp, hupd.1, by rw [h1]; rfl, ?_, fun e other he => absurd he (by omega), ?_⟩
        · rcases hupd.2 with h | h
          · exact Or.inl h
          · exact Or.inr (by simpa using h)
        · intro e other he ho
          cases e with
          | zero =>
            simp only [List.getElem?_cons_zero, Option.some.injEq] at he
            subst he
            exact le_refl _
          | succ e =>
            simp only [List.getElem?_cons_succ] at he
            have := (h2 e other he ho).2
            simp only at this
            rw [show j + 1 + e = j + (e + 1) by omega] at this
            simpa using this
      · right
        simp only at h2
        have h2' : cell.1 + penaltyForDistance ((lenT : Int) - 1 - ((j + 1 + d : Nat) : Int))
            < c.1 + penaltyForDistance ((lenT : Int) - 1 - j) := by
          rcases h2 with h | h
          · have := penaltyForDistance_cases ((lenT : Int) - 1 - j)
            omega
          · exact h
        refine ⟨d + 1, cell, by simpa using hd, hc, ?_, ?_, ?_, ?_⟩
        · rw [h1, show j + 1 + d = j + (d + 1) by omega]
        · rw [show j + (d + 1) = j + 1 + d by omega]
          rcases hupd.2 with h | h
          · exact Or.inl h
          · right
            have : c.1 + penaltyForDistance ((lenT : Int) - 1 - j) < st.1 := by simpa using h
            omega
        · intro e other he hlt ho
          rw [show j + (d + 1) = j + 1 + d by omega]
          cases e with
          | zero =>
            simp only [List.getElem?_cons_zero, Option.some.injEq] at hlt
            subst hlt
            simpa using h2'
          | succ e =>
            simp only [List.getElem?_cons_succ] at hlt
            have := h3 e other (by omega) hlt ho
            rwa [show j + 1 + e = j + (e + 1) by omega] at this
        · intro e other he ho
          rw [show j + (d + 1) = j + 1 + d by omega]
          cases e with
          | zero =>
            simp only [List.getElem?_cons_zero, Option.some.injEq] at he
            subst he
            have := h2'
            simp only [Nat.add_zero]
            omega
          | succ e =>
            simp only [List.getElem?_cons_succ] at he
            have := h4 e other he ho
            rwa [show j + 1 + e = j + (e + 1) by omega] at this
    · rename_i hkeep
      rcases ih (j + 1) st with ⟨h1, h2⟩ | ⟨d, cell, hd, hc, h1, h2, h3, h4⟩
      · left
        refine ⟨h1, fun e other he ho => ?_⟩
        cases e with
        | zero =>
          simp only [List.getElem?_cons_zero, Option.some.injEq] at he
          subst he
          have hk : ¬ (st.1 = -1 ∨ st.1 > c.1 + penaltyForDistance ((lenT : Int) - 1 - j)) :=
            fun h => hkeep ⟨ho, h⟩
          simp only [Nat.add_zero]
          constructor
          · exact fun h => hk (Or.inl h)
          · by_contra hlt
            exact hk (Or.inr (by omega))
        | succ e =>
          simp only [List.getElem?_cons_succ] at he
          have := h2 e other he ho
          rwa [show j + 1 + e = j + (e + 1) by omega] at this
      · right
        have hhead : 0 ≤ c.1 →
            st.1 ≠ -1 ∧ st.1 ≤ c.1 + penaltyForDistance ((lenT : Int) - 1 - j) := by
          intro ho
          have hk : ¬ (st.1 = -1 ∨ st.1 > c.1 + penaltyForDistance ((lenT : Int) - 1 - j)) :=
            fun h => hkeep ⟨ho, h⟩
          constructor
          · exact fun h => hk (Or.inl h)
          · by_contra hlt
            exact hk (Or.inr (by omega))
        refine ⟨d + 1, cell, by simpa using hd, hc, ?_, ?_, ?_, ?_⟩
        · rw [h1, show j + 1 + d = j + (d + 1) by omega]
        · rwa [show j + (d + 1) = j + 1 + d by omega]
        · intro e other he hlt ho
          rw [show j + (d + 1) = j + 1 + d by omega]
          cases e with
          | zero =>
            simp only [List.getElem?_cons_zero, Option.some.injEq] at hlt
            subst hlt
            have := hhead ho
            simp only [Nat.add_zero]
            rcases h2 with h | h
            · exact absurd h this.1
            · omega
          | succ e =>
            simp only [List.getElem?_cons_succ] at hlt
            have := h3 e other (by omega) hlt ho
            rwa [show j + 1 + e = j + (e + 1) by omega] at this
        · intro e other he ho
          rw [show j + (d + 1) = j + 1 + d by omega]
          cases e with
          | zero =>
            simp only [List.getElem?_cons_zero, Option.some.injEq] at he
            subst he
            have := hhead ho
            simp only [Nat.add_zero]
            rcases h2 with h | h
            · exact absurd h this.1
            · omega
          | succ e =>
            simp only [List.getElem?_cons_succ] at he
            have := h4 e other he ho
            rwa [show j + 1 + e = j + (e + 1) by omega] at this

theorem walkBack_length :
    ∀ (rows : List Row) (cursor : Int) (ms : List Int),
      walkBack rows cursor = some ms → ms.length = rows.length := by
  intro rows
  induction rows with
  | nil =>
    intro cursor ms h
    simp only [walkBack, Option.some.injEq] at h
    subst h
    rfl
  | cons row rows ih =>
    intro cursor ms h
    simp only [walkBack] at h
    cases hc : index? row cursor with
    | none => rw [hc] at h; simp at h
    | some cell =>
      rw [hc] at h
      simp only at h
      cases hw : walkBack rows cell.2 with
      | none => rw [hw] at h; simp at h
      | some ms' =>
        rw [hw] at h
        simp only [Option.some.injEq] at h
        subst h
        simp [ih cell.2 ms' hw]

theorem backtrack_last (rows : List Row) (lenT : Nat) (last : Row) (mapping : List Int)
    (hlast : rows.getLast? = some last) (h : backtrack rows lenT = some mapping) :
    mapping.length = rows.length ∧
      mapping[rows.length - 1]? = some (lastCursorFrom lenT 0 last (-1, 0)).2 := by
  unfold backtrack at h
  cases hrev : rows.reverse with
  | nil =>
    have : rows = [] := by simpa using hrev
    subst this
    simp at hlast
  | cons l above =>
    have hl : l = last := by
      have := List.getLast?_reverse (l := rows.reverse)
      rw [List.reverse_reverse, hlast, hrev] at this
      simpa using this.symm
    subst hl
    have hlen : rows.length = above.length + 1 := by
      have := congrArg List.length hrev
      simpa using this
    rw [hrev] at h
    simp only at h
    cases hw : walkBack (l :: above).dropLast (lastCursorFrom lenT 0 l (-1, 0)).2 with
    | none => rw [hw] at h; simp at h
    | some ms =>
      rw [hw] at h
      simp only [Option.some.injEq] at h
      subst h
      have hms := walkBack_length _ _ ms hw
      simp only [List.length_dropLast, List.length_cons, Nat.add_sub_cancel] at hms
      refine ⟨by simp [hms, hlen], ?_⟩
      rw [List.reverse_cons, hlen, Nat.add_sub_cancel,
        List.getElem?_append_right (by simp [hms])]
      simp [hms]

/-- C26 (backtracking start): when the last row of the tables has a defined cell, the
cursor after the first iteration of the backtracking loop, and so `mapping[|S|-1]`
whenever backtracking completes, is the lowest column `c` among the defined cells of the
last row that minimises `score[|S|-1][c] + penaltyForDistance(|T| - 1 - c)`. -/
theorem backtracking_starts_at_the_best_cell (source_chars target_chars : GoString)
    (i1 i2 : Int) (last : Row)
    (hlast : (table source_chars target_chars i1 i2).getLast? = some last)
    (hdef : ∃ (j : Nat) (cell : Cell), last[j]? = some cell ∧ 0 ≤ cell.1) :
    ∃ (c : Nat) (cell : Cell), last[c]? = some cell ∧ 0 ≤ cell.1 ∧ c < target_chars.length ∧
      (lastCursorFrom target_chars.length 0 last (-1, 0)).2 = (c : Int) ∧
      (∀ (j : Nat) (other : Cell), last[j]? = some other → 0 ≤ other.1 →
        cell.1 + penaltyForDistance ((target_chars.length : Int) - 1 - c)
          ≤ other.1 + penaltyForDistance ((target_chars.length : Int) - 1 - j)) ∧
      (∀ (j : Nat) (other : Cell), j < c → last[j]? = some other → 0 ≤ other.1 →
        cell.1 + penaltyForDistance ((target_chars.length : Int) - 1 - c)
          < other.1 + penaltyForDistance ((target_chars.length : Int) - 1 - j)) ∧
      (∀ mapping : List Int,
        backtrack (table source_chars target_chars i1 i2) target_chars.length = some mapping →
          mapping[source_chars.length - 1]? = some (c : Int)) := by
  have hrowlen : last.length = target_chars.length := by
    obtain ⟨i, hi⟩ := List.getElem?_of_mem (List.mem_of_getLast?_eq_some hlast)
    exact table_row_length source_chars target_chars i1 i2 i last hi
  rcases lastCursorFrom_spec target_chars.length last 0 (-1, 0) with
    ⟨_, h2⟩ | ⟨d, cell, hd, hc, h1, _, h3, h4⟩
  · obtain ⟨j, cell, hj, hc⟩ := hdef
    exact absurd rfl (h2 j cell hj hc).1
  · simp only [Nat.zero_add] at h1 h3 h4
    refine ⟨d, cell, hd, hc, ?_, by rw [h1], h4, fun j other hj => h3 j other hj, ?_⟩
    · have := (List.getElem?_eq_some.1 hd).1
      omega
    · intro mapping hm
      have := (backtrack_last _ _ last mapping hlast hm).2
      rw [table_length, h1] at this
      exact this

/-- Witness of C26: the source `ab` against the target `xab` with `[i1, i2) = [0, 2)`: the
last row holds the scores 20, 11 and 2, and backtracking starts at column 2. -/
theorem backtracking_starts_at_the_best_cell_witness :
    ∃ (c : Nat) (cell : Cell), ([(20, 0), (11, 1), (2, 1)] : Row)[c]? = some cell ∧
      0 ≤ cell.1 ∧ c < ([120, 97, 98] : GoString).length ∧
      (lastCursorFrom ([120, 97, 98] : GoString).length 0 [(20, 0), (11, 1), (2, 1)] (-1, 0)).2
        = (c : Int) ∧
      (∀ (j : Nat) (other : Cell), ([(20, 0), (11, 1), (2, 1)] : Row)[j]? = some other →
        0 ≤ other.1 →
        cell.1 + penaltyForDistance ((([120, 97, 98] : GoString).length : Int) - 1 - c)
          ≤ other.1 + penaltyForDistance ((([120, 97, 98] : GoString).length : Int) - 1 - j)) ∧
      (∀ (j : Nat) (other : Cell), j < c →
        ([(20, 0), (11, 1), (2, 1)] : Row)[j]? = some other → 0 ≤ other.1 →
        cell.1 + penaltyForDistance ((([120, 97, 98] : GoString).length : Int) - 1 - c)
          < other.1 + penaltyForDistance ((([120, 97, 98] : GoString).length : Int) - 1 - j)) ∧
      (∀ mapping : List Int,
        backtrack (table [97, 98] [120, 97, 98] 0 2) ([120, 97, 98] : GoString).length
            = some mapping →
          mapping[([97, 98] : GoString).length - 1]? = some (c : Int)) :=
  backtracking_starts_at_the_best_cell [97, 98] [120, 97, 98] 0 2 [(20, 0), (11, 1), (2, 1)]
    (by decide) ⟨2, (2, 1), by decide, by decide⟩

/-! ## The projection on the target lines -/

theorem advance_le (beginnings : List Int) (m : Int) (last : Nat) :
    ∀ (n j : Nat), j ≤ last → advance beginnings m last n j ≤ last := by
  intro n
  induction n with
  | zero => intro j h; exact h
  | succ n ih =>
    intro j h
    simp only [advance]
    split
    · split
      · exact h
      · exact ih (j + 1) (by omega)
    · exact h

theorem sum_modify_succ :
    ∀ (hs : List Int) (t : Nat), t < hs.length → (hs.modify (· + 1) t).sum = hs.sum + 1 := by
  intro hs
  induction hs with
  | nil => intro t h; simp at h
  | cons h hs ih =>
    intro t ht
    cases t with
    | zero => simp [List.modify]; ring
    | succ t =>
      have := ih t (by simpa using ht)
      simp only [List.modify_succ_cons, List.sum_cons, this]
      ring

theorem projectOnLines_sum (beginnings : List Int) (last : Nat) :
    ∀ (ms : List Int) (j : Nat) (histogram : List Int), j ≤ last → last < histogram.length →
      (projectOnLines beginnings last ms j histogram).sum = histogram.sum + ms.length := by
  intro ms
  induction ms with
  | nil => intro j histogram _ _; simp [projectOnLines]
  | cons m ms ih =>
    intro j histogram hj hlast
    have hadv := advance_le beginnings m last (last - j) j hj
    simp only [projectOnLines]
    rw [ih _ _ hadv (by rw [List.length_modify]; exact hlast),
      sum_modify_succ histogram _ (by omega)]
    simp only [List.length_cons]
    push_cast
    ring

theorem lineStart_lt_succ (X : List GoString) (d : Nat) (hd : d < X.length) :
    lineStart X d < lineStart X (d + 1) := by
  rw [lineStart_succ X d X[d] (List.getElem?_eq_getElem hd)]
  omega

/-- An offset between the start of line `j` and the end of the text lies in exactly one
line `t >= j`. -/
theorem line_of_offset (X : List GoString) (m : Int) :
    ∀ (n j : Nat), X.length - j ≤ n → lineStart X j ≤ m → m < lineStart X X.length →
      ∃ t, j ≤ t ∧ t < X.length ∧ lineStart X t ≤ m ∧ m < lineStart X (t + 1) := by
  intro n
  induction n with
  | zero =>
    intro j hn h1 h2
    have := lineStart_mono X X.length j (by omega)
    omega
  | succ n ih =>
    intro j hn h1 h2
    have hj : j < X.length := by
      by_contra h
      have := lineStart_mono X X.length j (by omega)
      omega
    by_cases hm : m < lineStart X (j + 1)
    · exact ⟨j, le_refl _, hj, h1, hm⟩
    · obtain ⟨t, ht1, ht2, ht3, ht4⟩ := ih (j + 1) (by omega) (by omega) h2
      exact ⟨t, by omega, ht2, ht3, ht4⟩

theorem projectOnLines_count (X : List GoString) :
    ∀ (ms : List Int) (j : Nat) (histogram : List Int),
      histogram.length = X.length → ms.Pairwise (· ≤ ·) →
      (∀ m ∈ ms, lineStart X j ≤ m ∧ m < lineStart X X.length) →
      ∀ n, n < X.length →
        (projectOnLines (lineBeginningsFrom 0 X) (X.length - 1) ms j histogram)[n]? =
          some (histogram.getD n 0 +
            ms.countP (fun m => decide (lineStart X n ≤ m ∧ m < lineStart X (n + 1)))) := by
  intro ms
  induction ms with
  | nil =>
    intro j histogram hlen _ _ n hn
    simp only [projectOnLines, List.countP_nil, Nat.cast_zero, add_zero]
    rw [List.getD_eq_getElem?_getD, List.getElem?_eq_getElem (by omega)]
    rfl
  | cons m ms ih =>
    intro j histogram hlen hsorted hrange n hn
    have hm := hrange m (by simp)
    obtain ⟨t, ht1, ht2, ht3, ht4⟩ := line_of_offset X m (X.length - j) j (le_refl _) hm.1 hm.2
    have hadv : advance (lineBeginningsFrom 0 X) m (X.length - 1) (X.length - 1 - j) j = t := by
      refine advance_reach _ _ _ t (Or.inr ?_) _ j ht1 (by omega) (le_refl _) ?_
      · rw [getD_beginnings X t (by omega), getD_beginnings X (t + 1) (by omega)]
        exact ⟨ht3, ht4⟩
      · intro j' _ hj' hin
        rw [getD_beginnings X j' (by omega), getD_beginnings X (j' + 1) (by omega)] at hin
        have := lineStart_mono X (j' + 1) t (by omega)
        omega
    have hsorted' := List.pairwise_cons.1 hsorted
    simp only [projectOnLines, hadv]
    rw [ih t _ (by rw [List.length_modify]; exact hlen) hsorted'.2
      (fun m' hm' => ⟨le_trans ht3 (hsorted'.1 m' hm'), (hrange m' (by simp [hm'])).2⟩) n hn]
    congr 1
    have hcell : (List.modify (· + 1) t histogram).getD n 0
        = histogram.getD n 0 + if t = n then 1 else 0 := by
      rw [List.getD_eq_getElem?_getD, List.getD_eq_getElem?_getD, List.getElem?_modify,
        List.getElem?_eq_getElem (by omega)]
      by_cases htn : t = n <;> simp [htn]
    have hin : (lineStart X n ≤ m ∧ m < lineStart X (n + 1)) ↔ t = n := by
      constructor
      · intro h
        by_contra hne
        rcases Nat.lt_or_gt_of_ne hne with h' | h'
        · have := lineStart_mono X (t + 1) n (by omega)
          omega
        · have := lineStart_mono X (n + 1) t (by omega)
          omega
      · rintro rfl
        exact ⟨ht3, ht4⟩
    rw [hcell, List.countP_cons]
    by_cases htn : t = n
    · have : decide (lineStart X n ≤ m ∧ m < lineStart X (n + 1)) = true := by
        simpa using hin.2 htn
      simp only [htn, this, if_true]
      push_cast
      ring
    · have : decide (lineStart X n ≤ m ∧ m < lineStart X (n + 1)) = false := by
        simpa using fun h1 h2 => htn (hin.1 ⟨h1, h2⟩)
      simp [htn, this]

theorem pairwise_of_steps (mapping : List Int)
    (hmono : ∀ (i : Nat) (a b : Int), mapping[i]? = some a → mapping[i + 1]? = some b → a ≤ b) :
    mapping.Pairwise (· ≤ ·) := by
  rw [← List.chain'_iff_pairwise, List.chain'_iff_get]
  intro i hi
  simp only [List.get_eq_getElem]
  exact hmono i _ _ (List.getElem?_eq_getElem (by omega)) (List.getElem?_eq_getElem (by omega))

/-- C27 (histogram projection): for a non-empty list of target lines and a non-decreasing
mapping with entries in `[0, |T|)`, after the projection loop over `mapping[i1:i2]` the
entry `target_line_histogram[n]` is the number of offsets in `[i1, i2)` whose image `m`
satisfies `target_line_beginnings[n] <= m < target_line_beginnings[n+1]`, for every target
line `n`, and the entries sum to `i2 - i1`. -/
theorem histogram_counts_the_distinguished_offsets (target_lines : List GoString)
    (mapping important : List Int) (i1 i2 : Int) (hT : target_lines ≠ [])
    (hmono : ∀ (i : Nat) (a b : Int), mapping[i]? = some a → mapping[i + 1]? = some b → a ≤ b)
    (hrange : ∀ m ∈ mapping, 0 ≤ m ∧ m < ((stringsJoin target_lines newline).length : Int))
    (hslice : slice? mapping i1 i2 = some important) :
    (∀ n, n < target_lines.length →
      (projectOnLines (lineBeginningsFrom 0 target_lines) (target_lines.length - 1)
          important 0 (target_lines.map (fun _ => 0)))[n]? =
        some ((important.countP (fun m =>
          decide ((lineBeginningsFrom 0 target_lines).getD n 0 ≤ m ∧
            m < (lineBeginningsFrom 0 target_lines).getD (n + 1) 0)) : Nat) : Int)) ∧
      (projectOnLines (lineBeginningsFrom 0 target_lines) (target_lines.length - 1)
          important 0 (target_lines.map (fun _ => 0))).sum = i2 - i1 := by
  have hlen : 0 < target_lines.length := List.length_pos.2 hT
  have hsub : important.Sublist mapping := by
    unfold slice? at hslice
    split at hslice
    · rw [← Option.some.inj hslice]
      exact (List.take_sublist _ _).trans (List.drop_sublist _ _)
    · exact absurd hslice (by simp)
  have hsorted : important.Pairwise (· ≤ ·) := (pairwise_of_steps mapping hmono).sublist hsub
  have hjoin := stringsJoin_length target_lines hT
  constructor
  · intro n hn
    have := projectOnLines_count target_lines important 0 (target_lines.map (fun _ => 0))
      (by simp) hsorted
      (fun m hm => by
        have := hrange m (hsub.subset hm)
        rw [lineStart_zero]
        omega) n hn
    rw [this, getD_beginnings target_lines n (by omega),
      getD_beginnings target_lines (n + 1) (by omega)]
    congr 1
    rw [List.getD_eq_getElem?_getD, zeros_getElem?, if_pos hn]
    simp
  · rw [projectOnLines_sum _ _ important 0 _ (Nat.zero_le _) (by simp; omega),
      slice?_length mapping important i1 i2 hslice]
    simp

/-- Witness of C27: the target lines `ab`, `cd` (beginnings 0, 3, 6) and the mapping
`[0, 1, 3, 4]` with `[i1, i2) = [1, 4)`: one offset falls on line 1, two on line 2. -/
theorem histogram_counts_the_distinguished_offsets_witness :
    (∀ n, n < ([[97, 98], [99, 100]] : List GoString).length →
      (projectOnLines (lineBeginningsFrom 0 [[97, 98], [99, 100]])
          (([[97, 98], [99, 100]] : List GoString).length - 1)
          [1, 3, 4] 0 (([[97, 98], [99, 100]] : List GoString).map (fun _ => 0)))[n]? =
        some ((([1, 3, 4] : List Int).countP (fun m =>
          decide ((lineBeginningsFrom 0 [[97, 98], [99, 100]]).getD n 0 ≤ m ∧
            m < (lineBeginningsFrom 0 [[97, 98], [99, 100]]).getD (n + 1) 0)) : Nat) : Int)) ∧
      (projectOnLines (lineBeginningsFrom 0 [[97, 98], [99, 100]])
          (([[97, 98], [99, 100]] : List GoString).length - 1)
          [1, 3, 4] 0 (([[97, 98], [99, 100]] : List GoString).map (fun _ => 0))).sum
        = 4 - 1 :=
  histogram_counts_the_distinguished_offsets [[97, 98], [99, 100]] [0, 1, 3, 4] [1, 3, 4] 1 4
    (by decide)
    (fun i a b ha hb => by
      have hi : i + 1 < 4 := (List.getElem?_eq_some.1 hb).1
      have h3 : i = 0 ∨ i = 1 ∨ i = 2 := by omega
      rcases h3 with rfl | rfl | rfl <;> simp at ha hb <;> omega)
    (by decide) (by decide)

/-! ## The bound on the scores -/

theorem penaltyForDistance_range (d : Int) :
    0 ≤ penaltyForDistance d ∧ penaltyForDistance d ≤ 2 := by
  unfold penaltyForDistance
  split_ifs <;> omega

theorem penaltyForSkippingThisChar_le (i1 i2 : Int) (i : Nat) :
    penaltyForSkippingThisChar i1 i2 i ≤ 10 := by
  unfold penaltyForSkippingThisChar penaltyForSkippingImportantLine penaltyForSkipping
  split_ifs <;> decide

theorem Row.scoreAt_le (row : Row) (M : Int) (hM : -1 ≤ M)
    (h : ∀ (j : Nat) (cell : Cell), row[j]? = some cell → cell.1 ≤ M) (k : Nat) :
    row.scoreAt k ≤ M := by
  unfold Row.scoreAt
  cases hk : row[k]? with
  | none => rw [List.getD_eq_getElem?_getD, hk]; exact hM
  | some cell => rw [List.getD_eq_getElem?_getD, hk]; exact h k cell hk

theorem scanPredecessors_bound (prev : Row) (j : Nat) (M : Int)
    (hprev : ∀ k, prev.scoreAt k ≤ M) :
    ∀ (n k : Nat) (best : Int × Int), -1 ≤ best.1 → best.1 ≤ M + 2 →
      -1 ≤ (scanPredecessors prev j n k best).1 ∧
        (scanPredecessors prev j n k best).1 ≤ M + 2 := by
  intro n
  induction n with
  | zero => intro k best h1 h2; exact ⟨h1, h2⟩
  | succ n ih =>
    intro k best h1 h2
    have hpd := penaltyForDistance_range ((j : Int) - k)
    have hk := hprev k
    simp only [scanPredecessors]
    split
    · exact ih _ _ h1 h2
    · split
      · exact ih _ _ (by simp only; omega) (by simp only; omega)
      · exact ih _ _ h1 h2

theorem nextRowFrom_bound (c : Nat) (p : Int) (prev : Row) (M : Int)
    (hp1 : 0 ≤ p) (hp2 : p ≤ 10) (hprev : ∀ k, prev.scoreAt k ≤ M) :
    ∀ (ts : GoString) (j : Nat) (best : Int × Int) (kr : Nat),
      -1 ≤ best.1 → best.1 ≤ M + 2 →
      ∀ (d : Nat) (cell : Cell), (nextRowFrom c p prev j ts best kr)[d]? = some cell →
        -1 ≤ cell.1 ∧ cell.1 ≤ M + 10 := by
  intro ts
  induction ts with
  | nil => intro j best kr _ _ d cell h; simp [nextRowFrom] at h
  | cons t ts ih =>
    intro j best kr h1 h2 d cell h
    simp only [nextRowFrom] at h
    split at h
    · have hs := scanPredecessors_bound prev j M hprev (j - kr) kr best h1 h2
      cases d with
      | zero =>
        simp only [List.getElem?_cons_zero, Option.some.injEq] at h
        subst h
        exact ⟨hs.1, by omega⟩
      | succ d =>
        simp only [List.getElem?_cons_succ] at h
        exact ih _ _ _ hs.1 hs.2 d cell h
    · split at h
      · rename_i hdef
        cases d with
        | zero =>
          simp only [List.getElem?_cons_zero, Option.some.injEq] at h
          subst h
          have := hprev j
          simp only
          omega
        | succ d =>
          simp only [List.getElem?_cons_succ] at h
          exact ih _ _ _ h1 h2 d cell h
      · cases d with
        | zero =>
          simp only [List.getElem?_cons_zero, Option.some.injEq] at h
          subst h
          have := hprev 0
          simp only
          have := hprev j
          unfold Row.scoreAt at *
          omega
        | succ d =>
          simp only [List.getElem?_cons_succ] at h
          exact ih _ _ _ h1 h2 d cell h

theorem table_score_bound (S T : GoString) (i1 i2 : Int) (i j : Nat) (row : Row) (cell : Cell)
    (hrow : (table S T i1 i2)[i]? = some row) (hcell : row[j]? = some cell) :
    -1 ≤ cell.1 ∧ cell.1 ≤ 10 * ((i : Int) + 1) := by
  refine table_rows S T i1 i2
    (fun i row => ∀ (j : Nat) (cell : Cell), row[j]? = some cell →
      -1 ≤ cell.1 ∧ cell.1 ≤ 10 * ((i : Int) + 1))
    ?_ ?_ ?_ i row hrow j cell hcell
  · intro c j cell h
    obtain ⟨t, _, rfl⟩ := firstRowFrom_cell c _ T 0 j cell h
    have h1 := penaltyForDistance_range ((0 + j : Nat) : Int)
    have h2 := penaltyForSkippingThisChar_ge i1 i2 0
    have h3 := penaltyForSkippingThisChar_le i1 i2 0
    simp only
    split_ifs <;> omega
  · intro i c prev hprev j cell h
    have hs : ∀ k, prev.scoreAt k ≤ 10 * ((i : Int) + 1) :=
      Row.scoreAt_le prev _ (by omega) (fun j cell hc => (hprev j cell hc).2)
    have := nextRowFrom_bound c _ prev _
      (le_trans (by decide) (penaltyForSkippingThisChar_ge i1 i2 (i + 1)))
      (penaltyForSkippingThisChar_le i1 i2 (i + 1)) hs T 0 (-1, -1) 0
      (le_refl _) (by simp only; omega) j cell h
    push_cast
    omega
  · intro i j cell h
    rw [untouchedRow_cell T j cell h]
    simp only
    omega

theorem tableFrom_of_mismatches (n : Nat) :
    ∀ (m i : Nat) (s t : Int), 1 ≤ i → i + m ≤ n → 0 ≤ s →
      ∀ d, d < m →
        ((tableFrom [97] 0 n i 0 [(s, t)] (List.replicate m 98))[d]?).map
          (fun row => row.scoreAt 0) = some (s + 10 * ((d : Int) + 1)) := by
  intro m
  induction m with
  | zero => intro i s t _ _ _ d hd; omega
  | succ m ih =>
    intro i s t hi hn hs d hd
    have hp : penaltyForSkippingThisChar 0 n i = 10 := by
      unfold penaltyForSkippingThisChar
      rw [if_pos (by omega)]
      rfl
    have hrow : nextRowFrom 98 10 [(s, t)] 0 [97] (-1, -1) 0 = [(s + 10, 0)] := by
      have h98 : ¬ (98 : Nat) = 97 := by decide
      have hsc : Row.scoreAt [(s, t)] 0 = s := rfl
      simp only [nextRowFrom, h98, if_false, hsc]
      rw [if_pos (by omega)]
      rfl
    rw [List.replicate_succ, tableFrom, if_neg (by omega), hp, hrow,
      runeWidth_ascii 98 _ (by decide)]
    cases d with
    | zero => simp [Row.scoreAt]
    | succ d =>
      simp only [List.getElem?_cons_succ, Nat.sub_self]
      rw [ih (i + 1) (s + 10) 0 (by omega) (by omega) (by omega) d (by omega)]
      push_cast
      congr 1
      ring

theorem table_of_mismatches (n : Nat) (hn : 1 ≤ n) :
    ((table (List.replicate n 98) [97] 0 n)[n - 1]?).map (fun row => row.scoreAt 0)
      = some (10 * (n : Int)) := by
  obtain ⟨m, rfl⟩ : ∃ m, n = m + 1 := ⟨n - 1, by omega⟩
  have hp : penaltyForSkippingThisChar 0 ((m + 1 : Nat) : Int) 0 = 10 := by
    unfold penaltyForSkippingThisChar
    rw [if_pos ⟨by simp, by push_cast; omega⟩]
    rfl
  have hrow : firstRowFrom 98 10 0 [97] = [(10, -1)] := by decide
  unfold table
  rw [List.replicate_succ, tableFrom, if_pos rfl, hp, hrow, runeWidth_ascii 98 _ (by decide)]
  cases m with
  | zero => simp [Row.scoreAt]
  | succ m =>
    simp only [Nat.add_sub_cancel, List.getElem?_cons_succ, Nat.sub_self]
    rw [tableFrom_of_mismatches _ (m + 1) 1 10 (-1) (le_refl _) (by omega)
      (by decide) m (by omega)]
    push_cast
    congr 1
    ring

theorem distinguishedRange_single (line : GoString) :
    distinguishedRange [line] 1 = some (0, (line.length : Int)) := by
  have h1 : slice? [line] 0 (1 - 1) = some [] := by
    unfold slice?
    rw [if_pos (by simp)]
    simp
  have h2 : index? [line] (1 - 1) = some line := by
    unfold index?
    simp
  unfold distinguishedRange
  rw [h1, h2]
  simp [stringsJoin]

/-- C28 as stated is false for a long line: the window bounds the number of lines of the
source, not of its bytes. A source of one line of 214748365 bytes `b` against the target
`a` (line 1, so `i1 = 0` and `i2 = 214748365`) mismatches in every row at the penalty 10:
the last row has the score 2147483650, which a signed 32-bit integer does not hold. -/
theorem score_of_a_long_line_exceeds_32_bits :
    ([List.replicate 214748365 98] : List GoString).length ≤ 8 ∧
      distinguishedRange [List.replicate 214748365 98] 1 = some (0, 214748365) ∧
      ((table (List.replicate 214748365 98) [97] 0 214748365)[214748365 - 1]?).map
        (fun row => row.scoreAt 0) = some 2147483650 ∧
      (2147483650 : Int) > 2 ^ 31 - 1 := by
  refine ⟨by rw [List.length_singleton]; omega, ?_,
    (table_of_mismatches 214748365 (by omega)).trans (by norm_num), by norm_num⟩
  exact (distinguishedRange_single (List.replicate 214748365 98)).trans
    (by rw [List.length_replicate]; rfl)

/-- C28, amended: in every run of the DP every cell holds `-1` (absent) or a score between
0 and `10 * (i + 1)`, so that every score is at most `10 * |S|` and every final candidate
(with the penalty of the trailing gap) at most `10 * |S| + 2`; when the source text has at
most 214748364 bytes, every score and every final candidate fits a signed 32-bit
integer. -/
theorem score_bound (source_chars target_chars : GoString) (i1 i2 : Int) (i j : Nat)
    (row : Row) (cell : Cell)
    (hrow : (table source_chars target_chars i1 i2)[i]? = some row)
    (hcell : row[j]? = some cell) :
    -1 ≤ cell.1 ∧ cell.1 ≤ 10 * ((i : Int) + 1) ∧
      cell.1 ≤ 10 * (source_chars.length : Int) ∧
      cell.1 + penaltyForDistance ((target_chars.length : Int) - 1 - j)
        ≤ 10 * (source_chars.length : Int) + 2 ∧
      (source_chars.length ≤ 214748364 →
        cell.1 + penaltyForDistance ((target_chars.length : Int) - 1 - j) ≤ 2 ^ 31 - 1) := by
  have hb := table_score_bound source_chars target_chars i1 i2 i j row cell hrow hcell
  have hi : i < source_chars.length := by
    have := (List.getElem?_eq_some.1 hrow).1
    rwa [table_length] at this
  have hpd := penaltyForDistance_range ((target_chars.length : Int) - 1 - j)
  refine ⟨hb.1, hb.2, by omega, by omega, fun h => ?_⟩
  have : (2 : Int) ^ 31 = 2147483648 := by norm_num
  rw [this]
  omega

/-- Witness of C28 as amended: the text `ab` against itself with `[i1, i2) = [0, 1)`: the
cell of row 1 and column 1, a match one column after the cell of row 0, holds the
score 1. -/
theorem score_bound_witness :
    -1 ≤ ((1, 0) : Cell).1 ∧ ((1, 0) : Cell).1 ≤ 10 * (((1 : Nat) : Int) + 1) ∧
      ((1, 0) : Cell).1 ≤ 10 * (([97, 98] : GoString).length : Int) ∧
      ((1, 0) : Cell).1
          + penaltyForDistance ((([97, 98] : GoString).length : Int) - 1 - (1 : Nat))
        ≤ 10 * (([97, 98] : GoString).length : Int) + 2 ∧
      (([97, 98] : GoString).length ≤ 214748364 →
        ((1, 0) : Cell).1
          + penaltyForDistance ((([97, 98] : GoString).length : Int) - 1 - (1 : Nat))
          ≤ 2 ^ 31 - 1) :=
  score_bound [97, 98] [97, 98] 0 1 1 1 [(2, 0), (1, 0)] (1, 0) (by decide) (by decide)

end Livegrep
